import Mathlib

/-!
# kfifo: a shallow embedding of `src/kfifo.c`

Integer model: GNU C on an LP64 target. `unsigned int` and `int` are 32 bits wide,
`unsigned long` and `size_t` are 64 bits wide. Machine integers are natural numbers
with an explicit reduction modulo `2 ^ 32` or `2 ^ 64` at every operation that can
wrap. A signed `int` is carried as its 32-bit pattern. Left shifts of a signed `int`
wrap (GNU C defines them); a shift whose count is negative or not below the width
of the left operand has no defined result and is modelled by `none`.

Memory model: every buffer (`fifo->data`, `src`, `dst`) is a separate object, a
function from byte offsets to bytes. A pointer is `some` object or `none` (NULL).
Functions that receive `struct __kfifo *fifo` return the structure they leave behind.
-/

namespace Kfifo

/-- Byte-addressed memory object: offset to byte. -/
abbrev Mem := Nat → Nat

/-- Addition of two `unsigned int` values. -/
def add32 (a b : Nat) : Nat := (a + b) % 2 ^ 32

/-- Subtraction of two `unsigned int` values (wraps below zero). -/
def sub32 (a b : Nat) : Nat := (a + 2 ^ 32 - b % 2 ^ 32) % 2 ^ 32

/-- Multiplication of two `unsigned int` values. -/
def mul32 (a b : Nat) : Nat := (a * b) % 2 ^ 32

/-- Subtraction of two 64-bit unsigned values (wraps below zero). -/
def sub64 (a b : Nat) : Nat := (a + 2 ^ 64 - b % 2 ^ 64) % 2 ^ 64

/-- Value of a 32-bit pattern read as a signed `int`. -/
def int32 (x : Nat) : Int := if x % 2 ^ 32 < 2 ^ 31 then (x % 2 ^ 32 : Nat) else (x % 2 ^ 32 : Nat) - 2 ^ 32

/-- Left shift of an `unsigned long` by an `int` count: undefined (none) when the
count is negative or at least 64. -/
def shl_ul (v : Nat) (n : Int) : Option Nat :=
  if 0 ≤ n ∧ n < 64 then some ((v <<< n.toNat) % 2 ^ 64) else none

/-- The errno value `EINVAL`. -/
def EINVAL : Int := 22

/-- The errno value `ENOMEM`. -/
def ENOMEM : Int := 12

/-- The C library `memcpy(dst + d, src + s, n)` on two distinct objects: the object
`dst` after the call. -/
def memcpy (dst : Mem) (d : Nat) (src : Mem) (s : Nat) (n : Nat) : Mem :=
  fun a => if d ≤ a ∧ a < d + n then src (s + (a - d)) else dst a

/-- The structure `struct __kfifo`: the field `in` is spelled `in_`. -/
structure __kfifo where
  in_ : Nat
  out : Nat
  mask : Nat
  esize : Nat
  data : Option Mem

/-- Source: `kfifo_unused`, `(fifo->mask + 1) - (fifo->in - fifo->out)`. -/
def kfifo_unused (fifo : __kfifo) : Nat :=
  sub32 (add32 fifo.mask 1) (sub32 fifo.in_ fifo.out)

/-- One conditional step of `fls`: when no bit of `m` is set in `x`, shift `x` left by
`sh` (as a 32-bit `int`) and lower `r` by `sh`. The pair is `(x, r)`. -/
def fls_step (m sh : Nat) (s : Nat × Nat) : Nat × Nat :=
  if s.1 &&& m = 0 then ((s.1 <<< sh) % 2 ^ 32, s.2 - sh) else s

/-- Source: `fls`, on the 32-bit pattern of its `int` argument. -/
def fls (x : Nat) : Nat :=
  if x = 0 then 0
  else
    (fls_step 0x80000000 1
      (fls_step 0xc0000000 2
        (fls_step 0xf0000000 4
          (fls_step 0xff000000 8
            (fls_step 0xffff0000 16 (x, 32)))))).2

/-- Source: `roundup_pow_of_two`, `1UL << fls(x - 1)` with `x` an `unsigned long`;
the argument of `fls` is converted to `int`. -/
def roundup_pow_of_two (x : Nat) : Option Nat :=
  shl_ul 1 (fls (sub64 x 1 % 2 ^ 32) : Nat)

/-- Source: `rounddown_pow_of_two`, `1UL << (fls(x) - 1)`; the subtraction is on `int`. -/
def rounddown_pow_of_two (x : Nat) : Option Nat :=
  shl_ul 1 ((fls (x % 2 ^ 32) : Nat) - 1 : Int)

/-- Source: `is_power_of_2`, on the 32-bit pattern of its `int` argument:
`(x > 0) && ((x & (x - 1)) == 0)`. -/
def is_power_of_2 (x : Nat) : Bool :=
  decide (0 < int32 x) && (x &&& sub32 x 1 == 0)

/-- Source: `__kfifo_alloc`. The allocator `kmalloc` is a parameter: it maps a byte count
to a fresh object or to NULL. The result is the structure and the returned `int`. -/
def __kfifo_alloc (kmalloc : Nat → Option Mem) (fifo : __kfifo) (size esize : Nat) :
    Option (__kfifo × Int) :=
  (roundup_pow_of_two size).map fun r =>
    let size := r % 2 ^ 32
    let fifo := { fifo with in_ := 0, out := 0, esize := esize % 2 ^ 32 }
    if size < 2 then
      ({ fifo with data := none, mask := 0 }, -EINVAL)
    else
      let fifo := { fifo with data := kmalloc ((size * esize) % 2 ^ 64) }
      if fifo.data.isNone then
        ({ fifo with mask := 0 }, -ENOMEM)
      else
        ({ fifo with mask := sub32 size 1 }, 0)

/-- Source: `__kfifo_free`. -/
def __kfifo_free (_fifo : __kfifo) : __kfifo :=
  { in_ := 0, out := 0, esize := 0, data := none, mask := 0 }

/-- Source: `__kfifo_init`. Division by a zero `esize` is undefined (none). -/
def __kfifo_init (fifo : __kfifo) (buffer : Option Mem) (size esize : Nat) :
    Option (__kfifo × Int) :=
  if esize = 0 then none
  else
    let size := size / esize
    (if is_power_of_2 size then some size
      else (rounddown_pow_of_two size).map (· % 2 ^ 32)).map fun size =>
      let fifo := { fifo with in_ := 0, out := 0, esize := esize % 2 ^ 32, data := buffer }
      if size < 2 then
        ({ fifo with mask := 0 }, -EINVAL)
      else
        ({ fifo with mask := sub32 size 1 }, 0)

/-- Source: `kfifo_copy_in`. A NULL `data` is left as it is. -/
def kfifo_copy_in (fifo : __kfifo) (src : Mem) (len off : Nat) : __kfifo :=
  let size := add32 fifo.mask 1
  let esize := fifo.esize
  let off := off &&& fifo.mask
  let off := if esize ≠ 1 then mul32 off esize else off
  let size := if esize ≠ 1 then mul32 size esize else size
  let len := if esize ≠ 1 then mul32 len esize else len
  let l := min len (sub32 size off)
  { fifo with
    data := fifo.data.map fun d => memcpy (memcpy d off src 0 l) 0 src l (sub32 len l) }

/-- Source: `__kfifo_in`: the structure afterwards and the returned count. -/
def __kfifo_in (fifo : __kfifo) (buf : Mem) (len : Nat) : __kfifo × Nat :=
  let l := kfifo_unused fifo
  let len := if len > l then l else len
  let fifo := kfifo_copy_in fifo buf len fifo.in_
  ({ fifo with in_ := add32 fifo.in_ len }, len)

/-- Source: `kfifo_copy_out`: the structure and the object `dst` afterwards. With a
NULL `data` the object `dst` is left as it is. -/
def kfifo_copy_out (fifo : __kfifo) (dst : Mem) (len off : Nat) : __kfifo × Mem :=
  let size := add32 fifo.mask 1
  let esize := fifo.esize
  let off := off &&& fifo.mask
  let off := if esize ≠ 1 then mul32 off esize else off
  let size := if esize ≠ 1 then mul32 size esize else size
  let len := if esize ≠ 1 then mul32 len esize else len
  let l := min len (sub32 size off)
  (fifo, match fifo.data with
    | some d => memcpy (memcpy dst 0 d off l) l d 0 (sub32 len l)
    | none => dst)

/-- Source: `__kfifo_out_peek`: the structure, the object `buf` and the returned count. -/
def __kfifo_out_peek (fifo : __kfifo) (buf : Mem) (len : Nat) : __kfifo × Mem × Nat :=
  let l := sub32 fifo.in_ fifo.out
  let len := if len > l then l else len
  let r := kfifo_copy_out fifo buf len fifo.out
  (r.1, r.2, len)

/-- Source: `__kfifo_out`: the structure, the object `buf` and the returned count. -/
def __kfifo_out (fifo : __kfifo) (buf : Mem) (len : Nat) : __kfifo × Mem × Nat :=
  let r := __kfifo_out_peek fifo buf len
  let fifo := r.1
  let len := r.2.2
  ({ fifo with out := add32 fifo.out len }, r.2.1, len)

/-- Well-formed structure: capacity `mask + 1 = 2 ^ k` with `1 ≤ k ≤ 31`, and the
cursors and the element size are 32-bit values. -/
def WF (f : __kfifo) (k : Nat) : Prop :=
  1 ≤ k ∧ k ≤ 31 ∧ f.mask + 1 = 2 ^ k ∧ f.in_ < 2 ^ 32 ∧ f.out < 2 ^ 32 ∧ f.esize < 2 ^ 32

instance instDecidableWF (f : __kfifo) (k : Nat) : Decidable (WF f k) := by
  unfold WF; infer_instance

/-- The split copy of `kfifo_copy_in` on byte quantities: `L` bytes of `src` stored from
byte offset `o` of a storage of `B` bytes. -/
def wcopy_in (d : Mem) (o : Nat) (src : Mem) (L B : Nat) : Mem :=
  memcpy (memcpy d o src 0 (min L (B - o))) 0 src (min L (B - o)) (L - min L (B - o))

/-- The split copy of `kfifo_copy_out` on byte quantities. -/
def wcopy_out (dst : Mem) (d : Mem) (o : Nat) (L B : Nat) : Mem :=
  memcpy (memcpy dst 0 d o (min L (B - o))) (min L (B - o)) d 0 (L - min L (B - o))


/-- The bytes of the element in slot `s` of an object made of `esize`-byte elements. -/
def elem (m : Mem) (esize s : Nat) : List Nat :=
  (List.range esize).map fun j => m (s * esize + j)

/-- The first `n` elements of a caller buffer. -/
def elems (m : Mem) (esize n : Nat) : List (List Nat) :=
  (List.range n).map (elem m esize)

/-- Abstract content of a fifo: the elements at slots `(out + i) & mask` for
`0 ≤ i < in - out`, oldest first. -/
def content (f : __kfifo) : List (List Nat) :=
  match f.data with
  | some d => (List.range (sub32 f.in_ f.out)).map fun i => elem d f.esize ((f.out + i) &&& f.mask)
  | none => []

/-- A byte fifo of capacity 8 holding two elements, with `in = 6` and `out = 4`: the
state after inserting 6 and removing 4. Slot `a` holds the byte `a + 10`. -/
def wrap_fifo : __kfifo :=
  { in_ := 6, out := 4, mask := 7, esize := 1, data := some (fun a => a + 10) }

/-- An empty byte fifo of capacity 8 whose cursors sit two below `2 ^ 32`, at slot 6. -/
def edge_fifo : __kfifo :=
  { in_ := 4294967294, out := 4294967294, mask := 7, esize := 1, data := some (fun _ => 0) }

/-- An empty fifo of `2 ^ 30` four-byte elements: its storage is `2 ^ 32` bytes. -/
def big_fifo : __kfifo :=
  { in_ := 0, out := 0, mask := 1073741823, esize := 4, data := some (fun _ => 0) }

/-- One call on the raw engine: `__kfifo_in`, `__kfifo_out` or `__kfifo_out_peek`, with
the caller buffer and the count. -/
inductive RawOp where
  | enq (src : Mem) (count : Nat)
  | deq (dst : Mem) (count : Nat)
  | peek (dst : Mem) (count : Nat)

/-- The structure left behind by one raw call. -/
def RawOp.apply (f : __kfifo) : RawOp → __kfifo
  | .enq src count => (__kfifo_in f src count).1
  | .deq dst count => (__kfifo_out f dst count).1
  | .peek dst count => (__kfifo_out_peek f dst count).1

/-- The structure left behind by a finite sequence of raw calls. -/
def run_ops (f : __kfifo) (ops : List RawOp) : __kfifo :=
  ops.foldl RawOp.apply f

/-- Cursor invariant of the raw engine: 32-bit cursors, a capacity `mask + 1` that does
not wrap, and a length `in - out` (modulo `2 ^ 32`) within the capacity. -/
def Inv (f : __kfifo) : Prop :=
  f.in_ < 2 ^ 32 ∧ f.out < 2 ^ 32 ∧ f.mask + 1 < 2 ^ 32 ∧ sub32 f.in_ f.out ≤ f.mask + 1

/-- State of `fls` between two steps, for the argument `x0`: the pair `(x, r)` with
`x = x0 * 2 ^ (32 - r)` below `2 ^ 32` and at least `2 ^ lo`, and `rmin ≤ r ≤ 32`. -/
def FlsSt (x0 lo rmin : Nat) (s : Nat × Nat) : Prop :=
  s.1 < 2 ^ 32 ∧ 2 ^ lo ≤ s.1 ∧ s.1 = x0 * 2 ^ (32 - s.2) ∧ rmin ≤ s.2 ∧ s.2 ≤ 32

/-- An allocator that always succeeds, with zeroed storage. -/
def kmalloc_ok : Nat → Option Mem := fun _ => some (fun _ => 0)

/-- An allocator that always fails. -/
def kmalloc_fail : Nat → Option Mem := fun _ => none

/-- Addition of two 64-bit unsigned values (`size_t`, `unsigned long`). -/
def add64 (a b : Nat) : Nat := (a + b) % 2 ^ 64

/-- Left shift of an `int` by a count: undefined (none) when the count is at least 32,
wrapping otherwise. -/
def shl_int (v n : Nat) : Option Nat :=
  if n < 32 then some ((v <<< n) % 2 ^ 32) else none

/-- Source: `__kfifo_max_r`, `max = (1 << (recsize << 3)) - 1` then the smaller of `len`
and `max`. -/
def __kfifo_max_r (len recsize : Nat) : Option Nat :=
  (shl_int 1 ((recsize <<< 3) % 2 ^ 64)).map fun v =>
    let max := sub32 v 1
    if len > max then max else len

/-- Source: the macro `__KFIFO_PEEK`, an `unsigned char` read of `data[out & mask]`. -/
def __KFIFO_PEEK (data : Mem) (out mask : Nat) : Nat := data (out &&& mask) % 256

/-- Source: `__kfifo_peek_n`: the record length stored at `out`. It only reads; with a
NULL `data` the model yields 0. -/
def __kfifo_peek_n (fifo : __kfifo) (recsize : Nat) : Nat :=
  match fifo.data with
  | none => 0
  | some data =>
    let l := __KFIFO_PEEK data fifo.out fifo.mask
    if sub64 recsize 1 ≠ 0 then
      l ||| (__KFIFO_PEEK data (add32 fifo.out 1) fifo.mask <<< 8)
    else l

/-- Source: the macro `__KFIFO_POKE`, `data[in & mask] = (unsigned char)val`. -/
def __KFIFO_POKE (data : Mem) (in_ mask val : Nat) : Mem :=
  fun a => if a = in_ &&& mask then val % 256 else data a

/-- Source: `__kfifo_poke_n`: store the record length `n` at `in`. -/
def __kfifo_poke_n (fifo : __kfifo) (n recsize : Nat) : __kfifo :=
  { fifo with
    data := fifo.data.map fun data =>
      let data := __KFIFO_POKE data fifo.in_ fifo.mask n
      if recsize > 1 then __KFIFO_POKE data (add32 fifo.in_ 1) fifo.mask (n >>> 8)
      else data }

/-- Source: `__kfifo_len_r`: the structure afterwards and the returned length. -/
def __kfifo_len_r (fifo : __kfifo) (recsize : Nat) : __kfifo × Nat :=
  (fifo, __kfifo_peek_n fifo recsize)

/-- Source: `__kfifo_in_r`: the structure afterwards and the returned count. The sum
`len + recsize` and the cursor updates are computed in `size_t` and stored in
`unsigned int`. -/
def __kfifo_in_r (fifo : __kfifo) (buf : Mem) (len recsize : Nat) : __kfifo × Nat :=
  if add64 len recsize > kfifo_unused fifo then (fifo, 0)
  else
    let fifo := __kfifo_poke_n fifo len recsize
    let fifo := kfifo_copy_in fifo buf len (add64 fifo.in_ recsize % 2 ^ 32)
    ({ fifo with in_ := add64 fifo.in_ (add64 len recsize) % 2 ^ 32 }, len)

/-- Source: `kfifo_out_copy_r`: the structure, the object `buf`, the returned count and
the record length written to `*n`. -/
def kfifo_out_copy_r (fifo : __kfifo) (buf : Mem) (len recsize : Nat) :
    __kfifo × Mem × Nat × Nat :=
  let n := __kfifo_peek_n fifo recsize
  let len := if len > n then n else len
  let r := kfifo_copy_out fifo buf len (add64 fifo.out recsize % 2 ^ 32)
  (r.1, r.2, len, n)

/-- Source: `__kfifo_out_peek_r`: the structure, the object `buf` and the returned count. -/
def __kfifo_out_peek_r (fifo : __kfifo) (buf : Mem) (len recsize : Nat) :
    __kfifo × Mem × Nat :=
  if fifo.in_ = fifo.out then (fifo, buf, 0)
  else
    let r := kfifo_out_copy_r fifo buf len recsize
    (r.1, r.2.1, r.2.2.1)

/-- Source: `__kfifo_out_r`: the structure, the object `buf` and the returned count. -/
def __kfifo_out_r (fifo : __kfifo) (buf : Mem) (len recsize : Nat) :
    __kfifo × Mem × Nat :=
  if fifo.in_ = fifo.out then (fifo, buf, 0)
  else
    let r := kfifo_out_copy_r fifo buf len recsize
    let fifo := r.1
    let n := r.2.2.2
    ({ fifo with out := add64 fifo.out (add64 n recsize) % 2 ^ 32 }, r.2.1, r.2.2.1)

/-- Source: `__kfifo_skip_r`. -/
def __kfifo_skip_r (fifo : __kfifo) (recsize : Nat) : __kfifo :=
  let n := __kfifo_peek_n fifo recsize
  { fifo with out := add64 fifo.out (add64 n recsize) % 2 ^ 32 }

/-- The fifo built by a successful `__kfifo_init` over 8 bytes of zeroed storage. -/
def init_fifo : __kfifo :=
  { in_ := 0, out := 0, mask := 7, esize := 1, data := some (fun _ => 0) }

/-- A sequence of raw calls on a capacity 8 fifo: insert 6, remove 4, insert 6 (full),
peek 3, remove 8. -/
def demo_ops : List RawOp :=
  [.enq (fun a => a + 1) 6, .deq (fun _ => 0) 4, .enq (fun a => a + 7) 6,
   .peek (fun _ => 0) 3, .deq (fun _ => 0) 8]

/-- An empty byte fifo of capacity 8 whose cursors are both `2 ^ 32 - 1`, at slot 7. -/
def rec_fifo : __kfifo :=
  { in_ := 4294967295, out := 4294967295, mask := 7, esize := 1, data := some (fun _ => 0) }

/-- The bytes queued in a byte fifo, oldest first: the bytes at slots `(out + i) & mask`
for `0 ≤ i < in - out`. -/
def queued (f : __kfifo) : List Nat :=
  match f.data with
  | some d => (List.range (sub32 f.in_ f.out)).map fun i => d ((f.out + i) &&& f.mask)
  | none => []

/-- The first `n` bytes of a caller buffer. -/
def bytes_of (m : Mem) (n : Nat) : List Nat := (List.range n).map m

/-- A caller buffer holding the bytes of a list (zero past its end). -/
def mem_of (r : List Nat) : Mem := fun i => r.getD i 0

/-- The header bytes of a record of length `n`, low byte first: one byte, or two when
the header width is above 1. -/
def hdr (w n : Nat) : List Nat :=
  if w > 1 then [n % 256, (n >>> 8) % 256] else [n % 256]

/-- One record as it lies in the fifo: header, then payload. -/
def frame (w : Nat) (r : List Nat) : List Nat := hdr w r.length ++ r

/-- A sequence of records as it lies in the fifo, oldest first. -/
def encode (w : Nat) : List (List Nat) → List Nat
  | [] => []
  | r :: rs => frame w r ++ encode w rs

/-- A well-formed byte fifo within its length bound: capacity `2 ^ k`, element size 1,
a storage object, and `in - out ≤ capacity`. -/
def ByteFifo (g : __kfifo) (k : Nat) : Prop :=
  WF g k ∧ g.esize = 1 ∧ g.data.isSome = true ∧ sub32 g.in_ g.out ≤ g.mask + 1

instance instDecidableByteFifo (g : __kfifo) (k : Nat) : Decidable (ByteFifo g k) := by
  unfold ByteFifo; infer_instance

/-- The queued bytes are the framing of the records `rs`, each of a length the header of
width `w` can hold. -/
def RecRep (w : Nat) (g : __kfifo) (rs : List (List Nat)) : Prop :=
  queued g = encode w rs ∧ ∀ r, r ∈ rs → r.length ≤ 2 ^ (8 * w) - 1

/-- The fifo with `out` advanced by `m` (as a 32-bit cursor) and nothing else changed. -/
def adv_out (g : __kfifo) (m : Nat) : __kfifo :=
  { g with out := add32 g.out m }

/-- A byte fifo of capacity 8 with a 1-byte header holding two records, `[65, 66, 67]`
and `[90]`, from `out = 6` to `in = 12`: the first record wraps at the storage end. -/
def two_rec_fifo : __kfifo :=
  { in_ := 12, out := 6, mask := 7, esize := 1,
    data := some (mem_of [66, 67, 1, 90, 0, 0, 3, 65]) }

/-- An empty byte fifo of capacity 8 reached through the code from zeroed storage: a
5-byte record is enqueued and dequeued, then a 3-byte record is enqueued and dequeued.
Both cursors are 10, and slot 2 still holds a payload byte of the first record. -/
def stale_fifo : __kfifo :=
  (__kfifo_out_r (__kfifo_in_r (__kfifo_out_r (__kfifo_in_r init_fifo (fun a => a + 65) 5
    1).1 (fun _ => 0) 9 1).1 (fun a => a + 97) 3 1).1 (fun _ => 0) 9 1).1

/-- An empty byte fifo of capacity 512 over zeroed storage. -/
def rec512_fifo : __kfifo :=
  { in_ := 0, out := 0, mask := 511, esize := 1, data := some (fun _ => 0) }

/-- An empty fifo of `2 ^ 30` four-byte elements (storage `2 ^ 32` bytes) whose cursors
are both `2 ^ 32 - 1`. -/
def big_edge_fifo : __kfifo :=
  { in_ := 4294967295, out := 4294967295, mask := 1073741823, esize := 4,
    data := some (fun _ => 0) }

/-- A byte fifo of capacity 8 holding two elements, with `out = 2 ^ 32 - 3` and
`in = 2 ^ 32 - 1`: slot `a` holds the byte `a + 10`. -/
def carry_fifo : __kfifo :=
  { in_ := 4294967295, out := 4294967293, mask := 7, esize := 1,
    data := some (fun a => a + 10) }

/-- One call on the record layer: `__kfifo_in_r`, `__kfifo_out_r`, `__kfifo_out_peek_r`
with the caller buffer and the length, or `__kfifo_skip_r`. -/
inductive RecOp where
  | enq (buf : Mem) (len : Nat)
  | deq (dst : Mem) (max : Nat)
  | peek (dst : Mem) (max : Nat)
  | skip

/-- The structure left behind by one record call, for the header width `w`. -/
def RecOp.apply (w : Nat) (g : __kfifo) : RecOp → __kfifo
  | .enq buf len => (__kfifo_in_r g buf len w).1
  | .deq dst max => (__kfifo_out_r g dst max w).1
  | .peek dst max => (__kfifo_out_peek_r g dst max w).1
  | .skip => __kfifo_skip_r g w

/-- The calls the record layer admits on the state `g`: an enqueue whose length the header
can hold, a skip only on a non-empty fifo, and every dequeue and peek. -/
def RecOp.allowed (w : Nat) (g : __kfifo) : RecOp → Prop
  | .enq _ len => len ≤ 2 ^ (8 * w) - 1
  | .skip => g.in_ ≠ g.out
  | _ => True

/-- Every call of the sequence is admitted on the state it is applied to. -/
def rec_allowed (w : Nat) : __kfifo → List RecOp → Prop
  | _, [] => True
  | g, op :: ops => op.allowed w g ∧ rec_allowed w (op.apply w g) ops

/-- The structure left behind by a finite sequence of record calls. -/
def rec_run (w : Nat) (g : __kfifo) (ops : List RecOp) : __kfifo :=
  ops.foldl (RecOp.apply w) g

/-- Enqueue the records of a list one after the other with `__kfifo_in_r`. -/
def enq_all (w : Nat) (g : __kfifo) : List (List Nat) → __kfifo
  | [] => g
  | r :: rs => enq_all w (__kfifo_in_r g (mem_of r) r.length w).1 rs

/-- Dequeue `n` records with `__kfifo_out_r` into a buffer of `max` bytes: the records
handed out (the returned count of bytes of the buffer each time) and the structure
left behind. -/
def drain (w max : Nat) : Nat → __kfifo → List (List Nat) × __kfifo
  | 0, g => ([], g)
  | n + 1, g =>
    ((bytes_of (__kfifo_out_r g (fun _ => 0) max w).2.1 (__kfifo_out_r g (fun _ => 0) max w).2.2)
      :: (drain w max n (__kfifo_out_r g (fun _ => 0) max w).1).1,
     (drain w max n (__kfifo_out_r g (fun _ => 0) max w).1).2)

instance instDecidableRecOpAllowed (w : Nat) (g : __kfifo) (op : RecOp) :
    Decidable (op.allowed w g) := by
  cases op <;> unfold RecOp.allowed <;> infer_instance

/-- Decision procedure for `rec_allowed`. -/
def decRecAllowed (w : Nat) : (g : __kfifo) → (ops : List RecOp) → Decidable (rec_allowed w g ops)
  | _, [] => isTrue trivial
  | g, op :: ops =>
    match instDecidableRecOpAllowed w g op, decRecAllowed w (op.apply w g) ops with
    | isTrue h1, isTrue h2 => isTrue ⟨h1, h2⟩
    | isFalse h1, _ => isFalse fun h => h1 h.1
    | _, isFalse h2 => isFalse fun h => h2 h.2

instance instDecidableRecAllowed (w : Nat) (g : __kfifo) (ops : List RecOp) :
    Decidable (rec_allowed w g ops) := decRecAllowed w g ops

/-- A sequence of record calls on a capacity 8 fifo with a 1-byte header: enqueue 3
bytes, enqueue 2 bytes (the fifo is then 7 bytes full), an enqueue of 4 bytes that does
not fit, peek, a truncated dequeue, skip, dequeue on the empty fifo, enqueue 5 bytes. -/
def rec_demo_ops : List RecOp :=
  [.enq (fun a => a + 65) 3, .enq (fun a => a + 97) 2, .enq (fun a => a + 48) 4,
   .peek (fun _ => 0) 9, .deq (fun _ => 0) 1, .skip, .deq (fun _ => 0) 9,
   .enq (fun a => a + 65) 5]

/-- An empty byte fifo of capacity 128 over zeroed storage. -/
def rec128_fifo : __kfifo :=
  { in_ := 0, out := 0, mask := 127, esize := 1, data := some (fun _ => 0) }

/-- The 6 bytes of the structure `hello` of the record example: the string and its
terminating zero. -/
def hello_rec : List Nat := [104, 101, 108, 108, 111, 0]

/-- The ten records of the record example: "a", "bb", up to "jjjjjjjjjj". -/
def letter_recs : List (List Nat) :=
  (List.range 10).map fun i => List.replicate (i + 1) (97 + i)

theorem add32_of_lt {a b : Nat} (h : a + b < 2 ^ 32) : add32 a b = a + b := by
  unfold add32; exact Nat.mod_eq_of_lt h

theorem sub32_of_le {a b : Nat} (h : b ≤ a) (ha : a < 2 ^ 32) : sub32 a b = a - b := by
  unfold sub32
  have hb : b % 2 ^ 32 = b := Nat.mod_eq_of_lt (by omega)
  rw [hb]
  omega

theorem mul32_of_lt {a b : Nat} (h : a * b < 2 ^ 32) : mul32 a b = a * b := by
  unfold mul32; exact Nat.mod_eq_of_lt h

theorem and_mask {m k : Nat} (hm : m + 1 = 2 ^ k) (x : Nat) : x &&& m = x % (m + 1) := by
  have : m = 2 ^ k - 1 := by omega
  rw [hm, this]
  exact Nat.and_pow_two_sub_one_eq_mod x k

theorem pow_le_31 {k : Nat} (hk : k ≤ 31) : 2 ^ k ≤ 2 ^ 31 :=
  Nat.pow_le_pow_right (by decide) hk


/-- Byte quantities used by both copy routines never wrap in a well-formed fifo whose
storage is below `2 ^ 32` bytes. -/
theorem copy_args {f : __kfifo} {k : Nat} (hwf : WF f k)
    (hB : (f.mask + 1) * f.esize < 2 ^ 32) {len : Nat} (hlen : len ≤ f.mask + 1) (off : Nat) :
    (if f.esize ≠ 1 then mul32 (off &&& f.mask) f.esize else off &&& f.mask)
        = (off % (f.mask + 1)) * f.esize ∧
    (if f.esize ≠ 1 then mul32 (add32 f.mask 1) f.esize else add32 f.mask 1)
        = (f.mask + 1) * f.esize ∧
    (if f.esize ≠ 1 then mul32 len f.esize else len) = len * f.esize ∧
    (off % (f.mask + 1)) * f.esize < (f.mask + 1) * f.esize + 1 ∧
    len * f.esize ≤ (f.mask + 1) * f.esize := by
  obtain ⟨hk1, hk2, hm, _, _, _⟩ := hwf
  have hcap : f.mask + 1 ≤ 2 ^ 31 := hm ▸ pow_le_31 hk2
  have hpos : 0 < f.mask + 1 := Nat.succ_pos _
  have hoff : off % (f.mask + 1) < f.mask + 1 := Nat.mod_lt _ hpos
  have h1 : (off % (f.mask + 1)) * f.esize ≤ (f.mask + 1) * f.esize :=
    Nat.mul_le_mul_right _ (Nat.le_of_lt hoff)
  have h2 : len * f.esize ≤ (f.mask + 1) * f.esize := Nat.mul_le_mul_right _ hlen
  have ha : add32 f.mask 1 = f.mask + 1 := add32_of_lt (by omega)
  rw [and_mask hm, ha]
  refine ⟨?_, ?_, ?_, by omega, h2⟩
  · split
    · exact mul32_of_lt (by omega)
    · rename_i he
      have : f.esize = 1 := by simpa using he
      rw [this]; simp
  · split
    · exact mul32_of_lt hB
    · rename_i he
      have : f.esize = 1 := by simpa using he
      rw [this]; simp
  · split
    · exact mul32_of_lt (by omega)
    · rename_i he
      have : f.esize = 1 := by simpa using he
      rw [this]; simp

theorem kfifo_copy_in_data {f : __kfifo} {k : Nat} (hwf : WF f k)
    (hB : (f.mask + 1) * f.esize < 2 ^ 32) {len : Nat} (hlen : len ≤ f.mask + 1)
    (src : Mem) (off : Nat) :
    (kfifo_copy_in f src len off).data = f.data.map fun d =>
      wcopy_in d ((off % (f.mask + 1)) * f.esize) src (len * f.esize)
        ((f.mask + 1) * f.esize) := by
  obtain ⟨e1, e2, e3, h4, h5⟩ := copy_args hwf hB hlen off
  unfold kfifo_copy_in wcopy_in
  simp only [e1, e2, e3]
  have hs : sub32 ((f.mask + 1) * f.esize) (off % (f.mask + 1) * f.esize)
      = (f.mask + 1) * f.esize - off % (f.mask + 1) * f.esize :=
    sub32_of_le (by omega) hB
  rw [hs]
  have hl : sub32 (len * f.esize)
      (min (len * f.esize) ((f.mask + 1) * f.esize - off % (f.mask + 1) * f.esize))
      = len * f.esize
        - min (len * f.esize) ((f.mask + 1) * f.esize - off % (f.mask + 1) * f.esize) :=
    sub32_of_le (by omega) (by omega)
  rw [hl]

theorem kfifo_copy_out_data {f : __kfifo} {k : Nat} (hwf : WF f k)
    (hB : (f.mask + 1) * f.esize < 2 ^ 32) {len : Nat} (hlen : len ≤ f.mask + 1)
    (dst : Mem) (off : Nat) (d : Mem) (hd : f.data = some d) :
    kfifo_copy_out f dst len off =
      (f, wcopy_out dst d ((off % (f.mask + 1)) * f.esize) (len * f.esize)
        ((f.mask + 1) * f.esize)) := by
  obtain ⟨e1, e2, e3, h4, h5⟩ := copy_args hwf hB hlen off
  unfold kfifo_copy_out wcopy_out
  simp only [e1, e2, e3, hd]
  have hs : sub32 ((f.mask + 1) * f.esize) (off % (f.mask + 1) * f.esize)
      = (f.mask + 1) * f.esize - off % (f.mask + 1) * f.esize :=
    sub32_of_le (by omega) hB
  rw [hs]
  have hl : sub32 (len * f.esize)
      (min (len * f.esize) ((f.mask + 1) * f.esize - off % (f.mask + 1) * f.esize))
      = len * f.esize
        - min (len * f.esize) ((f.mask + 1) * f.esize - off % (f.mask + 1) * f.esize) :=
    sub32_of_le (by omega) (by omega)
  rw [hl]

/-- Slot arithmetic: the slot `(p + i) % cap` is `p + i` or `p + i - cap`. -/
theorem slot_cases {p i cap : Nat} (hp : p < cap) (hi : i < cap) :
    (p + i < cap ∧ (p + i) % cap = p + i) ∨
    (cap ≤ p + i ∧ (p + i) % cap + cap = p + i) := by
  by_cases h : p + i < cap
  · exact Or.inl ⟨h, Nat.mod_eq_of_lt h⟩
  · right
    have h1 : cap ≤ p + i := Nat.le_of_not_lt h
    refine ⟨h1, ?_⟩
    have h2 : (p + i) % cap = (p + i - cap) % cap := Nat.mod_eq_sub_mod h1
    have h3 : (p + i - cap) % cap = p + i - cap := Nat.mod_eq_of_lt (by omega)
    omega

theorem wcopy_in_lo (d src : Mem) {o L B a : Nat} (hL : L ≤ B) (h1 : o ≤ a)
    (h2 : a < o + L) (h3 : a < B) : wcopy_in d o src L B a = src (a - o) := by
  unfold wcopy_in memcpy
  have hw : ¬ (a < L - min L (B - o)) := by omega
  have hin : o ≤ a ∧ a < o + min L (B - o) := by omega
  simp only [Nat.zero_le, true_and, Nat.zero_add, hw, if_false, hin, and_self, if_true]

theorem wcopy_in_hi (d src : Mem) {o L B a : Nat} (ho : o ≤ B) (h1 : a + B < o + L) :
    wcopy_in d o src L B a = src (a + B - o) := by
  unfold wcopy_in memcpy
  have hw : a < L - min L (B - o) := by omega
  simp only [Nat.zero_le, true_and, Nat.zero_add, hw, if_true]
  congr 1
  omega

theorem wcopy_in_other (d src : Mem) {o L B a : Nat}
    (h : o + L ≤ a ∨ (a < o ∧ o + L ≤ a + B)) : wcopy_in d o src L B a = d a := by
  unfold wcopy_in memcpy
  have hw : ¬ (a < L - min L (B - o)) := by omega
  have hin : ¬ (o ≤ a ∧ a < o + min L (B - o)) := by omega
  simp only [Nat.zero_le, true_and, Nat.zero_add, hw, if_false, hin]

theorem wcopy_out_lo (dst d : Mem) {o L B b : Nat} (h1 : b < L) (h2 : o + b < B) :
    wcopy_out dst d o L B b = d (o + b) := by
  unfold wcopy_out memcpy
  have hw : ¬ (min L (B - o) ≤ b ∧ b < min L (B - o) + (L - min L (B - o))) := by omega
  have hin : b < min L (B - o) := by omega
  simp only [hw, if_false, Nat.zero_le, true_and, Nat.zero_add, hin, if_true, Nat.sub_zero]

theorem wcopy_out_hi (dst d : Mem) {o L B b : Nat} (ho : o ≤ B) (h1 : b < L)
    (h2 : B ≤ o + b) : wcopy_out dst d o L B b = d (o + b - B) := by
  unfold wcopy_out memcpy
  have hw : min L (B - o) ≤ b ∧ b < min L (B - o) + (L - min L (B - o)) := by omega
  simp only [hw, and_self, if_true, Nat.zero_add]
  congr 1
  omega

theorem wcopy_out_frame (dst d : Mem) (o L B : Nat) {b : Nat} (hb : L ≤ b) :
    wcopy_out dst d o L B b = dst b := by
  unfold wcopy_out memcpy
  have hw : ¬ (min L (B - o) ≤ b ∧ b < min L (B - o) + (L - min L (B - o))) := by omega
  have hin : ¬ (b < min L (B - o)) := by omega
  simp only [hw, if_false, Nat.zero_le, true_and, Nat.zero_add, hin]

theorem wcopy_in_slot (d src : Mem) {p i cap e len j : Nat} (hp : p < cap)
    (hi : i < len) (hlen : len ≤ cap) (hj : j < e) :
    wcopy_in d (p * e) src (len * e) (cap * e) (((p + i) % cap) * e + j)
      = src (i * e + j) := by
  have hpe : (p + i) * e = p * e + i * e := Nat.add_mul _ _ _
  have hie : (i + 1) * e ≤ len * e := Nat.mul_le_mul_right _ hi
  have hie2 : (i + 1) * e = i * e + e := by rw [Nat.add_mul, Nat.one_mul]
  have hle : len * e ≤ cap * e := Nat.mul_le_mul_right _ hlen
  have hpc : p * e ≤ cap * e := Nat.mul_le_mul_right _ (Nat.le_of_lt hp)
  rcases slot_cases hp (Nat.lt_of_lt_of_le hi hlen) with ⟨h1, h2⟩ | ⟨h1, h2⟩
  · rw [h2, hpe]
    have hc : (p + i + 1) * e ≤ cap * e := Nat.mul_le_mul_right _ h1
    have hc2 : (p + i + 1) * e = p * e + i * e + e := by
      rw [Nat.add_mul, Nat.add_mul, Nat.one_mul]
    rw [wcopy_in_lo d src hle (by omega) (by omega) (by omega)]
    congr 1
    omega
  · have hs : (p + i) % cap * e + cap * e = p * e + i * e := by
      rw [← Nat.add_mul, h2, Nat.add_mul]
    rw [wcopy_in_hi d src hpc (by omega)]
    congr 1
    omega

theorem wcopy_in_frame (d src : Mem) {p i cap e len j : Nat} (hp : p < cap)
    (hi : len ≤ i) (hic : i < cap) (hlen : len ≤ cap) (hj : j < e) :
    wcopy_in d (p * e) src (len * e) (cap * e) (((p + i) % cap) * e + j)
      = d (((p + i) % cap) * e + j) := by
  have hpe : (p + i) * e = p * e + i * e := Nat.add_mul _ _ _
  have hie : len * e ≤ i * e := Nat.mul_le_mul_right _ hi
  have hle : len * e ≤ cap * e := Nat.mul_le_mul_right _ hlen
  have hpc : p * e ≤ cap * e := Nat.mul_le_mul_right _ (Nat.le_of_lt hp)
  rcases slot_cases hp hic with ⟨h1, h2⟩ | ⟨h1, h2⟩
  · rw [h2, hpe]
    exact wcopy_in_other d src (Or.inl (by omega))
  · have hs : (p + i) % cap * e + cap * e = p * e + i * e := by
      rw [← Nat.add_mul, h2, Nat.add_mul]
    have hc : (p + i) % cap + 1 ≤ p := by omega
    have hc1 : ((p + i) % cap + 1) * e ≤ p * e := Nat.mul_le_mul_right _ hc
    have hc2 : ((p + i) % cap + 1) * e = (p + i) % cap * e + e := by
      rw [Nat.add_mul, Nat.one_mul]
    exact wcopy_in_other d src (Or.inr ⟨by omega, by omega⟩)

theorem wcopy_out_slot (dst d : Mem) {p i cap e len j : Nat} (hp : p < cap)
    (hi : i < len) (hlen : len ≤ cap) (hj : j < e) :
    wcopy_out dst d (p * e) (len * e) (cap * e) (i * e + j)
      = d (((p + i) % cap) * e + j) := by
  have hpe : (p + i) * e = p * e + i * e := Nat.add_mul _ _ _
  have hie : (i + 1) * e ≤ len * e := Nat.mul_le_mul_right _ hi
  have hie2 : (i + 1) * e = i * e + e := by rw [Nat.add_mul, Nat.one_mul]
  have hpc : p * e ≤ cap * e := Nat.mul_le_mul_right _ (Nat.le_of_lt hp)
  rcases slot_cases hp (Nat.lt_of_lt_of_le hi hlen) with ⟨h1, h2⟩ | ⟨h1, h2⟩
  · rw [h2, hpe]
    have hc : (p + i + 1) * e ≤ cap * e := Nat.mul_le_mul_right _ h1
    have hc2 : (p + i + 1) * e = p * e + i * e + e := by
      rw [Nat.add_mul, Nat.add_mul, Nat.one_mul]
    rw [wcopy_out_lo dst d (by omega) (by omega)]
    congr 1
    omega
  · have hs : (p + i) % cap * e + cap * e = p * e + i * e := by
      rw [← Nat.add_mul, h2, Nat.add_mul]
    have hce : cap * e ≤ p * e + i * e := by rw [← hpe]; exact Nat.mul_le_mul_right _ h1
    rw [wcopy_out_hi dst d hpc (by omega) (by omega)]
    congr 1
    omega

theorem sub32_lt (a b : Nat) : sub32 a b < 2 ^ 32 := by
  unfold sub32; exact Nat.mod_lt _ (by decide)

theorem add32_lt (a b : Nat) : add32 a b < 2 ^ 32 := by
  unfold add32; exact Nat.mod_lt _ (by decide)

/-- The value of `kfifo_unused` when `mask + 1` does not wrap and the length is within
the capacity. -/
theorem kfifo_unused_of_le {f : __kfifo} (hm : f.mask + 1 < 2 ^ 32)
    (hlen : sub32 f.in_ f.out ≤ f.mask + 1) :
    kfifo_unused f = f.mask + 1 - sub32 f.in_ f.out := by
  unfold kfifo_unused
  rw [add32_of_lt hm, sub32_of_le hlen hm]

theorem WF.cap_lt {f : __kfifo} {k : Nat} (hwf : WF f k) : f.mask + 1 < 2 ^ 32 := by
  obtain ⟨_, hk2, hm, _, _, _⟩ := hwf
  have hcap : f.mask + 1 ≤ 2 ^ 31 := hm ▸ pow_le_31 hk2
  omega

theorem kfifo_unused_eq {f : __kfifo} {k : Nat} (hwf : WF f k)
    (hlen : sub32 f.in_ f.out ≤ f.mask + 1) :
    kfifo_unused f = f.mask + 1 - sub32 f.in_ f.out :=
  kfifo_unused_of_le hwf.cap_lt hlen

/-- Cursor arithmetic: advancing `in` by `n` grows the length by `n`. -/
theorem sub32_add32_in {i o n : Nat} (hi : i < 2 ^ 32) (ho : o < 2 ^ 32)
    (h : sub32 i o + n < 2 ^ 32) : sub32 (add32 i n) o = sub32 i o + n := by
  unfold sub32 add32 at *
  have : o % 2 ^ 32 = o := Nat.mod_eq_of_lt ho
  rw [this] at h ⊢
  omega

/-- Cursor arithmetic: advancing `out` by `n` shrinks the length by `n`. -/
theorem sub32_add32_out {i o n : Nat} (hi : i < 2 ^ 32) (ho : o < 2 ^ 32)
    (h : n ≤ sub32 i o) : sub32 i (add32 o n) = sub32 i o - n := by
  unfold sub32 add32 at *
  have : o % 2 ^ 32 = o := Nat.mod_eq_of_lt ho
  rw [this] at h ⊢
  have h2 : (o + n) % 2 ^ 32 % 2 ^ 32 = (o + n) % 2 ^ 32 := Nat.mod_mod _ _
  rw [h2]
  omega

theorem kfifo_copy_in_fields (f : __kfifo) (src : Mem) (len off : Nat) :
    (kfifo_copy_in f src len off).in_ = f.in_ ∧ (kfifo_copy_in f src len off).out = f.out ∧
    (kfifo_copy_in f src len off).mask = f.mask ∧
    (kfifo_copy_in f src len off).esize = f.esize := by
  unfold kfifo_copy_in; exact ⟨rfl, rfl, rfl, rfl⟩

theorem kfifo_in_eq (f : __kfifo) (src : Mem) (count : Nat) :
    __kfifo_in f src count =
      ({ in_ := add32 f.in_ (min count (kfifo_unused f)), out := f.out, mask := f.mask,
         esize := f.esize,
         data := (kfifo_copy_in f src (min count (kfifo_unused f)) f.in_).data },
        min count (kfifo_unused f)) := by
  have h : (if count > kfifo_unused f then kfifo_unused f else count)
      = min count (kfifo_unused f) := by split <;> omega
  show (__kfifo.mk (add32 f.in_ (if count > kfifo_unused f then kfifo_unused f else count))
          f.out f.mask f.esize
          (kfifo_copy_in f src
            (if count > kfifo_unused f then kfifo_unused f else count) f.in_).data,
        (if count > kfifo_unused f then kfifo_unused f else count)) = _
  rw [h]

theorem kfifo_in_ret (f : __kfifo) (src : Mem) (count : Nat) :
    (__kfifo_in f src count).2 = min count (kfifo_unused f) := by
  rw [kfifo_in_eq]

theorem kfifo_in_fields (f : __kfifo) (src : Mem) (count : Nat) :
    (__kfifo_in f src count).1.in_ = add32 f.in_ (min count (kfifo_unused f)) ∧
    (__kfifo_in f src count).1.out = f.out ∧
    (__kfifo_in f src count).1.mask = f.mask ∧
    (__kfifo_in f src count).1.esize = f.esize ∧
    (__kfifo_in f src count).1.data
      = (kfifo_copy_in f src (min count (kfifo_unused f)) f.in_).data := by
  rw [kfifo_in_eq]
  exact ⟨rfl, rfl, rfl, rfl, rfl⟩

theorem kfifo_out_peek_eq (f : __kfifo) (dst : Mem) (count : Nat) :
    __kfifo_out_peek f dst count =
      (f, (kfifo_copy_out f dst (min count (sub32 f.in_ f.out)) f.out).2,
        min count (sub32 f.in_ f.out)) := by
  have h : (if count > sub32 f.in_ f.out then sub32 f.in_ f.out else count)
      = min count (sub32 f.in_ f.out) := by split <;> omega
  unfold __kfifo_out_peek
  simp only [h]
  unfold kfifo_copy_out
  rfl

theorem kfifo_out_eq (f : __kfifo) (dst : Mem) (count : Nat) :
    __kfifo_out f dst count =
      ({ f with out := add32 f.out (min count (sub32 f.in_ f.out)) },
        (kfifo_copy_out f dst (min count (sub32 f.in_ f.out)) f.out).2,
        min count (sub32 f.in_ f.out)) := by
  unfold __kfifo_out
  rw [kfifo_out_peek_eq]

/-- Counts and cursors of a partial enqueue: in a well-formed fifo with
`in - out ≤ capacity`, `__kfifo_in`
returns `min count unused` with `unused = capacity - (in - out)`, advances `in` by exactly
that number (so the length grows by it), leaves `out`, `mask` and `esize` unchanged, and
with `count > unused` it returns `unused` and leaves the fifo full. -/
theorem in_count_cursors (f : __kfifo) (k : Nat) (hwf : WF f k)
    (hlen : sub32 f.in_ f.out ≤ f.mask + 1) (src : Mem) (count : Nat) :
    (__kfifo_in f src count).2 = min count (f.mask + 1 - sub32 f.in_ f.out) ∧
    kfifo_unused f = f.mask + 1 - sub32 f.in_ f.out ∧
    (__kfifo_in f src count).1.in_ = add32 f.in_ (__kfifo_in f src count).2 ∧
    (__kfifo_in f src count).1.out = f.out ∧
    (__kfifo_in f src count).1.mask = f.mask ∧
    (__kfifo_in f src count).1.esize = f.esize ∧
    sub32 (__kfifo_in f src count).1.in_ (__kfifo_in f src count).1.out
      = sub32 f.in_ f.out + (__kfifo_in f src count).2 ∧
    (count > kfifo_unused f →
      (__kfifo_in f src count).2 = kfifo_unused f ∧
      sub32 (__kfifo_in f src count).1.in_ (__kfifo_in f src count).1.out = f.mask + 1 ∧
      kfifo_unused (__kfifo_in f src count).1 = 0) := by
  have hu := kfifo_unused_eq hwf hlen
  obtain ⟨hi, ho, hmk, hes, _⟩ := kfifo_in_fields f src count
  have hr := kfifo_in_ret f src count
  obtain ⟨_, hk2, hm, hin, hout, _⟩ := hwf
  have hcap : f.mask + 1 ≤ 2 ^ 31 := hm ▸ pow_le_31 hk2
  have hlen2 : sub32 (add32 f.in_ (min count (kfifo_unused f))) f.out
      = sub32 f.in_ f.out + min count (kfifo_unused f) :=
    sub32_add32_in hin hout (by omega)
  rw [hr, hi, ho, hmk, hes, hlen2]
  refine ⟨by rw [hu], hu, rfl, rfl, rfl, rfl, rfl, ?_⟩
  intro hc
  have hmin : min count (kfifo_unused f) = kfifo_unused f := by omega
  refine ⟨hmin, by omega, ?_⟩
  unfold kfifo_unused
  rw [hi, ho, hmk, hlen2, add32_of_lt (by omega), sub32_of_le (by omega) (by omega)]
  omega

/-- C4. Partial dequeue: `__kfifo_out` returns `min count (in - out)`, advances `out` by
exactly that number (so the length shrinks by it), and leaves `in`, `mask`, `esize` and
the storage unchanged; with `count > length` it returns the length and leaves the fifo
empty (`out = in`). -/
theorem C4_out_count (f : __kfifo) (hin : f.in_ < 2 ^ 32) (hout : f.out < 2 ^ 32)
    (dst : Mem) (count : Nat) :
    (__kfifo_out f dst count).2.2 = min count (sub32 f.in_ f.out) ∧
    (__kfifo_out f dst count).1.out = add32 f.out (__kfifo_out f dst count).2.2 ∧
    (__kfifo_out f dst count).1.in_ = f.in_ ∧
    (__kfifo_out f dst count).1.mask = f.mask ∧
    (__kfifo_out f dst count).1.esize = f.esize ∧
    (__kfifo_out f dst count).1.data = f.data ∧
    sub32 (__kfifo_out f dst count).1.in_ (__kfifo_out f dst count).1.out
      = sub32 f.in_ f.out - (__kfifo_out f dst count).2.2 ∧
    (count > sub32 f.in_ f.out →
      (__kfifo_out f dst count).2.2 = sub32 f.in_ f.out ∧
      (__kfifo_out f dst count).1.out = (__kfifo_out f dst count).1.in_) := by
  rw [kfifo_out_eq]
  have hlen2 := sub32_add32_out (n := min count (sub32 f.in_ f.out)) hin hout (by omega)
  refine ⟨rfl, rfl, rfl, rfl, rfl, rfl, hlen2, ?_⟩
  intro hc
  have hmin : min count (sub32 f.in_ f.out) = sub32 f.in_ f.out := by omega
  refine ⟨hmin, ?_⟩
  show add32 f.out (min count (sub32 f.in_ f.out)) = f.in_
  rw [hmin]
  unfold add32 sub32
  have : f.out % 2 ^ 32 = f.out := Nat.mod_eq_of_lt hout
  rw [this]
  omega

theorem cap_dvd {m k : Nat} (hm : m + 1 = 2 ^ k) (hk : k ≤ 31) : (m + 1) ∣ 2 ^ 32 := by
  rw [hm]; exact Nat.pow_dvd_pow 2 (by omega)

/-- The `in` cursor is `out` plus the length, modulo any divisor of `2 ^ 32`. -/
theorem cursor_mod {i o cap : Nat} (hi : i < 2 ^ 32) (ho : o < 2 ^ 32)
    (hdvd : cap ∣ 2 ^ 32) : (o + sub32 i o) % cap = i % cap := by
  obtain ⟨q, hq⟩ := hdvd
  have ho2 : o % 2 ^ 32 = o := Nat.mod_eq_of_lt ho
  by_cases h : o ≤ i
  · have : o + sub32 i o = i := by unfold sub32; rw [ho2]; omega
    rw [this]
  · have : o + sub32 i o = i + cap * q := by unfold sub32; rw [ho2]; omega
    rw [this, Nat.add_mul_mod_self_left]

theorem add32_mod {a b cap : Nat} (hdvd : cap ∣ 2 ^ 32) : add32 a b % cap = (a + b) % cap := by
  unfold add32; exact Nat.mod_mod_of_dvd _ hdvd

/-- Slots of the stored elements, seen from the `in` cursor. -/
theorem slot_old {i o cap x : Nat} (hi : i < 2 ^ 32) (ho : o < 2 ^ 32)
    (hdvd : cap ∣ 2 ^ 32) (hlen : sub32 i o ≤ cap) :
    (o + x) % cap = (i % cap + (x + cap - sub32 i o)) % cap := by
  rw [Nat.mod_add_mod, ← Nat.mod_add_mod i, ← cursor_mod hi ho hdvd, Nat.mod_add_mod]
  have : o + sub32 i o + (x + cap - sub32 i o) = o + x + cap := by omega
  rw [this, Nat.add_mod_right]

/-- Slots of the free space, seen from the `in` cursor. -/
theorem slot_new {i o cap x : Nat} (hi : i < 2 ^ 32) (ho : o < 2 ^ 32)
    (hdvd : cap ∣ 2 ^ 32) (hx : sub32 i o ≤ x) :
    (o + x) % cap = (i % cap + (x - sub32 i o)) % cap := by
  rw [Nat.mod_add_mod, ← Nat.mod_add_mod i, ← cursor_mod hi ho hdvd, Nat.mod_add_mod]
  congr 1
  omega

theorem elem_congr {m1 m2 : Mem} {e s1 s2 : Nat}
    (h : ∀ j, j < e → m1 (s1 * e + j) = m2 (s2 * e + j)) : elem m1 e s1 = elem m2 e s2 := by
  unfold elem
  apply List.map_congr_left
  intro j hj
  exact h j (List.mem_range.mp hj)

theorem content_eq {f : __kfifo} {k : Nat} (hwf : WF f k) {d : Mem} (hd : f.data = some d) :
    content f = (List.range (sub32 f.in_ f.out)).map
      fun i => elem d f.esize ((f.out + i) % (f.mask + 1)) := by
  unfold content
  rw [hd]
  apply List.map_congr_left
  intro i _
  rw [and_mask hwf.2.2.1]

/-- Enqueue as an abstract append. -/
theorem content_in {f : __kfifo} {k : Nat} (hwf : WF f k)
    (hB : (f.mask + 1) * f.esize < 2 ^ 32) {d : Mem} (hd : f.data = some d)
    (hlen : sub32 f.in_ f.out ≤ f.mask + 1) (src : Mem) (count : Nat) :
    content (__kfifo_in f src count).1 = content f ++
      elems src f.esize (min count (f.mask + 1 - sub32 f.in_ f.out)) := by
  have hu := kfifo_unused_eq hwf hlen
  obtain ⟨hk1, hk2, hm, hin, hout, hes⟩ := hwf
  have hwf : WF f k := ⟨hk1, hk2, hm, hin, hout, hes⟩
  have hcap : f.mask + 1 ≤ 2 ^ 31 := hm ▸ pow_le_31 hk2
  have hdvd := cap_dvd hm hk2
  have hpos : 0 < f.mask + 1 := Nat.succ_pos _
  have hp : f.in_ % (f.mask + 1) < f.mask + 1 := Nat.mod_lt _ hpos
  rw [kfifo_in_eq, hu]
  generalize hn : min count (f.mask + 1 - sub32 f.in_ f.out) = n
  have hn1 : n ≤ f.mask + 1 - sub32 f.in_ f.out := by omega
  have hdata := kfifo_copy_in_data hwf hB (show n ≤ f.mask + 1 by omega) src f.in_
  rw [hd] at hdata
  have hwf2 : WF (__kfifo.mk (add32 f.in_ n) f.out f.mask f.esize
      (kfifo_copy_in f src n f.in_).data) k :=
    ⟨hk1, hk2, hm, add32_lt _ _, hout, hes⟩
  rw [content_eq hwf2 hdata, content_eq hwf hd]
  show List.map _ (List.range (sub32 (add32 f.in_ n) f.out)) = _
  rw [sub32_add32_in hin hout (by omega)]
  apply List.ext_getElem
  · simp [elems]
  · intro x h1 h2
    simp only [List.length_map, List.length_range] at h1
    rw [List.getElem_map, List.getElem_range]
    by_cases hx : x < sub32 f.in_ f.out
    · rw [List.getElem_append_left (by simpa using hx), List.getElem_map, List.getElem_range]
      apply elem_congr
      intro j hj
      show wcopy_in d _ src _ _ (((f.out + x) % (f.mask + 1)) * f.esize + j) = _
      rw [slot_old hin hout hdvd hlen]
      exact wcopy_in_frame d src hp (by omega) (by omega) (by omega) hj
    · have hx2 : sub32 f.in_ f.out ≤ x := Nat.le_of_not_lt hx
      rw [List.getElem_append_right (by simpa using hx2)]
      simp only [elems, List.length_map, List.length_range, List.getElem_map,
        List.getElem_range]
      apply elem_congr
      intro j hj
      show wcopy_in d _ src _ _ (((f.out + x) % (f.mask + 1)) * f.esize + j) = _
      rw [slot_new hin hout hdvd hx2]
      exact wcopy_in_slot d src hp (by omega) (by omega) hj

/-- Dequeue as an abstract take and drop. -/
theorem content_out {f : __kfifo} {k : Nat} (hwf : WF f k)
    (hB : (f.mask + 1) * f.esize < 2 ^ 32) {d : Mem} (hd : f.data = some d)
    (hlen : sub32 f.in_ f.out ≤ f.mask + 1) (dst : Mem) (count : Nat) :
    elems (__kfifo_out f dst count).2.1 f.esize (min count (sub32 f.in_ f.out))
      = (content f).take (min count (sub32 f.in_ f.out)) ∧
    content (__kfifo_out f dst count).1
      = (content f).drop (min count (sub32 f.in_ f.out)) := by
  obtain ⟨hk1, hk2, hm, hin, hout, hes⟩ := hwf
  have hwf : WF f k := ⟨hk1, hk2, hm, hin, hout, hes⟩
  have hdvd := cap_dvd hm hk2
  have hpos : 0 < f.mask + 1 := Nat.succ_pos _
  have hp : f.out % (f.mask + 1) < f.mask + 1 := Nat.mod_lt _ hpos
  rw [kfifo_out_eq]
  generalize hn : min count (sub32 f.in_ f.out) = n
  have hn1 : n ≤ sub32 f.in_ f.out := by omega
  rw [kfifo_copy_out_data hwf hB (show n ≤ f.mask + 1 by omega) dst f.out d hd]
  have hwf2 : WF { f with out := add32 f.out n } k :=
    ⟨hk1, hk2, hm, hin, add32_lt _ _, hes⟩
  have hd2 : ({ f with out := add32 f.out n } : __kfifo).data = some d := hd
  rw [content_eq hwf2 hd2, content_eq hwf hd]
  constructor
  · show elems (wcopy_out dst d _ _ _) f.esize n = _
    rw [← List.map_take, List.take_range, Nat.min_eq_left hn1]
    unfold elems
    apply List.map_congr_left
    intro x hx
    have hx := List.mem_range.mp hx
    apply elem_congr
    intro j hj
    rw [wcopy_out_slot dst d hp hx (by omega) hj, Nat.mod_add_mod]
  · show List.map _ (List.range (sub32 f.in_ (add32 f.out n))) = _
    rw [sub32_add32_out hin hout hn1]
    apply List.ext_getElem
    · simp
    · intro x h1 h2
      simp only [List.length_map, List.length_range] at h1
      rw [List.getElem_map, List.getElem_range, List.getElem_drop, List.getElem_map,
        List.getElem_range]
      show elem d f.esize ((add32 f.out n + x) % (f.mask + 1)) = _
      rw [← Nat.mod_add_mod, add32_mod hdvd, Nat.mod_add_mod, Nat.add_assoc]

/-- Raw round-trip on storage below 4 GiB: in a well-formed empty fifo (`in = out`, at
any cursor value) whose storage `capacity * esize` is below `2 ^ 32` bytes, for `N ≤ capacity`,
`__kfifo_in` of `N` elements returns `N`, a following `__kfifo_out` of `N` returns `N`,
the first `N` elements of `dst` equal those of `src` in order, bytes of `dst` past them
are untouched, and the fifo is empty again. -/
theorem roundtrip_below_4gib (f : __kfifo) (k : Nat) (hwf : WF f k)
    (hB : (f.mask + 1) * f.esize < 2 ^ 32) (hd : f.data.isSome = true)
    (hempty : f.in_ = f.out) (src dst : Mem) (N : Nat) (hN : N ≤ f.mask + 1) :
    (__kfifo_in f src N).2 = N ∧
    (__kfifo_out (__kfifo_in f src N).1 dst N).2.2 = N ∧
    elems (__kfifo_out (__kfifo_in f src N).1 dst N).2.1 f.esize N = elems src f.esize N ∧
    (∀ b, N * f.esize ≤ b → (__kfifo_out (__kfifo_in f src N).1 dst N).2.1 b = dst b) ∧
    (__kfifo_out (__kfifo_in f src N).1 dst N).1.in_
      = (__kfifo_out (__kfifo_in f src N).1 dst N).1.out := by
  obtain ⟨d, hd⟩ := Option.isSome_iff_exists.mp hd
  obtain ⟨hk1, hk2, hm, hin, hout, hes⟩ := hwf
  have hwf : WF f k := ⟨hk1, hk2, hm, hin, hout, hes⟩
  have hcap : f.mask + 1 ≤ 2 ^ 31 := hm ▸ pow_le_31 hk2
  have hl0 : sub32 f.in_ f.out = 0 := by
    rw [hempty]; exact (sub32_of_le (Nat.le_refl _) hout).trans (Nat.sub_self _)
  have hlen : sub32 f.in_ f.out ≤ f.mask + 1 := by omega
  have hc := content_in hwf hB hd hlen src N
  have hu := kfifo_unused_eq hwf hlen
  have hmin : min N (kfifo_unused f) = N := by omega
  have hc0 : content f = [] := by rw [content_eq hwf hd, hl0]; rfl
  rw [hc0, hl0, Nat.sub_zero, Nat.min_eq_left hN, List.nil_append] at hc
  have hg : __kfifo_in f src N =
      (__kfifo.mk (add32 f.in_ N) f.out f.mask f.esize (kfifo_copy_in f src N f.in_).data, N) := by
    rw [kfifo_in_eq, hmin]
  rw [hg] at hc ⊢
  generalize hgd : __kfifo.mk (add32 f.in_ N) f.out f.mask f.esize
    (kfifo_copy_in f src N f.in_).data = g at hc ⊢
  have hgm : g.mask = f.mask := by rw [← hgd]
  have hge : g.esize = f.esize := by rw [← hgd]
  have hgo : g.out = f.out := by rw [← hgd]
  have hgi : g.in_ = add32 f.in_ N := by rw [← hgd]
  have hgl : sub32 g.in_ g.out = N := by
    rw [hgi, hgo, sub32_add32_in hin hout (by omega), hl0, Nat.zero_add]
  have hwg : WF g k := ⟨hk1, hk2, hgm ▸ hm, hgi ▸ add32_lt _ _, hgo ▸ hout, hge ▸ hes⟩
  obtain ⟨d2, hd2⟩ : ∃ d2, g.data = some d2 := by
    rw [← hgd]
    show ∃ d2, (kfifo_copy_in f src N f.in_).data = some d2
    rw [kfifo_copy_in_data hwf hB hN, hd]
    exact ⟨_, rfl⟩
  have ho := content_out hwg (hgm ▸ hge ▸ hB) hd2 (by rw [hgl, hgm]; exact hN) dst N
  rw [hgl, Nat.min_self, hge, hc] at ho
  have hret : (__kfifo_out g dst N).2.2 = N := by
    rw [kfifo_out_eq]
    show min N (sub32 g.in_ g.out) = N
    rw [hgl, Nat.min_self]
  refine ⟨rfl, hret, ?_, ?_, ?_⟩
  · rw [ho.1]
    exact List.take_of_length_le (by simp [elems])
  · intro b hb
    rw [kfifo_out_eq, hgl, Nat.min_self,
      kfifo_copy_out_data hwg (hgm ▸ hge ▸ hB) (show N ≤ g.mask + 1 from hgm ▸ hN) dst g.out d2 hd2]
    exact wcopy_out_frame dst d2 _ _ _ (hge ▸ hb)
  · rw [kfifo_out_eq]
    show g.in_ = add32 g.out (min N (sub32 g.in_ g.out))
    rw [hgl, Nat.min_self, hgi, hgo, hempty]

/-- The raw round-trip at a concrete input: the empty byte fifo of capacity 8 with both cursors at
`2 ^ 32 - 2` (slot 6), and six elements, so that the copy is split at the storage end
and `in` wraps past `2 ^ 32`. -/
theorem roundtrip_below_4gib_witness :
    WF edge_fifo 3 ∧ (edge_fifo.mask + 1) * edge_fifo.esize < 2 ^ 32 ∧
    edge_fifo.data.isSome = true ∧ edge_fifo.in_ = edge_fifo.out ∧ 6 ≤ edge_fifo.mask + 1 ∧
    ((__kfifo_in edge_fifo (fun a => a + 1) 6).2 = 6 ∧
    (__kfifo_out (__kfifo_in edge_fifo (fun a => a + 1) 6).1 (fun _ => 0) 6).2.2 = 6 ∧
    elems (__kfifo_out (__kfifo_in edge_fifo (fun a => a + 1) 6).1 (fun _ => 0) 6).2.1
        edge_fifo.esize 6 = elems (fun a => a + 1) edge_fifo.esize 6 ∧
    (∀ b, 6 * edge_fifo.esize ≤ b →
      (__kfifo_out (__kfifo_in edge_fifo (fun a => a + 1) 6).1 (fun _ => 0) 6).2.1 b
        = (fun _ => 0) b) ∧
    (__kfifo_out (__kfifo_in edge_fifo (fun a => a + 1) 6).1 (fun _ => 0) 6).1.in_
      = (__kfifo_out (__kfifo_in edge_fifo (fun a => a + 1) 6).1 (fun _ => 0) 6).1.out) :=
  ⟨by decide, by decide, rfl, rfl, by decide,
    roundtrip_below_4gib edge_fifo 3 (by decide) (by decide) rfl rfl (fun a => a + 1)
      (fun _ => 0) 6 (by decide)⟩

theorem content_get {f : __kfifo} {d : Mem} (hd : f.data = some d) {i : Nat}
    (hi : i < sub32 f.in_ f.out) :
    (content f)[i]? = some (elem d f.esize ((f.out + i) &&& f.mask)) := by
  unfold content
  rw [hd]
  rw [List.getElem?_map, List.getElem?_range hi]
  rfl

/-- FIFO order under interleaving and wraparound on storage below 4 GiB: in a
well-formed fifo with
`in - out ≤ capacity` whose storage `capacity * esize` is below `2 ^ 32` bytes,
`__kfifo_in` turns the abstract content into `old ++` the first `min count unused`
elements of `src`, and `__kfifo_out` returns `min count length`, writes the first
`min count length` elements of `old` to `dst` and leaves the rest of `old`. -/
theorem fifo_order_below_4gib (f : __kfifo) (k : Nat) (hwf : WF f k)
    (hB : (f.mask + 1) * f.esize < 2 ^ 32) (hd : f.data.isSome = true)
    (hlen : sub32 f.in_ f.out ≤ f.mask + 1) (src dst : Mem) (count : Nat) :
    content (__kfifo_in f src count).1
      = content f ++ elems src f.esize (min count (f.mask + 1 - sub32 f.in_ f.out)) ∧
    (__kfifo_out f dst count).2.2 = min count (sub32 f.in_ f.out) ∧
    elems (__kfifo_out f dst count).2.1 f.esize (min count (sub32 f.in_ f.out))
      = (content f).take (min count (sub32 f.in_ f.out)) ∧
    content (__kfifo_out f dst count).1
      = (content f).drop (min count (sub32 f.in_ f.out)) := by
  obtain ⟨d, hd⟩ := Option.isSome_iff_exists.mp hd
  have ho := content_out hwf hB hd hlen dst count
  refine ⟨content_in hwf hB hd hlen src count, ?_, ho.1, ho.2⟩
  rw [kfifo_out_eq]

/-- The FIFO order at a concrete input: capacity 8 after inserting 6 and removing 4 (`in = 6`,
`out = 4`); inserting 6 more wraps at the storage end, and removing up to 8 reads the
two stored elements. -/
theorem fifo_order_below_4gib_witness :
    WF wrap_fifo 3 ∧ (wrap_fifo.mask + 1) * wrap_fifo.esize < 2 ^ 32 ∧
    wrap_fifo.data.isSome = true ∧ sub32 wrap_fifo.in_ wrap_fifo.out ≤ wrap_fifo.mask + 1 ∧
    (content (__kfifo_in wrap_fifo (fun a => a + 100) 6).1
      = content wrap_fifo ++ elems (fun a => a + 100) wrap_fifo.esize
          (min 6 (wrap_fifo.mask + 1 - sub32 wrap_fifo.in_ wrap_fifo.out)) ∧
    (__kfifo_out wrap_fifo (fun _ => 0) 8).2.2 = min 8 (sub32 wrap_fifo.in_ wrap_fifo.out) ∧
    elems (__kfifo_out wrap_fifo (fun _ => 0) 8).2.1 wrap_fifo.esize
        (min 8 (sub32 wrap_fifo.in_ wrap_fifo.out))
      = (content wrap_fifo).take (min 8 (sub32 wrap_fifo.in_ wrap_fifo.out)) ∧
    content (__kfifo_out wrap_fifo (fun _ => 0) 8).1
      = (content wrap_fifo).drop (min 8 (sub32 wrap_fifo.in_ wrap_fifo.out))) :=
  ⟨by decide, by decide, rfl, by decide,
    (fifo_order_below_4gib wrap_fifo 3 (by decide) (by decide) rfl (by decide)
      (fun a => a + 100) (fun _ => 0) 6).1,
    (fifo_order_below_4gib wrap_fifo 3 (by decide) (by decide) rfl (by decide)
      (fun a => a + 100) (fun _ => 0) 8).2⟩

/-- The capacity 8 scenario of the specification, run on the code: insert 6 (bytes 1..6),
remove 4, insert 6 more (bytes 7..12, split at the storage end, fifo full), remove 8.
The values come out in insertion order. -/
theorem fifo_order_capacity8 :
    elems (__kfifo_out (__kfifo_in init_fifo (fun a => a + 1) 6).1 (fun _ => 0) 4).2.1 1 4
      = [[1], [2], [3], [4]] ∧
    (__kfifo_in (__kfifo_out (__kfifo_in init_fifo (fun a => a + 1) 6).1 (fun _ => 0) 4).1
      (fun a => a + 7) 6).2 = 6 ∧
    (__kfifo_out (__kfifo_in (__kfifo_out (__kfifo_in init_fifo (fun a => a + 1) 6).1
      (fun _ => 0) 4).1 (fun a => a + 7) 6).1 (fun _ => 0) 8).2.2 = 8 ∧
    elems (__kfifo_out (__kfifo_in (__kfifo_out (__kfifo_in init_fifo (fun a => a + 1) 6).1
      (fun _ => 0) 4).1 (fun a => a + 7) 6).1 (fun _ => 0) 8).2.1 1 8
      = [[5], [6], [7], [8], [9], [10], [11], [12]] := by
  decide

/-- The counts of a partial enqueue at a concrete input: capacity 8 with two stored
elements, so `unused = 6`, and a request of 9: six are accepted and the fifo is full. -/
theorem in_count_cursors_witness :
    WF wrap_fifo 3 ∧ sub32 wrap_fifo.in_ wrap_fifo.out ≤ wrap_fifo.mask + 1 ∧
    ((__kfifo_in wrap_fifo (fun a => a) 9).2
      = min 9 (wrap_fifo.mask + 1 - sub32 wrap_fifo.in_ wrap_fifo.out) ∧
    kfifo_unused wrap_fifo = wrap_fifo.mask + 1 - sub32 wrap_fifo.in_ wrap_fifo.out ∧
    (__kfifo_in wrap_fifo (fun a => a) 9).1.in_
      = add32 wrap_fifo.in_ (__kfifo_in wrap_fifo (fun a => a) 9).2 ∧
    (__kfifo_in wrap_fifo (fun a => a) 9).1.out = wrap_fifo.out ∧
    (__kfifo_in wrap_fifo (fun a => a) 9).1.mask = wrap_fifo.mask ∧
    (__kfifo_in wrap_fifo (fun a => a) 9).1.esize = wrap_fifo.esize ∧
    sub32 (__kfifo_in wrap_fifo (fun a => a) 9).1.in_ (__kfifo_in wrap_fifo (fun a => a) 9).1.out
      = sub32 wrap_fifo.in_ wrap_fifo.out + (__kfifo_in wrap_fifo (fun a => a) 9).2 ∧
    (9 > kfifo_unused wrap_fifo →
      (__kfifo_in wrap_fifo (fun a => a) 9).2 = kfifo_unused wrap_fifo ∧
      sub32 (__kfifo_in wrap_fifo (fun a => a) 9).1.in_
        (__kfifo_in wrap_fifo (fun a => a) 9).1.out = wrap_fifo.mask + 1 ∧
      kfifo_unused (__kfifo_in wrap_fifo (fun a => a) 9).1 = 0)) :=
  ⟨by decide, by decide, in_count_cursors wrap_fifo 3 (by decide) (by decide) (fun a => a) 9⟩

/-- C4 at a concrete input: capacity 8 with two stored elements and a request of 5: two
are removed and the fifo is empty. -/
theorem C4_out_count_witness :
    wrap_fifo.in_ < 2 ^ 32 ∧ wrap_fifo.out < 2 ^ 32 ∧
    ((__kfifo_out wrap_fifo (fun _ => 0) 5).2.2 = min 5 (sub32 wrap_fifo.in_ wrap_fifo.out) ∧
    (__kfifo_out wrap_fifo (fun _ => 0) 5).1.out
      = add32 wrap_fifo.out (__kfifo_out wrap_fifo (fun _ => 0) 5).2.2 ∧
    (__kfifo_out wrap_fifo (fun _ => 0) 5).1.in_ = wrap_fifo.in_ ∧
    (__kfifo_out wrap_fifo (fun _ => 0) 5).1.mask = wrap_fifo.mask ∧
    (__kfifo_out wrap_fifo (fun _ => 0) 5).1.esize = wrap_fifo.esize ∧
    (__kfifo_out wrap_fifo (fun _ => 0) 5).1.data = wrap_fifo.data ∧
    sub32 (__kfifo_out wrap_fifo (fun _ => 0) 5).1.in_ (__kfifo_out wrap_fifo (fun _ => 0) 5).1.out
      = sub32 wrap_fifo.in_ wrap_fifo.out - (__kfifo_out wrap_fifo (fun _ => 0) 5).2.2 ∧
    (5 > sub32 wrap_fifo.in_ wrap_fifo.out →
      (__kfifo_out wrap_fifo (fun _ => 0) 5).2.2 = sub32 wrap_fifo.in_ wrap_fifo.out ∧
      (__kfifo_out wrap_fifo (fun _ => 0) 5).1.out
        = (__kfifo_out wrap_fifo (fun _ => 0) 5).1.in_)) :=
  ⟨by decide, by decide, C4_out_count wrap_fifo (by decide) (by decide) (fun _ => 0) 5⟩

theorem inv_in {f : __kfifo} (h : Inv f) (src : Mem) (count : Nat) :
    Inv (__kfifo_in f src count).1 := by
  obtain ⟨hi, ho, hm, hl⟩ := h
  have hu := kfifo_unused_of_le hm hl
  rw [kfifo_in_eq]
  refine ⟨add32_lt _ _, ho, hm, ?_⟩
  show sub32 (add32 f.in_ (min count (kfifo_unused f))) f.out ≤ f.mask + 1
  rw [sub32_add32_in hi ho (by omega)]
  omega

theorem inv_out {f : __kfifo} (h : Inv f) (dst : Mem) (count : Nat) :
    Inv (__kfifo_out f dst count).1 := by
  obtain ⟨hi, ho, hm, hl⟩ := h
  rw [kfifo_out_eq]
  refine ⟨hi, add32_lt _ _, hm, ?_⟩
  show sub32 f.in_ (add32 f.out (min count (sub32 f.in_ f.out))) ≤ f.mask + 1
  rw [sub32_add32_out hi ho (by omega)]
  omega

theorem inv_peek {f : __kfifo} (h : Inv f) (dst : Mem) (count : Nat) :
    Inv (__kfifo_out_peek f dst count).1 := by
  rw [kfifo_out_peek_eq]; exact h

theorem inv_run {f : __kfifo} (h : Inv f) (ops : List RawOp) : Inv (run_ops f ops) := by
  induction ops generalizing f with
  | nil => exact h
  | cons op ops ih =>
    apply ih
    cases op with
    | enq src count => exact inv_in h src count
    | deq dst count => exact inv_out h dst count
    | peek dst count => exact inv_peek h dst count

theorem kfifo_alloc_eq (kmalloc : Nat → Option Mem) (f : __kfifo) (size esize : Nat) :
    __kfifo_alloc kmalloc f size esize = (roundup_pow_of_two size).map fun r =>
      if r % 2 ^ 32 < 2 then (__kfifo.mk 0 0 0 (esize % 2 ^ 32) none, -EINVAL)
      else if (kmalloc ((r % 2 ^ 32 * esize) % 2 ^ 64)).isNone = true then
        (__kfifo.mk 0 0 0 (esize % 2 ^ 32) (kmalloc ((r % 2 ^ 32 * esize) % 2 ^ 64)), -ENOMEM)
      else
        (__kfifo.mk 0 0 (sub32 (r % 2 ^ 32) 1) (esize % 2 ^ 32)
          (kmalloc ((r % 2 ^ 32 * esize) % 2 ^ 64)), 0) := rfl

theorem kfifo_init_eq (f : __kfifo) (buffer : Option Mem) (size esize : Nat) :
    __kfifo_init f buffer size esize =
      if esize = 0 then none
      else
        (if is_power_of_2 (size / esize) = true then some (size / esize)
          else (rounddown_pow_of_two (size / esize)).map (· % 2 ^ 32)).map fun s =>
          if s < 2 then (__kfifo.mk 0 0 0 (esize % 2 ^ 32) buffer, -EINVAL)
          else (__kfifo.mk 0 0 (sub32 s 1) (esize % 2 ^ 32) buffer, 0) := rfl

theorem neg_errno_ne_zero : -EINVAL ≠ 0 ∧ -ENOMEM ≠ 0 := by decide

/-- A return value 0 of `__kfifo_init` leaves zero cursors and `mask = size - 1` with
`2 ≤ size < 2 ^ 32`. -/
theorem init_inv {f0 f : __kfifo} {buffer : Option Mem} {size esize : Nat}
    (hs : size < 2 ^ 32) (h : __kfifo_init f0 buffer size esize = some (f, 0)) : Inv f := by
  rw [kfifo_init_eq] at h
  split at h
  · exact absurd h (by simp)
  · have hq : size / esize < 2 ^ 32 := Nat.lt_of_le_of_lt (Nat.div_le_self _ _) hs
    rw [Option.map_eq_some'] at h
    obtain ⟨s, hs1, hs2⟩ := h
    have hs3 : s < 2 ^ 32 := by
      split at hs1
      · injection hs1 with hs1; omega
      · rw [Option.map_eq_some'] at hs1
        obtain ⟨r, _, hr⟩ := hs1
        rw [← hr]; exact Nat.mod_lt _ (by decide)
    split at hs2
    · injection hs2 with _ h2
      exact absurd h2 neg_errno_ne_zero.1
    · injection hs2 with h1 _
      rw [← h1]
      have : sub32 s 1 = s - 1 := sub32_of_le (by omega) hs3
      have h0 : sub32 0 0 = 0 := by decide
      refine ⟨?_, ?_, ?_, ?_⟩
      · show 0 < 2 ^ 32
        decide
      · show 0 < 2 ^ 32
        decide
      · show sub32 s 1 + 1 < 2 ^ 32
        omega
      · show sub32 0 0 ≤ sub32 s 1 + 1
        omega

/-- A return value 0 of `__kfifo_alloc` leaves zero cursors and `mask = size - 1` with
`2 ≤ size < 2 ^ 32`. -/
theorem alloc_inv {kmalloc : Nat → Option Mem} {f0 f : __kfifo} {size esize : Nat}
    (h : __kfifo_alloc kmalloc f0 size esize = some (f, 0)) : Inv f := by
  rw [kfifo_alloc_eq, Option.map_eq_some'] at h
  obtain ⟨r, _, hr⟩ := h
  have hs3 : r % 2 ^ 32 < 2 ^ 32 := Nat.mod_lt _ (by decide)
  split at hr
  · injection hr with _ h2
    exact absurd h2 neg_errno_ne_zero.1
  · split at hr
    · injection hr with _ h2
      exact absurd h2 neg_errno_ne_zero.2
    · injection hr with h1 _
      rw [← h1]
      have : sub32 (r % 2 ^ 32) 1 = r % 2 ^ 32 - 1 := sub32_of_le (by omega) hs3
      have h0 : sub32 0 0 = 0 := by decide
      refine ⟨?_, ?_, ?_, ?_⟩
      · show 0 < 2 ^ 32
        decide
      · show 0 < 2 ^ 32
        decide
      · show sub32 (r % 2 ^ 32) 1 + 1 < 2 ^ 32
        omega
      · show sub32 0 0 ≤ sub32 (r % 2 ^ 32) 1 + 1
        omega

/-- Consequences of the cursor invariant: the bounds on length and unused space, and
the empty and full tests. -/
theorem inv_facts {g : __kfifo} (h : Inv g) :
    sub32 g.in_ g.out ≤ g.mask + 1 ∧
    kfifo_unused g = g.mask + 1 - sub32 g.in_ g.out ∧
    kfifo_unused g ≤ g.mask + 1 ∧
    (sub32 g.in_ g.out = 0 ↔ g.in_ = g.out) ∧
    (sub32 g.in_ g.out = g.mask + 1 ↔ kfifo_unused g = 0) := by
  obtain ⟨hi, ho, hm, hl⟩ := h
  have hu := kfifo_unused_of_le hm hl
  refine ⟨hl, hu, by omega, ?_, by omega⟩
  unfold sub32
  have : g.out % 2 ^ 32 = g.out := Nat.mod_eq_of_lt ho
  rw [this]
  omega

/-- C5. Raw-engine invariant: starting from a fifo for which `__kfifo_init` or
`__kfifo_alloc` returned 0, after every finite sequence of `__kfifo_in`, `__kfifo_out`
and `__kfifo_out_peek` calls with arbitrary buffers and counts the length
`(in - out) mod 2 ^ 32` is at most the capacity `mask + 1`, `kfifo_unused` equals
`capacity - length` and is at most the capacity, the length is 0 exactly when
`in = out`, and the length is the capacity exactly when `kfifo_unused` is 0. -/
theorem C5_invariant (kmalloc : Nat → Option Mem) (f0 f : __kfifo) (buffer : Option Mem)
    (size esize : Nat) (hs : size < 2 ^ 32)
    (hinit : __kfifo_init f0 buffer size esize = some (f, 0) ∨
      __kfifo_alloc kmalloc f0 size esize = some (f, 0))
    (ops : List RawOp) :
    sub32 (run_ops f ops).in_ (run_ops f ops).out ≤ (run_ops f ops).mask + 1 ∧
    kfifo_unused (run_ops f ops)
      = (run_ops f ops).mask + 1 - sub32 (run_ops f ops).in_ (run_ops f ops).out ∧
    kfifo_unused (run_ops f ops) ≤ (run_ops f ops).mask + 1 ∧
    (sub32 (run_ops f ops).in_ (run_ops f ops).out = 0
      ↔ (run_ops f ops).in_ = (run_ops f ops).out) ∧
    (sub32 (run_ops f ops).in_ (run_ops f ops).out = (run_ops f ops).mask + 1
      ↔ kfifo_unused (run_ops f ops) = 0) := by
  have h0 : Inv f := by
    rcases hinit with h | h
    · exact init_inv hs h
    · exact alloc_inv h
  exact inv_facts (inv_run h0 ops)

/-- C6. Peek is dequeue without consumption: `__kfifo_out_peek` returns the same count and
leaves the same object `dst` as `__kfifo_out` on the same state, leaves the whole
structure (`in`, `out`, `mask`, `esize`, storage) unchanged, and a second peek gives the
same result as the first. -/
theorem C6_peek (f : __kfifo) (dst : Mem) (count : Nat) :
    (__kfifo_out_peek f dst count).2.2 = (__kfifo_out f dst count).2.2 ∧
    (__kfifo_out_peek f dst count).2.1 = (__kfifo_out f dst count).2.1 ∧
    (__kfifo_out_peek f dst count).1 = f ∧
    __kfifo_out_peek (__kfifo_out_peek f dst count).1 dst count
      = __kfifo_out_peek f dst count ∧
    (__kfifo_out f dst count).1
      = { f with out := add32 f.out (__kfifo_out_peek f dst count).2.2 } := by
  rw [kfifo_out_eq, kfifo_out_peek_eq]
  exact ⟨rfl, rfl, rfl, by rw [kfifo_out_peek_eq], rfl⟩

/-- Masking with a shifted mask looks only at the bits from position `t` on. -/
theorem and_shiftLeft (x m t : Nat) : x &&& (m <<< t) = ((x >>> t) &&& m) <<< t := by
  apply Nat.eq_of_testBit_eq
  intro i
  simp only [Nat.testBit_and, Nat.testBit_shiftLeft, Nat.testBit_shiftRight]
  by_cases h : t ≤ i
  · have : t + (i - t) = i := by omega
    simp [h, this]
  · simp [h]

/-- The test `!(x & M)` of `fls`, with `M` the bits `t .. 31`: it holds exactly when
`x < 2 ^ t`. -/
theorem and_hi_mask {x t : Nat} (ht : t ≤ 32) (hx : x < 2 ^ 32) :
    x &&& ((2 ^ (32 - t) - 1) <<< t) = 0 ↔ x < 2 ^ t := by
  rw [and_shiftLeft, Nat.and_pow_two_sub_one_eq_mod, Nat.shiftRight_eq_div_pow,
    Nat.shiftLeft_eq]
  have hp : 0 < 2 ^ t := Nat.two_pow_pos t
  have h32 : 2 ^ (32 - t) * 2 ^ t = 2 ^ 32 := by
    rw [← Nat.pow_add]; congr 1; omega
  have hd : x / 2 ^ t < 2 ^ (32 - t) := by
    rw [Nat.div_lt_iff_lt_mul hp, h32]; exact hx
  rw [Nat.mod_eq_of_lt hd]
  constructor
  · intro h
    rcases Nat.mul_eq_zero.mp h with h | h
    · exact (Nat.div_eq_zero_iff hp).mp h
    · omega
  · intro h
    rw [(Nat.div_eq_zero_iff hp).mpr h, Nat.zero_mul]


/-- One step of `fls` with shift `sh` and mask `M` for the bits `32 - sh .. 31`. -/
theorem fls_step_spec {x0 : Nat} (sh M : Nat) (hsh : 2 * sh ≤ 32)
    (hM : M = (2 ^ (32 - (32 - sh)) - 1) <<< (32 - sh)) {s : Nat × Nat}
    (h : FlsSt x0 (32 - 2 * sh) (2 * sh) s) : FlsSt x0 (32 - sh) sh (fls_step M sh s) := by
  obtain ⟨h1, h2, h3, h4, h5⟩ := h
  unfold fls_step
  have hiff := and_hi_mask (x := s.1) (t := 32 - sh) (by omega) h1
  rw [← hM] at hiff
  have hpp : 2 ^ (32 - sh) * 2 ^ sh = 2 ^ 32 := by
    rw [← Nat.pow_add]; congr 1; omega
  split
  · rename_i hz
    have hlt := hiff.mp hz
    have hb : s.1 * 2 ^ sh < 2 ^ 32 := by
      rw [← hpp]; exact Nat.mul_lt_mul_of_pos_right hlt (Nat.two_pow_pos sh)
    refine ⟨Nat.mod_lt _ (by decide), ?_, ?_, ?_, ?_⟩
    · show 2 ^ (32 - sh) ≤ (s.1 <<< sh) % 2 ^ 32
      rw [Nat.shiftLeft_eq, Nat.mod_eq_of_lt hb]
      have : 2 ^ (32 - sh) = 2 ^ (32 - 2 * sh) * 2 ^ sh := by
        rw [← Nat.pow_add]; congr 1; omega
      rw [this]
      exact Nat.mul_le_mul_right _ h2
    · show (s.1 <<< sh) % 2 ^ 32 = x0 * 2 ^ (32 - (s.2 - sh))
      rw [Nat.shiftLeft_eq, Nat.mod_eq_of_lt hb]
      have : 32 - (s.2 - sh) = (32 - s.2) + sh := by omega
      rw [this, Nat.pow_add, ← Nat.mul_assoc, ← h3]
    · show sh ≤ s.2 - sh
      omega
    · show s.2 - sh ≤ 32
      omega
  · rename_i hz
    have hge : 2 ^ (32 - sh) ≤ s.1 := by
      rcases Nat.lt_or_ge s.1 (2 ^ (32 - sh)) with h | h
      · exact absurd (hiff.mpr h) hz
      · exact h
    exact ⟨h1, hge, h3, by omega, h5⟩

/-- Specification of `fls` on a non-zero 32-bit pattern: the position of the highest
set bit, counted from 1. -/
theorem fls_spec {x : Nat} (h0 : 0 < x) (hx : x < 2 ^ 32) :
    1 ≤ fls x ∧ fls x ≤ 32 ∧ 2 ^ (fls x - 1) ≤ x ∧ x < 2 ^ fls x := by
  have hs0 : FlsSt x (32 - 2 * 16) (2 * 16) (x, 32) :=
    ⟨hx, h0, by simp, Nat.le_refl _, Nat.le_refl _⟩
  have hs1 := fls_step_spec 16 0xffff0000 (by decide) (by decide) hs0
  have hs2 := fls_step_spec 8 0xff000000 (by decide) (by decide) hs1
  have hs3 := fls_step_spec 4 0xf0000000 (by decide) (by decide) hs2
  have hs4 := fls_step_spec 2 0xc0000000 (by decide) (by decide) hs3
  have hs5 := fls_step_spec 1 0x80000000 (by decide) (by decide) hs4
  have hf : fls x = (fls_step 0x80000000 1 (fls_step 0xc0000000 2 (fls_step 0xf0000000 4
      (fls_step 0xff000000 8 (fls_step 0xffff0000 16 (x, 32)))))).2 := by
    unfold fls
    rw [if_neg (by omega)]
  rw [hf]
  generalize fls_step 0x80000000 1 (fls_step 0xc0000000 2 (fls_step 0xf0000000 4
      (fls_step 0xff000000 8 (fls_step 0xffff0000 16 (x, 32))))) = s at hs5
  obtain ⟨h1, h2, h3, h4, h5⟩ := hs5
  have hp : 0 < 2 ^ (32 - s.2) := Nat.two_pow_pos _
  have e1 : 2 ^ s.2 * 2 ^ (32 - s.2) = 2 ^ 32 := by
    rw [← Nat.pow_add]; congr 1; omega
  have e2 : 2 ^ (s.2 - 1) * 2 ^ (32 - s.2) = 2 ^ (32 - 1) := by
    rw [← Nat.pow_add]; congr 1; omega
  refine ⟨h4, h5, ?_, ?_⟩
  · apply Nat.le_of_mul_le_mul_right _ hp
    rw [e2, ← h3]; exact h2
  · apply Nat.lt_of_mul_lt_mul_right (a := 2 ^ (32 - s.2))
    rw [e1, ← h3]; exact h1

theorem two_mul_pow_pred {r : Nat} (h : 1 ≤ r) : 2 * 2 ^ (r - 1) = 2 ^ r := by
  obtain ⟨n, rfl⟩ : ∃ n, r = n + 1 := ⟨r - 1, by omega⟩
  rw [Nat.add_sub_cancel, Nat.pow_succ']

theorem shl_ul_one {n : Nat} (hn : n < 64) : shl_ul 1 (n : Int) = some (2 ^ n) := by
  unfold shl_ul
  have h : (0 : Int) ≤ (n : Int) ∧ (n : Int) < 64 := ⟨by omega, by omega⟩
  rw [if_pos h, Int.toNat_ofNat, Nat.shiftLeft_eq, Nat.one_mul]
  have : 2 ^ n < 2 ^ 64 := Nat.pow_lt_pow_right (by decide) hn
  rw [Nat.mod_eq_of_lt this]

/-- On a non-zero 32-bit value `rounddown_pow_of_two` is defined and yields
`2 ^ (fls x - 1)`, the largest power of two not above `x`. -/
theorem rounddown_spec {x : Nat} (h0 : 0 < x) (hx : x < 2 ^ 32) :
    rounddown_pow_of_two x = some (2 ^ (fls x - 1)) ∧
    2 ^ (fls x - 1) ≤ x ∧ x < 2 * 2 ^ (fls x - 1) ∧ fls x - 1 ≤ 31 := by
  obtain ⟨h1, h2, h3, h4⟩ := fls_spec h0 hx
  unfold rounddown_pow_of_two
  rw [Nat.mod_eq_of_lt hx]
  have hc : ((fls x : Nat) : Int) - 1 = ((fls x - 1 : Nat) : Int) := by omega
  rw [hc, shl_ul_one (by omega)]
  refine ⟨rfl, h3, ?_, by omega⟩
  have : 2 * 2 ^ (fls x - 1) = 2 ^ fls x := two_mul_pow_pred h1
  rw [this]; exact h4

/-- At zero `rounddown_pow_of_two` shifts by `-1`: no defined result. -/
theorem rounddown_zero : rounddown_pow_of_two 0 = none := by decide

/-- For `2 ≤ x ≤ 2 ^ 31`, `roundup_pow_of_two` yields `2 ^ fls (x - 1)`, the smallest
power of two not below `x`. -/
theorem roundup_spec {x : Nat} (h2 : 2 ≤ x) (hx : x ≤ 2 ^ 31) :
    roundup_pow_of_two x = some (2 ^ fls (x - 1)) ∧
    1 ≤ fls (x - 1) ∧ fls (x - 1) ≤ 31 ∧
    x ≤ 2 ^ fls (x - 1) ∧ 2 ^ (fls (x - 1) - 1) < x := by
  have hy : x - 1 < 2 ^ 32 := by omega
  obtain ⟨h1, h3, h4, h5⟩ := fls_spec (x := x - 1) (by omega) hy
  have h31 : fls (x - 1) ≤ 31 := by
    have h6 : 2 ^ (fls (x - 1) - 1) < 2 ^ 31 := by omega
    have := (Nat.pow_lt_pow_iff_right (by decide : 1 < 2)).mp h6
    omega
  unfold roundup_pow_of_two
  have hs : sub64 x 1 % 2 ^ 32 = x - 1 := by
    unfold sub64; omega
  rw [hs, shl_ul_one (by omega)]
  exact ⟨rfl, h1, h31, by omega, by omega⟩

/-- Above `2 ^ 31` the result of `roundup_pow_of_two` is `2 ^ 32`, which is 0 as an
`unsigned int`. -/
theorem roundup_big {x : Nat} (h2 : 2 ^ 31 < x) (hx : x < 2 ^ 32) :
    roundup_pow_of_two x = some (2 ^ 32) := by
  have hy : x - 1 < 2 ^ 32 := by omega
  obtain ⟨h1, h3, h4, h5⟩ := fls_spec (x := x - 1) (by omega) hy
  have h32 : fls (x - 1) = 32 := by
    have h6 : 2 ^ 31 < 2 ^ fls (x - 1) := by omega
    have := (Nat.pow_lt_pow_iff_right (by decide : 1 < 2)).mp h6
    omega
  unfold roundup_pow_of_two
  have hs : sub64 x 1 % 2 ^ 32 = x - 1 := by
    unfold sub64; omega
  rw [hs, h32, shl_ul_one (by decide)]

/-- A value accepted by `is_power_of_2` is the power of two `2 ^ (fls x - 1)`. -/
theorem is_power_of_2_spec {x : Nat} (hx : x < 2 ^ 32) (h : is_power_of_2 x = true) :
    0 < x ∧ x = 2 ^ (fls x - 1) := by
  unfold is_power_of_2 at h
  rw [Bool.and_eq_true, decide_eq_true_eq, beq_iff_eq] at h
  obtain ⟨hpos, hand⟩ := h
  have h0 : 0 < x := by
    unfold int32 at hpos
    rw [Nat.mod_eq_of_lt hx] at hpos
    split at hpos <;> omega
  have hs1 : sub32 x 1 = x - 1 := sub32_of_le h0 hx
  have hand2 : x &&& (x - 1) = 0 := by rw [hs1] at hand; exact hand
  obtain ⟨h1, h2, h3, h4⟩ := fls_spec h0 hx
  have h5 : 2 * 2 ^ (fls x - 1) = 2 ^ fls x := two_mul_pow_pred h1
  generalize fls x - 1 = p at h3 h5 ⊢
  refine ⟨h0, ?_⟩
  by_contra hne
  have hb1 : x.testBit p = true := by
    have e : x = 2 ^ p + (x - 2 ^ p) := by omega
    rw [e, Nat.testBit_two_pow_add_eq, Nat.testBit_lt_two_pow (by omega)]
    rfl
  have hb2 : (x - 1).testBit p = true := by
    have e : x - 1 = 2 ^ p + (x - 1 - 2 ^ p) := by omega
    rw [e, Nat.testBit_two_pow_add_eq, Nat.testBit_lt_two_pow (by omega)]
    rfl
  have hb3 := Nat.testBit_and x (x - 1) p
  rw [hand2, hb1, hb2, Nat.zero_testBit] at hb3
  exact absurd hb3 (by decide)

theorem pow_le_of_lt_pow {a b x : Nat} (h1 : 2 ^ (a - 1) < x) (h2 : x ≤ 2 ^ b) :
    2 ^ a ≤ 2 ^ b := by
  have h3 : 2 ^ (a - 1) < 2 ^ b := Nat.lt_of_lt_of_le h1 h2
  have := (Nat.pow_lt_pow_iff_right (by decide : 1 < 2)).mp h3
  exact Nat.pow_le_pow_right (by decide) (by omega)

/-- The result of `__kfifo_alloc` for a hint in `2 .. 2 ^ 31`. -/
theorem alloc_valid (kmalloc : Nat → Option Mem) (f : __kfifo) (esize : Nat) {hint : Nat}
    (h2 : 2 ≤ hint) (hx : hint ≤ 2 ^ 31) :
    ∃ j, 1 ≤ j ∧ j ≤ 31 ∧ hint ≤ 2 ^ j ∧ (∀ i, hint ≤ 2 ^ i → 2 ^ j ≤ 2 ^ i) ∧
      __kfifo_alloc kmalloc f hint esize = some
        (match kmalloc ((2 ^ j * esize) % 2 ^ 64) with
          | some m => (__kfifo.mk 0 0 (2 ^ j - 1) (esize % 2 ^ 32) (some m), 0)
          | none => (__kfifo.mk 0 0 0 (esize % 2 ^ 32) none, -ENOMEM)) := by
  obtain ⟨hr, h1, h31, hle, hlt⟩ := roundup_spec h2 hx
  refine ⟨fls (hint - 1), h1, h31, hle, fun i hi => pow_le_of_lt_pow hlt hi, ?_⟩
  generalize fls (hint - 1) = j at hr h1 h31 hle hlt
  have hj : 2 ^ j ≤ 2 ^ 31 := pow_le_31 h31
  have hj2 : 2 ≤ 2 ^ j := by
    have := Nat.pow_le_pow_right (by decide : 0 < 2) h1
    omega
  have hm : 2 ^ j % 2 ^ 32 = 2 ^ j := Nat.mod_eq_of_lt (by omega)
  rw [kfifo_alloc_eq, hr, Option.map_some', hm, if_neg (by omega),
    sub32_of_le (by omega) (by omega)]
  cases hk : kmalloc (2 ^ j * esize % 2 ^ 64) with
  | none => simp
  | some m => simp

/-- The result of `__kfifo_alloc` for a hint that rounds to less than 2 as a 32-bit
value: 0, 1, or above `2 ^ 31`. -/
theorem alloc_invalid (kmalloc : Nat → Option Mem) (f : __kfifo) (esize : Nat) {hint : Nat}
    (hh : hint < 2 ^ 32) (h : hint ≤ 1 ∨ 2 ^ 31 < hint) :
    __kfifo_alloc kmalloc f hint esize
      = some (__kfifo.mk 0 0 0 (esize % 2 ^ 32) none, -EINVAL) := by
  have hr : ∃ r, roundup_pow_of_two hint = some r ∧ r % 2 ^ 32 < 2 := by
    rcases h with h | h
    · have : hint = 0 ∨ hint = 1 := by omega
      rcases this with h | h <;> subst h
      · exact ⟨2 ^ 32, by decide, by decide⟩
      · exact ⟨1, by decide, by decide⟩
    · exact ⟨2 ^ 32, roundup_big h hh, by decide⟩
  obtain ⟨r, hr1, hr2⟩ := hr
  rw [kfifo_alloc_eq, hr1, Option.map_some', if_pos hr2]

/-- C8. Allocating construction rounds up: for a hint below `2 ^ 32`,
(1) if `2 ≤ hint ≤ 2 ^ 31` the capacity is `2 ^ j`, the smallest power of two not below
the hint (a hint that is a power of two is kept); when `kmalloc` succeeds the call
returns 0 with `mask = 2 ^ j - 1` and `in = out = 0`, and when `kmalloc` fails it returns
`-ENOMEM` with `mask = 0`;
(2) if the hint is 0, 1 or above `2 ^ 31` the call returns `-EINVAL` with `mask = 0`
and `data = NULL`. -/
theorem C8_alloc (kmalloc : Nat → Option Mem) (f : __kfifo) (esize hint : Nat)
    (hh : hint < 2 ^ 32) :
    (2 ≤ hint → hint ≤ 2 ^ 31 →
      ∃ j, 1 ≤ j ∧ j ≤ 31 ∧ hint ≤ 2 ^ j ∧ (∀ i, hint ≤ 2 ^ i → 2 ^ j ≤ 2 ^ i) ∧
        (∀ i, hint = 2 ^ i → 2 ^ j = hint) ∧
        __kfifo_alloc kmalloc f hint esize = some
          (match kmalloc ((2 ^ j * esize) % 2 ^ 64) with
            | some m => (__kfifo.mk 0 0 (2 ^ j - 1) (esize % 2 ^ 32) (some m), 0)
            | none => (__kfifo.mk 0 0 0 (esize % 2 ^ 32) none, -ENOMEM))) ∧
    ((hint ≤ 1 ∨ 2 ^ 31 < hint) →
      __kfifo_alloc kmalloc f hint esize
        = some (__kfifo.mk 0 0 0 (esize % 2 ^ 32) none, -EINVAL)) := by
  refine ⟨fun h2 hx => ?_, alloc_invalid kmalloc f esize hh⟩
  obtain ⟨j, h1, h31, hle, hmin, heq⟩ := alloc_valid kmalloc f esize h2 hx
  refine ⟨j, h1, h31, hle, hmin, fun i hi => ?_, heq⟩
  have := hmin i (Nat.le_of_eq hi)
  omega

/-- C8 at concrete inputs: hint 17 with a working allocator, and hint `2 ^ 31 + 1`. -/
theorem C8_alloc_witness :
    (17 < 2 ^ 32 ∧ 2 ≤ 17 ∧ 17 ≤ 2 ^ 31 ∧
      ∃ j, 1 ≤ j ∧ j ≤ 31 ∧ 17 ≤ 2 ^ j ∧ (∀ i, 17 ≤ 2 ^ i → 2 ^ j ≤ 2 ^ i) ∧
        (∀ i, 17 = 2 ^ i → 2 ^ j = 17) ∧
        __kfifo_alloc kmalloc_ok wrap_fifo 17 4 = some
          (match kmalloc_ok ((2 ^ j * 4) % 2 ^ 64) with
            | some m => (__kfifo.mk 0 0 (2 ^ j - 1) (4 % 2 ^ 32) (some m), 0)
            | none => (__kfifo.mk 0 0 0 (4 % 2 ^ 32) none, -ENOMEM))) ∧
    (2147483649 < 2 ^ 32 ∧ (2147483649 ≤ 1 ∨ 2 ^ 31 < 2147483649) ∧
      __kfifo_alloc kmalloc_ok wrap_fifo 2147483649 4
        = some (__kfifo.mk 0 0 0 (4 % 2 ^ 32) none, -EINVAL)) :=
  ⟨⟨by decide, by decide, by decide,
      (C8_alloc kmalloc_ok wrap_fifo 4 17 (by decide)).1 (by decide) (by decide)⟩,
    ⟨by decide, Or.inr (by decide),
      (C8_alloc kmalloc_ok wrap_fifo 4 2147483649 (by decide)).2 (Or.inr (by decide))⟩⟩

/-- Construction over caller storage when the quotient `q = size / esize` is at least
1: the capacity is `2 ^ j`, the largest power of two not above `q`, it fits the
storage, and the call fails with `-EINVAL` exactly when `q < 2`. -/
theorem init_rounds_down (f : __kfifo) (buffer : Option Mem) {size esize : Nat}
    (hs : size < 2 ^ 32) (hq : 1 ≤ size / esize) :
    ∃ j, j ≤ 31 ∧ 2 ^ j ≤ size / esize ∧ size / esize < 2 * 2 ^ j ∧ 2 ^ j * esize ≤ size ∧
      (∀ i, 2 ^ i ≤ size / esize → 2 ^ i ≤ 2 ^ j) ∧
      __kfifo_init f buffer size esize = some
        (if size / esize < 2 then (__kfifo.mk 0 0 0 (esize % 2 ^ 32) buffer, -EINVAL)
          else (__kfifo.mk 0 0 (2 ^ j - 1) (esize % 2 ^ 32) buffer, 0)) := by
  have he : esize ≠ 0 := by
    intro h; rw [h, Nat.div_zero] at hq; omega
  have hq2 : size / esize < 2 ^ 32 := Nat.lt_of_le_of_lt (Nat.div_le_self _ _) hs
  have hfit : size / esize * esize ≤ size := Nat.div_mul_le_self _ _
  rw [kfifo_init_eq, if_neg he]
  generalize size / esize = q at hq hq2 hfit ⊢
  obtain ⟨hrd, hlo, hhi, hj⟩ := rounddown_spec (x := q) (by omega) hq2
  have hjl : 2 ^ (fls q - 1) ≤ 2 ^ 31 := pow_le_31 hj
  have hsel : (if is_power_of_2 q = true then some q
      else (rounddown_pow_of_two q).map (· % 2 ^ 32)) = some (2 ^ (fls q - 1)) := by
    split
    · rename_i hp
      rw [← (is_power_of_2_spec hq2 hp).2]
    · rw [hrd, Option.map_some', Nat.mod_eq_of_lt (by omega)]
  refine ⟨fls q - 1, hj, hlo, hhi, ?_, ?_, ?_⟩
  · exact Nat.le_trans (Nat.mul_le_mul_right _ hlo) hfit
  · intro i hi
    have h3 : 2 ^ i < 2 ^ (fls q - 1 + 1) := by
      rw [Nat.pow_succ']; omega
    have := (Nat.pow_lt_pow_iff_right (by decide : 1 < 2)).mp h3
    exact Nat.pow_le_pow_right (by decide) (by omega)
  · rw [hsel, Option.map_some']
    have hp1 : 1 ≤ 2 ^ (fls q - 1) := Nat.two_pow_pos _
    by_cases h2 : q < 2
    · rw [if_pos h2, if_pos (by omega)]
    · rw [if_neg h2, if_neg (by omega), sub32_of_le hp1 (by omega)]

/-- C7, failing input. With `size = 0` and `esize = 1` the quotient is 0, which
`is_power_of_2` rejects, so `__kfifo_init` evaluates `rounddown_pow_of_two(0)`, that is
`1UL << (fls(0) - 1) = 1UL << -1`: a shift by a negative count, which has no defined
result, instead of returning `-EINVAL`. -/
theorem C7_init_zero_undefined (f : __kfifo) (buffer : Option Mem) :
    is_power_of_2 (0 / 1) = false ∧ fls 0 = 0 ∧ rounddown_pow_of_two 0 = none ∧
    __kfifo_init f buffer 0 1 = none := by
  refine ⟨by decide, by decide, by decide, ?_⟩
  have h1 : is_power_of_2 (0 / 1) = false := by decide
  have h2 : rounddown_pow_of_two (0 / 1) = none := by decide
  rw [kfifo_init_eq, if_neg (by decide), h1, h2]
  rfl

/-- C5 at a concrete input: `__kfifo_init` over 8 bytes with `esize = 1`, then insert 6,
remove 4, insert 6, peek 3, remove 8. -/
theorem C5_invariant_witness :
    (8 < 2 ^ 32 ∧
    (__kfifo_init wrap_fifo (some (fun _ => 0)) 8 1 = some (init_fifo, 0) ∨
      __kfifo_alloc kmalloc_fail wrap_fifo 8 1 = some (init_fifo, 0))) ∧
    (sub32 (run_ops init_fifo demo_ops).in_ (run_ops init_fifo demo_ops).out
      ≤ (run_ops init_fifo demo_ops).mask + 1 ∧
    kfifo_unused (run_ops init_fifo demo_ops)
      = (run_ops init_fifo demo_ops).mask + 1
        - sub32 (run_ops init_fifo demo_ops).in_ (run_ops init_fifo demo_ops).out ∧
    kfifo_unused (run_ops init_fifo demo_ops) ≤ (run_ops init_fifo demo_ops).mask + 1 ∧
    (sub32 (run_ops init_fifo demo_ops).in_ (run_ops init_fifo demo_ops).out = 0
      ↔ (run_ops init_fifo demo_ops).in_ = (run_ops init_fifo demo_ops).out) ∧
    (sub32 (run_ops init_fifo demo_ops).in_ (run_ops init_fifo demo_ops).out
        = (run_ops init_fifo demo_ops).mask + 1
      ↔ kfifo_unused (run_ops init_fifo demo_ops) = 0)) :=
  ⟨⟨by decide, Or.inl rfl⟩,
    C5_invariant kmalloc_fail wrap_fifo init_fifo (some (fun _ => 0)) 8 1 (by decide)
      (Or.inl rfl) demo_ops⟩

theorem mod_add_inj {o a b cap : Nat} (ha : a < cap) (hb : b < cap)
    (h : (o + a) % cap = (o + b) % cap) : a = b := by
  have hp : o % cap < cap := Nat.mod_lt _ (by omega)
  rw [← Nat.mod_add_mod o cap a, ← Nat.mod_add_mod o cap b] at h
  rcases slot_cases hp ha with ⟨_, h2⟩ | ⟨_, h2⟩ <;>
    rcases slot_cases hp hb with ⟨_, h4⟩ | ⟨_, h4⟩ <;> omega

/-- The split copy into a byte fifo: the slot at distance `i` from the offset. -/
theorem wcopy_in_byte_slot (d src : Mem) {p i cap len : Nat} (hp : p < cap)
    (hi : i < len) (hlen : len ≤ cap) :
    wcopy_in d p src len cap ((p + i) % cap) = src i := by
  simpa using wcopy_in_slot d src (e := 1) (j := 0) hp hi hlen Nat.zero_lt_one

theorem wcopy_in_byte_frame (d src : Mem) {p i cap len : Nat} (hp : p < cap)
    (hi : len ≤ i) (hic : i < cap) (hlen : len ≤ cap) :
    wcopy_in d p src len cap ((p + i) % cap) = d ((p + i) % cap) := by
  simpa using wcopy_in_frame d src (e := 1) (j := 0) hp hi hic hlen Nat.zero_lt_one

theorem wcopy_out_byte_slot (dst d : Mem) {p i cap len : Nat} (hp : p < cap)
    (hi : i < len) (hlen : len ≤ cap) :
    wcopy_out dst d p len cap i = d ((p + i) % cap) := by
  simpa using wcopy_out_slot dst d (e := 1) (j := 0) hp hi hlen Nat.zero_lt_one

/-- The storage after `kfifo_copy_in` on a byte fifo. -/
theorem kfifo_copy_in_byte {f : __kfifo} {k : Nat} (hwf : WF f k) (he : f.esize = 1)
    {len : Nat} (hlen : len ≤ f.mask + 1) (src : Mem) (off : Nat) :
    (kfifo_copy_in f src len off).data = f.data.map fun d =>
      wcopy_in d (off % (f.mask + 1)) src len (f.mask + 1) := by
  have hB : (f.mask + 1) * f.esize < 2 ^ 32 := by
    rw [he, Nat.mul_one]; exact hwf.cap_lt
  rw [kfifo_copy_in_data hwf hB hlen src off, he]
  simp only [Nat.mul_one]

/-- The result of `kfifo_copy_out` on a byte fifo. -/
theorem kfifo_copy_out_byte {f : __kfifo} {k : Nat} (hwf : WF f k) (he : f.esize = 1)
    {len : Nat} (hlen : len ≤ f.mask + 1) (dst : Mem) (off : Nat) {d : Mem}
    (hd : f.data = some d) :
    kfifo_copy_out f dst len off
      = (f, wcopy_out dst d (off % (f.mask + 1)) len (f.mask + 1)) := by
  have hB : (f.mask + 1) * f.esize < 2 ^ 32 := by
    rw [he, Nat.mul_one]; exact hwf.cap_lt
  rw [kfifo_copy_out_data hwf hB hlen dst off d hd, he]
  simp only [Nat.mul_one]

theorem add64_small {a b : Nat} (h : a + b < 2 ^ 64) : add64 a b = a + b := by
  unfold add64; exact Nat.mod_eq_of_lt h

theorem poke_n_eq (f : __kfifo) (n w : Nat) :
    __kfifo_poke_n f n w = __kfifo.mk f.in_ f.out f.mask f.esize (f.data.map fun d =>
      if w > 1 then
        __KFIFO_POKE (__KFIFO_POKE d f.in_ f.mask n) (add32 f.in_ 1) f.mask (n >>> 8)
      else __KFIFO_POKE d f.in_ f.mask n) := rfl

/-- The accepting path of `__kfifo_in_r`. -/
theorem kfifo_in_r_accept (f : __kfifo) (buf : Mem) (len w : Nat)
    (h : ¬ add64 len w > kfifo_unused f) :
    __kfifo_in_r f buf len w =
      (__kfifo.mk (add64 f.in_ (add64 len w) % 2 ^ 32) f.out f.mask f.esize
        (kfifo_copy_in (__kfifo_poke_n f len w) buf len (add64 f.in_ w % 2 ^ 32)).data,
        len) := by
  unfold __kfifo_in_r
  rw [if_neg h]
  rfl

/-- The rejecting path of `__kfifo_in_r`. -/
theorem kfifo_in_r_reject (f : __kfifo) (buf : Mem) (len w : Nat)
    (h : add64 len w > kfifo_unused f) : __kfifo_in_r f buf len w = (f, 0) := by
  unfold __kfifo_in_r
  rw [if_pos h]

theorem poke_get (d : Mem) (x v : Nat) {m k : Nat} (hm : m + 1 = 2 ^ k) (a : Nat) :
    __KFIFO_POKE d x m v a = if a = x % (m + 1) then v % 256 else d a := by
  unfold __KFIFO_POKE
  rw [and_mask hm]

/-- The storage written by `__kfifo_poke_n` on a byte fifo: the header slots hold the low
and the high byte of the length, every other slot is untouched. -/
theorem poke_n_spec {f : __kfifo} {k : Nat} (hm : f.mask + 1 = 2 ^ k) (hk1 : 1 ≤ k)
    (hk2 : k ≤ 31) (d : Mem) (len w : Nat) :
    (if w > 1 then
        __KFIFO_POKE (__KFIFO_POKE d f.in_ f.mask len) (add32 f.in_ 1) f.mask (len >>> 8)
      else __KFIFO_POKE d f.in_ f.mask len) (f.in_ % (f.mask + 1)) = len % 256 ∧
    (w = 2 → (if w > 1 then
        __KFIFO_POKE (__KFIFO_POKE d f.in_ f.mask len) (add32 f.in_ 1) f.mask (len >>> 8)
      else __KFIFO_POKE d f.in_ f.mask len) ((f.in_ + 1) % (f.mask + 1))
        = (len >>> 8) % 256) ∧
    (∀ s, s ≠ f.in_ % (f.mask + 1) → (w = 2 → s ≠ (f.in_ + 1) % (f.mask + 1)) →
      (w = 1 ∨ w = 2) →
      (if w > 1 then
        __KFIFO_POKE (__KFIFO_POKE d f.in_ f.mask len) (add32 f.in_ 1) f.mask (len >>> 8)
      else __KFIFO_POKE d f.in_ f.mask len) s = d s) := by
  have hcap2 : 2 ≤ f.mask + 1 := by
    have := Nat.pow_le_pow_right (by decide : 0 < 2) hk1
    omega
  have hdvd := cap_dvd hm hk2
  have hne01 : f.in_ % (f.mask + 1) ≠ (f.in_ + 1) % (f.mask + 1) := by
    intro h
    have := mod_add_inj (o := f.in_) (a := 0) (b := 1) (by omega) (by omega) h
    omega
  have hin1 : add32 f.in_ 1 % (f.mask + 1) = (f.in_ + 1) % (f.mask + 1) := add32_mod hdvd
  refine ⟨?_, ?_, ?_⟩
  · split
    · rw [poke_get _ _ _ hm, hin1, if_neg hne01, poke_get _ _ _ hm, if_pos rfl]
    · rw [poke_get _ _ _ hm, if_pos rfl]
  · intro h2
    rw [if_pos (by omega), poke_get _ _ _ hm, hin1, if_pos rfl]
  · intro s hs1 hs2 hw
    split
    · rw [poke_get _ _ _ hm, hin1, if_neg (hs2 (by omega)), poke_get _ _ _ hm, if_neg hs1]
    · rw [poke_get _ _ _ hm, if_neg hs1]

/-- The storage left by an accepted `__kfifo_in_r` on a byte fifo: the payload copied
behind the header into the storage written by `__kfifo_poke_n`. -/
theorem in_r_data_eq {f : __kfifo} {k : Nat} (hwf : WF f k) (he : f.esize = 1) {d : Mem}
    (hd : f.data = some d) (hlen : sub32 f.in_ f.out ≤ f.mask + 1) {len w : Nat}
    (hl : len < 2 ^ 32) (hfit : len + w ≤ kfifo_unused f) (buf : Mem) :
    (__kfifo_in_r f buf len w).1.data = some (wcopy_in
      (if w > 1 then
        __KFIFO_POKE (__KFIFO_POKE d f.in_ f.mask len) (add32 f.in_ 1) f.mask (len >>> 8)
      else __KFIFO_POKE d f.in_ f.mask len)
      ((f.in_ + w) % (f.mask + 1)) buf len (f.mask + 1)) := by
  have hu := kfifo_unused_eq hwf hlen
  have hcap : f.mask + 1 ≤ 2 ^ 31 := hwf.2.2.1 ▸ pow_le_31 hwf.2.1
  have hin := hwf.2.2.2.1
  have hdvd := cap_dvd hwf.2.2.1 hwf.2.1
  have h64 : add64 len w = len + w := add64_small (by omega)
  have h64b : add64 f.in_ w = f.in_ + w := add64_small (by omega)
  rw [kfifo_in_r_accept f buf len w (by rw [h64]; omega)]
  have hwf1 : WF (__kfifo_poke_n f len w) k := hwf
  have he1 : (__kfifo_poke_n f len w).esize = 1 := he
  have hlen1 : len ≤ (__kfifo_poke_n f len w).mask + 1 := by
    show len ≤ f.mask + 1
    omega
  show (kfifo_copy_in (__kfifo_poke_n f len w) buf len (add64 f.in_ w % 2 ^ 32)).data = _
  rw [kfifo_copy_in_byte hwf1 he1 hlen1, poke_n_eq, hd, h64b]
  simp only [Option.map_some']
  rw [Nat.mod_mod_of_dvd _ hdvd]

/-- The payload copy of `__kfifo_in_r` seen slot by slot, over any storage `d1` that
holds the header at the slots of `in` and agrees with `d` elsewhere. -/
theorem in_r_data_slots {f : __kfifo} {k : Nat} (hwf : WF f k) (d d1 : Mem)
    (hlen : sub32 f.in_ f.out ≤ f.mask + 1) {len w : Nat}
    (hw : w = 1 ∨ w = 2) (hfit : len + w ≤ f.mask + 1 - sub32 f.in_ f.out) (buf : Mem)
    (hd1_hdr : d1 (f.in_ % (f.mask + 1)) = len % 256)
    (hd1_hdr2 : w = 2 → d1 ((f.in_ + 1) % (f.mask + 1)) = (len >>> 8) % 256)
    (hd1_other : ∀ s, s ≠ f.in_ % (f.mask + 1) →
      (w = 2 → s ≠ (f.in_ + 1) % (f.mask + 1)) → (w = 1 ∨ w = 2) → d1 s = d s) :
    wcopy_in d1 ((f.in_ + w) % (f.mask + 1)) buf len (f.mask + 1) (f.in_ % (f.mask + 1))
      = len % 256 ∧
    (w = 2 → wcopy_in d1 ((f.in_ + w) % (f.mask + 1)) buf len (f.mask + 1)
      ((f.in_ + 1) % (f.mask + 1)) = (len >>> 8) % 256) ∧
    (∀ i, i < len → wcopy_in d1 ((f.in_ + w) % (f.mask + 1)) buf len (f.mask + 1)
      ((f.in_ + w + i) % (f.mask + 1)) = buf i) ∧
    (∀ x, x < sub32 f.in_ f.out →
      wcopy_in d1 ((f.in_ + w) % (f.mask + 1)) buf len (f.mask + 1)
        ((f.out + x) % (f.mask + 1)) = d ((f.out + x) % (f.mask + 1))) := by
  obtain ⟨hk1, hk2, hm, hin, hout, hes⟩ := hwf
  have hdvd := cap_dvd hm hk2
  have hpos : 0 < f.mask + 1 := Nat.succ_pos _
  have hp : (f.in_ + w) % (f.mask + 1) < f.mask + 1 := Nat.mod_lt _ hpos
  refine ⟨?_, ?_, ?_, ?_⟩
  · have e : f.in_ % (f.mask + 1)
        = ((f.in_ + w) % (f.mask + 1) + (f.mask + 1 - w)) % (f.mask + 1) := by
      rw [Nat.mod_add_mod]
      have : f.in_ + w + (f.mask + 1 - w) = f.in_ + (f.mask + 1) := by omega
      rw [this, Nat.add_mod_right]
    rw [e, wcopy_in_byte_frame d1 buf hp (by omega) (by omega) (by omega), ← e]
    exact hd1_hdr
  · intro h2
    have e : (f.in_ + 1) % (f.mask + 1)
        = ((f.in_ + w) % (f.mask + 1) + (f.mask + 1 - 1)) % (f.mask + 1) := by
      rw [Nat.mod_add_mod]
      have : f.in_ + w + (f.mask + 1 - 1) = f.in_ + 1 + (f.mask + 1) := by omega
      rw [this, Nat.add_mod_right]
    rw [e, wcopy_in_byte_frame d1 buf hp (by omega) (by omega) (by omega), ← e]
    exact hd1_hdr2 h2
  · intro i hi
    rw [← Nat.mod_add_mod (f.in_ + w)]
    exact wcopy_in_byte_slot d1 buf hp hi (by omega)
  · intro x hx
    have hcm := cursor_mod hin hout hdvd
    have e : (f.out + x) % (f.mask + 1)
        = ((f.in_ + w) % (f.mask + 1) + (x + (f.mask + 1) - sub32 f.in_ f.out - w))
            % (f.mask + 1) := by
      rw [slot_old hin hout hdvd hlen, Nat.mod_add_mod, Nat.mod_add_mod]
      congr 1
      omega
    have hs1 : (f.out + x) % (f.mask + 1) ≠ f.in_ % (f.mask + 1) := by
      rw [← hcm]
      intro h
      have := mod_add_inj (by omega) (by omega) h
      omega
    have hs2 : w = 2 → (f.out + x) % (f.mask + 1) ≠ (f.in_ + 1) % (f.mask + 1) := by
      intro h2
      rw [← Nat.mod_add_mod f.in_, ← hcm, Nat.mod_add_mod, Nat.add_assoc]
      intro h
      have := mod_add_inj (by omega) (by omega) h
      omega
    rw [e, wcopy_in_byte_frame d1 buf hp (by omega) (by omega) (by omega), ← e]
    exact hd1_other _ hs1 hs2 hw

/-- Storage after an accepted `__kfifo_in_r` on a byte fifo: the header bytes, the
payload bytes, and the bytes already queued. Slots are taken modulo the capacity. -/
theorem in_r_data {f : __kfifo} {k : Nat} (hwf : WF f k) (he : f.esize = 1) {d : Mem}
    (hd : f.data = some d) (hlen : sub32 f.in_ f.out ≤ f.mask + 1) {len w : Nat}
    (hw : w = 1 ∨ w = 2) (hl : len < 2 ^ 32) (hfit : len + w ≤ kfifo_unused f) (buf : Mem) :
    ∃ d2, (__kfifo_in_r f buf len w).1.data = some d2 ∧
      d2 (f.in_ % (f.mask + 1)) = len % 256 ∧
      (w = 2 → d2 ((f.in_ + 1) % (f.mask + 1)) = (len >>> 8) % 256) ∧
      (∀ i, i < len → d2 ((f.in_ + w + i) % (f.mask + 1)) = buf i) ∧
      (∀ x, x < sub32 f.in_ f.out →
        d2 ((f.out + x) % (f.mask + 1)) = d ((f.out + x) % (f.mask + 1))) := by
  have hu := kfifo_unused_eq hwf hlen
  obtain ⟨h1, h2, h3⟩ := poke_n_spec hwf.2.2.1 hwf.1 hwf.2.1 d len w
  exact ⟨_, in_r_data_eq hwf he hd hlen hl hfit buf,
    in_r_data_slots hwf d _ hlen hw (hu ▸ hfit) buf h1 h2 h3⟩

/-- Fields after an accepted `__kfifo_in_r`. -/
theorem in_r_fields {f : __kfifo} (hin : f.in_ < 2 ^ 32) {len w : Nat} (hw : w = 1 ∨ w = 2)
    (hl : len < 2 ^ 32) (hfit : len + w ≤ kfifo_unused f) (buf : Mem) :
    (__kfifo_in_r f buf len w).2 = len ∧
    (__kfifo_in_r f buf len w).1.in_ = add32 f.in_ (len + w) ∧
    (__kfifo_in_r f buf len w).1.out = f.out ∧
    (__kfifo_in_r f buf len w).1.mask = f.mask ∧
    (__kfifo_in_r f buf len w).1.esize = f.esize := by
  have h64 : add64 len w = len + w := add64_small (by omega)
  rw [kfifo_in_r_accept f buf len w (by rw [h64]; omega), h64]
  refine ⟨rfl, ?_, rfl, rfl, rfl⟩
  show add64 f.in_ (len + w) % 2 ^ 32 = add32 f.in_ (len + w)
  rw [add64_small (by omega)]
  rfl

/-- C9. Record atomicity, for a header width 1 or 2 and a 32-bit payload length.
If `len + recsize` exceeds the unused capacity, `__kfifo_in_r` returns 0 and leaves the
whole structure (storage, `in`, `out`) as it was. Otherwise it returns `len`, advances
`in` by exactly `len + recsize` and leaves `out`, `mask` and `esize` unchanged; and on a
well-formed byte fifo within its length bound the record is stored whole: the header
bytes at slots `in & mask` (low) and `(in + 1) & mask` (high, width 2), every payload
byte at slot `(in + recsize + i) & mask`, with the bytes already queued untouched. -/
theorem C9_record_atomic (f : __kfifo) (hin : f.in_ < 2 ^ 32) (buf : Mem) (len w : Nat)
    (hw : w = 1 ∨ w = 2) (hl : len < 2 ^ 32) :
    (len + w > kfifo_unused f → __kfifo_in_r f buf len w = (f, 0)) ∧
    (len + w ≤ kfifo_unused f →
      (__kfifo_in_r f buf len w).2 = len ∧
      (__kfifo_in_r f buf len w).1.in_ = add32 f.in_ (len + w) ∧
      (__kfifo_in_r f buf len w).1.out = f.out ∧
      (__kfifo_in_r f buf len w).1.mask = f.mask ∧
      (__kfifo_in_r f buf len w).1.esize = f.esize ∧
      (∀ k d, WF f k → f.esize = 1 → f.data = some d → sub32 f.in_ f.out ≤ f.mask + 1 →
        ∃ d2, (__kfifo_in_r f buf len w).1.data = some d2 ∧
          d2 (f.in_ &&& f.mask) = len % 256 ∧
          (w = 2 → d2 (add32 f.in_ 1 &&& f.mask) = (len >>> 8) % 256) ∧
          (∀ i, i < len → d2 ((f.in_ + w + i) &&& f.mask) = buf i) ∧
          (∀ x, x < sub32 f.in_ f.out →
            d2 ((f.out + x) &&& f.mask) = d ((f.out + x) &&& f.mask)))) := by
  have h64 : add64 len w = len + w := add64_small (by omega)
  constructor
  · intro h
    exact kfifo_in_r_reject f buf len w (by rw [h64]; exact h)
  · intro hfit
    obtain ⟨h1, h2, h3, h4, h5⟩ := in_r_fields hin hw hl hfit buf
    refine ⟨h1, h2, h3, h4, h5, ?_⟩
    intro k d hwf he hd hlen
    obtain ⟨d2, e1, e2, e3, e4, e5⟩ := in_r_data hwf he hd hlen hw hl hfit buf
    have hm := hwf.2.2.1
    have hdvd := cap_dvd hm hwf.2.1
    refine ⟨d2, e1, ?_, ?_, ?_, ?_⟩
    · rw [and_mask hm]; exact e2
    · intro h2
      rw [and_mask hm, add32_mod hdvd]; exact e3 h2
    · intro i hi
      rw [and_mask hm]; exact e4 i hi
    · intro x hx
      rw [and_mask hm]; exact e5 x hx

/-- C9 at a concrete input: capacity 8 with two queued bytes (`in = 6`, `out = 4`,
unused 6) and a record of 3 bytes with a 2-byte header, which wraps at the storage end.
The hypotheses hold there, the record is accepted, and the stored bytes are as stated. -/
theorem C9_record_atomic_witness :
    (wrap_fifo.in_ < 2 ^ 32 ∧ (2 = 1 ∨ 2 = 2) ∧ 3 < 2 ^ 32 ∧
      3 + 2 ≤ kfifo_unused wrap_fifo ∧ WF wrap_fifo 3 ∧ wrap_fifo.esize = 1 ∧
      wrap_fifo.data = some (fun a => a + 10) ∧
      sub32 wrap_fifo.in_ wrap_fifo.out ≤ wrap_fifo.mask + 1) ∧
    ((__kfifo_in_r wrap_fifo (fun a => a + 65) 3 2).2 = 3 ∧
      (__kfifo_in_r wrap_fifo (fun a => a + 65) 3 2).1.in_ = add32 wrap_fifo.in_ (3 + 2) ∧
      (__kfifo_in_r wrap_fifo (fun a => a + 65) 3 2).1.out = wrap_fifo.out ∧
      (__kfifo_in_r wrap_fifo (fun a => a + 65) 3 2).1.mask = wrap_fifo.mask ∧
      (__kfifo_in_r wrap_fifo (fun a => a + 65) 3 2).1.esize = wrap_fifo.esize) ∧
    (∃ d2, (__kfifo_in_r wrap_fifo (fun a => a + 65) 3 2).1.data = some d2 ∧
      d2 (wrap_fifo.in_ &&& wrap_fifo.mask) = 3 % 256 ∧
      (2 = 2 → d2 (add32 wrap_fifo.in_ 1 &&& wrap_fifo.mask) = (3 >>> 8) % 256) ∧
      (∀ i, i < 3 → d2 ((wrap_fifo.in_ + 2 + i) &&& wrap_fifo.mask) = (fun a => a + 65) i) ∧
      (∀ x, x < sub32 wrap_fifo.in_ wrap_fifo.out →
        d2 ((wrap_fifo.out + x) &&& wrap_fifo.mask)
          = (fun a => a + 10) ((wrap_fifo.out + x) &&& wrap_fifo.mask))) ∧
    (5 + 2 > kfifo_unused wrap_fifo ∧
      __kfifo_in_r wrap_fifo (fun a => a + 65) 5 2 = (wrap_fifo, 0)) :=
  ⟨⟨by decide, Or.inr rfl, by decide, by decide, by decide, rfl, rfl, by decide⟩,
    ⟨((C9_record_atomic wrap_fifo (by decide) (fun a => a + 65) 3 2 (Or.inr rfl)
        (by decide)).2 (by decide)).1,
      ((C9_record_atomic wrap_fifo (by decide) (fun a => a + 65) 3 2 (Or.inr rfl)
        (by decide)).2 (by decide)).2.1,
      ((C9_record_atomic wrap_fifo (by decide) (fun a => a + 65) 3 2 (Or.inr rfl)
        (by decide)).2 (by decide)).2.2.1,
      ((C9_record_atomic wrap_fifo (by decide) (fun a => a + 65) 3 2 (Or.inr rfl)
        (by decide)).2 (by decide)).2.2.2.1,
      ((C9_record_atomic wrap_fifo (by decide) (fun a => a + 65) 3 2 (Or.inr rfl)
        (by decide)).2 (by decide)).2.2.2.2.1⟩,
    ((C9_record_atomic wrap_fifo (by decide) (fun a => a + 65) 3 2 (Or.inr rfl)
      (by decide)).2 (by decide)).2.2.2.2.2 3 (fun a => a + 10) (by decide) rfl rfl
      (by decide),
    ⟨by decide,
      (C9_record_atomic wrap_fifo (by decide) (fun a => a + 65) 5 2 (Or.inr rfl)
        (by decide)).1 (by decide)⟩⟩

/-- Decoding of a 2-byte header, low byte first. -/
theorem hdr_decode {L : Nat} (hL : L < 65536) :
    (L % 256) ||| (((L >>> 8) % 256) <<< 8) = L := by
  rw [Nat.shiftLeft_eq, Nat.shiftRight_eq_div_pow, Nat.lor_comm, Nat.mul_comm,
    ← Nat.mul_add_lt_is_or (Nat.mod_lt _ (by decide))]
  have : L / 2 ^ 8 % 256 = L / 2 ^ 8 := Nat.mod_eq_of_lt (by omega)
  rw [this]
  omega

theorem peek_n_eq (g : __kfifo) {d2 : Mem} (hd : g.data = some d2) (w : Nat) :
    __kfifo_peek_n g w =
      if sub64 w 1 ≠ 0 then
        (d2 (g.out &&& g.mask) % 256) ||| ((d2 (add32 g.out 1 &&& g.mask) % 256) <<< 8)
      else d2 (g.out &&& g.mask) % 256 := by
  unfold __kfifo_peek_n
  rw [hd]
  rfl

/-- The non-empty path of `__kfifo_out_r`. -/
theorem kfifo_out_r_eq (g : __kfifo) (hne : g.in_ ≠ g.out) (dst : Mem) (max w : Nat) :
    __kfifo_out_r g dst max w =
      (__kfifo.mk g.in_ (add64 g.out (add64 (__kfifo_peek_n g w) w) % 2 ^ 32) g.mask g.esize
          g.data,
        (kfifo_copy_out g dst (min max (__kfifo_peek_n g w)) (add64 g.out w % 2 ^ 32)).2,
        min max (__kfifo_peek_n g w)) := by
  have h : (if max > __kfifo_peek_n g w then __kfifo_peek_n g w else max)
      = min max (__kfifo_peek_n g w) := by split <;> omega
  unfold __kfifo_out_r
  rw [if_neg hne]
  show (__kfifo.mk g.in_ (add64 g.out (add64 (__kfifo_peek_n g w) w) % 2 ^ 32) g.mask g.esize
          g.data,
        (kfifo_copy_out g dst (if max > __kfifo_peek_n g w then __kfifo_peek_n g w else max)
          (add64 g.out w % 2 ^ 32)).2,
        (if max > __kfifo_peek_n g w then __kfifo_peek_n g w else max)) = _
  rw [h]

/-- The length read back by `__kfifo_peek_n` from a header written by `__kfifo_poke_n`:
the storage `d2` holds `L % 256` at slot `out` and, for width 2, `(L >> 8) % 256` at
slot `out + 1`. -/
theorem peek_n_header {g : __kfifo} {k : Nat} (hwf : WF g k) {d2 : Mem}
    (hd : g.data = some d2) {w L : Nat} (hw : w = 1 ∨ w = 2) (hL : L ≤ 2 ^ (8 * w) - 1)
    (h0 : d2 (g.out % (g.mask + 1)) = L % 256)
    (h1 : w = 2 → d2 ((g.out + 1) % (g.mask + 1)) = (L >>> 8) % 256) :
    __kfifo_peek_n g w = L := by
  have hm := hwf.2.2.1
  have hdvd := cap_dvd hm hwf.2.1
  rw [peek_n_eq g hd, and_mask hm, and_mask hm, add32_mod hdvd, h0]
  rcases hw with hw | hw <;> subst hw
  · have hs : sub64 1 1 = 0 := by decide
    have hL2 : L ≤ 255 := hL
    rw [hs, if_neg (by decide), Nat.mod_mod]
    exact Nat.mod_eq_of_lt (by omega)
  · have hs : sub64 2 1 = 1 := by decide
    have hL2 : L ≤ 65535 := hL
    rw [hs, if_pos (by decide), h1 rfl, Nat.mod_mod, Nat.mod_mod]
    exact hdr_decode (by omega)

/-- C10. Record round-trip: on a well-formed empty byte fifo (`in = out` at any cursor
value) with capacity at least `L + w`, for header width `w` 1 or 2 and a payload of
`L ≤ 2 ^ (8 w) - 1` bytes, `__kfifo_in_r` returns `L`, and a following `__kfifo_out_r`
with `max ≥ L` returns `L`, writes exactly the `L` payload bytes to `dst` (bytes of `dst`
past them untouched) and leaves the fifo empty. -/
theorem C10_record_roundtrip (f : __kfifo) (k : Nat) (hwf : WF f k) (he : f.esize = 1)
    (hd : f.data.isSome = true) (hempty : f.in_ = f.out) (w : Nat) (hw : w = 1 ∨ w = 2)
    (L : Nat) (hL : L ≤ 2 ^ (8 * w) - 1) (hcap : L + w ≤ f.mask + 1)
    (payload dst : Mem) (max : Nat) (hmax : L ≤ max) :
    (__kfifo_in_r f payload L w).2 = L ∧
    (__kfifo_out_r (__kfifo_in_r f payload L w).1 dst max w).2.2 = L ∧
    (∀ i, i < L → (__kfifo_out_r (__kfifo_in_r f payload L w).1 dst max w).2.1 i
      = payload i) ∧
    (∀ i, L ≤ i → (__kfifo_out_r (__kfifo_in_r f payload L w).1 dst max w).2.1 i = dst i) ∧
    (__kfifo_out_r (__kfifo_in_r f payload L w).1 dst max w).1.in_
      = (__kfifo_out_r (__kfifo_in_r f payload L w).1 dst max w).1.out := by
  obtain ⟨d, hd⟩ := Option.isSome_iff_exists.mp hd
  obtain ⟨hk1, hk2, hm, hin, hout, hes⟩ := hwf
  have hwf : WF f k := ⟨hk1, hk2, hm, hin, hout, hes⟩
  have hcap31 : f.mask + 1 ≤ 2 ^ 31 := hm ▸ pow_le_31 hk2
  have hdvd := cap_dvd hm hk2
  have hpos : 0 < f.mask + 1 := Nat.succ_pos _
  have hl0 : sub32 f.in_ f.out = 0 := by
    rw [hempty]; exact (sub32_of_le (Nat.le_refl _) hout).trans (Nat.sub_self _)
  have hlen : sub32 f.in_ f.out ≤ f.mask + 1 := by omega
  have hu := kfifo_unused_eq hwf hlen
  have hL32 : L < 2 ^ 32 := by omega
  have hfit : L + w ≤ kfifo_unused f := by omega
  obtain ⟨hr, hgi, hgo, hgm, hge⟩ := in_r_fields hin hw hL32 hfit payload
  obtain ⟨d2, hgd, e0, e1, e2, _⟩ := in_r_data hwf he hd hlen hw hL32 hfit payload
  generalize (__kfifo_in_r f payload L w).1 = g at hgi hgo hgm hge hgd ⊢
  have hwg : WF g k := ⟨hk1, hk2, hgm ▸ hm, hgi ▸ add32_lt _ _, hgo ▸ hout, hge ▸ hes⟩
  have hn : __kfifo_peek_n g w = L := by
    apply peek_n_header hwg hgd hw hL
    · rw [hgo, hgm, ← hempty]; exact e0
    · intro h2; rw [hgo, hgm, ← hempty]; exact e1 h2
  have hne : g.in_ ≠ g.out := by
    rw [hgi, hgo, ← hempty]
    unfold add32
    omega
  have h64 : add64 L w = L + w := add64_small (by omega)
  have h64o : add64 g.out w = g.out + w := add64_small (by rw [hgo]; omega)
  have hmin : min max L = L := Nat.min_eq_right hmax
  have hp : (g.out + w) % (g.mask + 1) < g.mask + 1 := Nat.mod_lt _ (Nat.succ_pos _)
  have hLg : L ≤ g.mask + 1 := by rw [hgm]; omega
  have hoff : (g.out + w) % 2 ^ 32 % (g.mask + 1) = (g.out + w) % (g.mask + 1) :=
    Nat.mod_mod_of_dvd _ (hgm ▸ hdvd)
  rw [kfifo_out_r_eq g hne, hn, hmin, h64, h64o, kfifo_copy_out_byte hwg (hge ▸ he) hLg dst _ hgd,
    hoff]
  refine ⟨hr, rfl, ?_, ?_, ?_⟩
  · intro i hi
    show wcopy_out dst d2 _ L _ i = payload i
    rw [wcopy_out_byte_slot dst d2 hp hi hLg, Nat.mod_add_mod, hgo, hgm, ← hempty]
    exact e2 i hi
  · intro i hi
    exact wcopy_out_frame dst d2 _ _ _ hi
  · show g.in_ = add64 g.out (L + w) % 2 ^ 32
    rw [add64_small (by rw [hgo]; omega), hgi, hgo, ← hempty]
    rfl

/-- C10 at a concrete input: capacity 8, both cursors at `2 ^ 32 - 1` (slot 7), a 2-byte
header and a 5-byte payload: the header straddles the storage end and `in` wraps past
`2 ^ 32`. -/
theorem C10_record_roundtrip_witness :
    WF rec_fifo 3 ∧ rec_fifo.esize = 1 ∧ rec_fifo.data.isSome = true ∧
    rec_fifo.in_ = rec_fifo.out ∧ (2 = 1 ∨ 2 = 2) ∧ 5 ≤ 2 ^ (8 * 2) - 1 ∧
    5 + 2 ≤ rec_fifo.mask + 1 ∧ 5 ≤ 100 ∧
    ((__kfifo_in_r rec_fifo (fun a => a + 65) 5 2).2 = 5 ∧
    (__kfifo_out_r (__kfifo_in_r rec_fifo (fun a => a + 65) 5 2).1 (fun _ => 0) 100 2).2.2
      = 5 ∧
    (∀ i, i < 5 →
      (__kfifo_out_r (__kfifo_in_r rec_fifo (fun a => a + 65) 5 2).1 (fun _ => 0) 100 2).2.1 i
        = (fun a => a + 65) i) ∧
    (∀ i, 5 ≤ i →
      (__kfifo_out_r (__kfifo_in_r rec_fifo (fun a => a + 65) 5 2).1 (fun _ => 0) 100 2).2.1 i
        = (fun _ => 0) i) ∧
    (__kfifo_out_r (__kfifo_in_r rec_fifo (fun a => a + 65) 5 2).1 (fun _ => 0) 100 2).1.in_
      = (__kfifo_out_r (__kfifo_in_r rec_fifo (fun a => a + 65) 5 2).1
          (fun _ => 0) 100 2).1.out) :=
  ⟨by decide, rfl, rfl, rfl, Or.inr rfl, by decide, by decide, by decide,
    C10_record_roundtrip rec_fifo 3 (by decide) rfl rfl rfl 2 (Or.inr rfl) 5 (by decide)
      (by decide) (fun a => a + 65) (fun _ => 0) 100 (by decide)⟩

/-- C15. The helper `__kfifo_max_r` for header width 1 or 2: it is defined and equals
`min len (2 ^ (8 * recsize) - 1)`, that is `min len 255` and `min len 65535`; it is
idempotent, and it returns `len` unchanged when `len` fits the header. -/
theorem C15_max_r (len recsize : Nat) (hw : recsize = 1 ∨ recsize = 2) :
    __kfifo_max_r len recsize = some (min len (2 ^ (8 * recsize) - 1)) ∧
    __kfifo_max_r len 1 = some (min len 255) ∧
    __kfifo_max_r len 2 = some (min len 65535) ∧
    __kfifo_max_r (min len (2 ^ (8 * recsize) - 1)) recsize
      = some (min len (2 ^ (8 * recsize) - 1)) ∧
    (len ≤ 2 ^ (8 * recsize) - 1 → __kfifo_max_r len recsize = some len) := by
  have h1 : ∀ l, __kfifo_max_r l 1 = some (min l 255) := by
    intro l
    have e : shl_int 1 ((1 <<< 3) % 2 ^ 64) = some 256 := by decide
    have e2 : sub32 256 1 = 255 := by decide
    unfold __kfifo_max_r
    rw [e]
    simp only [Option.map_some', e2]
    congr 1
    split <;> omega
  have h2 : ∀ l, __kfifo_max_r l 2 = some (min l 65535) := by
    intro l
    have e : shl_int 1 ((2 <<< 3) % 2 ^ 64) = some 65536 := by decide
    have e2 : sub32 65536 1 = 65535 := by decide
    unfold __kfifo_max_r
    rw [e]
    simp only [Option.map_some', e2]
    congr 1
    split <;> omega
  refine ⟨?_, h1 len, h2 len, ?_, ?_⟩
  · rcases hw with h | h <;> subst h
    · exact h1 len
    · exact h2 len
  · rcases hw with h | h <;> subst h
    · rw [h1]; congr 1; show min (min len 255) 255 = min len 255; omega
    · rw [h2]; congr 1; show min (min len 65535) 65535 = min len 65535; omega
  · intro hl
    rcases hw with h | h <;> subst h
    · rw [h1]; congr 1; have : len ≤ 255 := hl; omega
    · rw [h2]; congr 1; have : len ≤ 65535 := hl; omega

/-- C15 at concrete inputs: a narrow header with `len = 300`. -/
theorem C15_max_r_witness :
    (1 = 1 ∨ 1 = 2) ∧
    (__kfifo_max_r 300 1 = some (min 300 (2 ^ (8 * 1) - 1)) ∧
    __kfifo_max_r 300 1 = some (min 300 255) ∧
    __kfifo_max_r 300 2 = some (min 300 65535) ∧
    __kfifo_max_r (min 300 (2 ^ (8 * 1) - 1)) 1 = some (min 300 (2 ^ (8 * 1) - 1)) ∧
    (300 ≤ 2 ^ (8 * 1) - 1 → __kfifo_max_r 300 1 = some 300)) :=
  ⟨Or.inl rfl, C15_max_r 300 1 (Or.inl rfl)⟩

theorem queued_eq {f : __kfifo} {k : Nat} (hwf : WF f k) {d : Mem} (hd : f.data = some d) :
    queued f = (List.range (sub32 f.in_ f.out)).map
      fun i => d ((f.out + i) % (f.mask + 1)) := by
  unfold queued
  rw [hd]
  apply List.map_congr_left
  intro i _
  rw [and_mask hwf.2.2.1]

theorem queued_length {f : __kfifo} {d : Mem} (hd : f.data = some d) :
    (queued f).length = sub32 f.in_ f.out := by
  unfold queued
  rw [hd]
  simp

theorem hdr_length {w : Nat} (hw : w = 1 ∨ w = 2) (n : Nat) : (hdr w n).length = w := by
  rcases hw with h | h <;> subst h <;> rfl

theorem bytes_of_length (m : Mem) (n : Nat) : (bytes_of m n).length = n := by
  simp [bytes_of]

/-- Record enqueue on the queued bytes: an accepted `__kfifo_in_r` appends the header of
`len` and the first `len` bytes of `buf`. -/
theorem in_r_queued {f : __kfifo} {k : Nat} (hwf : WF f k) (he : f.esize = 1) {d : Mem}
    (hd : f.data = some d) (hlen : sub32 f.in_ f.out ≤ f.mask + 1) {len w : Nat}
    (hw : w = 1 ∨ w = 2) (hl : len < 2 ^ 32) (hfit : len + w ≤ kfifo_unused f) (buf : Mem) :
    queued (__kfifo_in_r f buf len w).1 = queued f ++ (hdr w len ++ bytes_of buf len) := by
  have hu := kfifo_unused_eq hwf hlen
  obtain ⟨d2, e1, e2, e3, e4, e5⟩ := in_r_data hwf he hd hlen hw hl hfit buf
  obtain ⟨_, hgi, hgo, hgm, hge⟩ := in_r_fields hwf.2.2.2.1 hw hl hfit buf
  obtain ⟨hk1, hk2, hm, hin, hout, hes⟩ := hwf
  have hwf : WF f k := ⟨hk1, hk2, hm, hin, hout, hes⟩
  have hcap : f.mask + 1 ≤ 2 ^ 31 := hm ▸ pow_le_31 hk2
  have hdvd := cap_dvd hm hk2
  generalize (__kfifo_in_r f buf len w).1 = g at e1 hgi hgo hgm hge ⊢
  have hwg : WF g k := ⟨hk1, hk2, hgm ▸ hm, hgi ▸ add32_lt _ _, hgo ▸ hout, hge ▸ hes⟩
  have hgl : sub32 g.in_ g.out = sub32 f.in_ f.out + (len + w) := by
    rw [hgi, hgo]; exact sub32_add32_in hin hout (by omega)
  rw [queued_eq hwg e1, queued_eq hwf hd, hgl, hgo, hgm]
  apply List.ext_getElem
  · simp [hdr_length hw, bytes_of_length]; omega
  · intro x h1 h2
    simp only [List.length_map, List.length_range] at h1
    rw [List.getElem_map, List.getElem_range]
    by_cases hx : x < sub32 f.in_ f.out
    · rw [List.getElem_append_left (by simpa using hx), List.getElem_map, List.getElem_range]
      exact e5 x hx
    · have hx2 : sub32 f.in_ f.out ≤ x := Nat.le_of_not_lt hx
      obtain ⟨y, rfl⟩ : ∃ y, x = sub32 f.in_ f.out + y := ⟨x - sub32 f.in_ f.out, by omega⟩
      rw [List.getElem_append_right (by simp)]
      simp only [List.length_map, List.length_range, Nat.add_sub_cancel_left]
      rw [slot_new hin hout hdvd (Nat.le_add_right _ _), Nat.mod_add_mod]
      simp only [Nat.add_sub_cancel_left]
      have hy2 : y < len + w := by omega
      by_cases hyw : y < w
      · rw [List.getElem_append_left (by rw [hdr_length hw]; exact hyw)]
        rcases hw with h | h <;> subst h
        · have : y = 0 := by omega
          subst this
          exact e2
        · have : y = 0 ∨ y = 1 := by omega
          rcases this with h | h <;> subst h
          · exact e2
          · exact e3 rfl
      · have hyw2 : w ≤ y := Nat.le_of_not_lt hyw
        obtain ⟨z, rfl⟩ : ∃ z, y = w + z := ⟨y - w, by omega⟩
        rw [List.getElem_append_right (by rw [hdr_length hw]; omega)]
        simp only [hdr_length hw, bytes_of, List.getElem_map, List.getElem_range,
          Nat.add_sub_cancel_left]
        rw [← Nat.add_assoc]
        exact e4 z (by omega)

/-- Advancing `out` by `m ≤ length` drops the `m` oldest queued bytes. -/
theorem queued_adv {f : __kfifo} {k : Nat} (hwf : WF f k) {d : Mem} (hd : f.data = some d)
    {m : Nat} (hm : m ≤ sub32 f.in_ f.out) :
    queued (__kfifo.mk f.in_ (add32 f.out m) f.mask f.esize f.data) = (queued f).drop m := by
  obtain ⟨hk1, hk2, hmk, hin, hout, hes⟩ := hwf
  have hwf : WF f k := ⟨hk1, hk2, hmk, hin, hout, hes⟩
  have hdvd := cap_dvd hmk hk2
  have hwf2 : WF (__kfifo.mk f.in_ (add32 f.out m) f.mask f.esize f.data) k :=
    ⟨hk1, hk2, hmk, hin, add32_lt _ _, hes⟩
  have hd2 : (__kfifo.mk f.in_ (add32 f.out m) f.mask f.esize f.data).data = some d := hd
  rw [queued_eq hwf2 hd2, queued_eq hwf hd]
  show List.map _ (List.range (sub32 f.in_ (add32 f.out m))) = _
  rw [sub32_add32_out hin hout hm]
  apply List.ext_getElem
  · simp
  · intro x h1 h2
    rw [List.getElem_map, List.getElem_range, List.getElem_drop, List.getElem_map,
      List.getElem_range]
    show d ((add32 f.out m + x) % (f.mask + 1)) = _
    rw [← Nat.mod_add_mod, add32_mod hdvd, Nat.mod_add_mod, Nat.add_assoc]

/-- The bytes `kfifo_copy_out` reads from offset `out` of a byte fifo are the oldest
queued bytes; bytes of `dst` past the copied ones are untouched. -/
theorem copy_out_queued {f : __kfifo} {k : Nat} (hwf : WF f k) (he : f.esize = 1) {d : Mem}
    (hd : f.data = some d) {t : Nat} (ht : t ≤ sub32 f.in_ f.out)
    (hlen : sub32 f.in_ f.out ≤ f.mask + 1) (dst : Mem) :
    bytes_of (kfifo_copy_out f dst t f.out).2 t = (queued f).take t ∧
    ∀ i, t ≤ i → (kfifo_copy_out f dst t f.out).2 i = dst i := by
  have hp : f.out % (f.mask + 1) < f.mask + 1 := Nat.mod_lt _ (Nat.succ_pos _)
  have ht2 : t ≤ f.mask + 1 := Nat.le_trans ht hlen
  rw [kfifo_copy_out_byte hwf he ht2 dst f.out hd, queued_eq hwf hd]
  constructor
  · rw [← List.map_take, List.take_range, Nat.min_eq_left ht]
    unfold bytes_of
    apply List.map_congr_left
    intro i hi
    have hi := List.mem_range.mp hi
    show wcopy_out dst d _ t _ i = _
    rw [wcopy_out_byte_slot dst d hp hi ht2, Nat.mod_add_mod]
  · intro i hi
    exact wcopy_out_frame dst d _ _ _ hi

/-- The copy routine looks at the fifo only through `mask`, `esize` and `data`. -/
theorem copy_out_cursor_irrel (f : __kfifo) (i o : Nat) (dst : Mem) (t off : Nat) :
    (kfifo_copy_out (__kfifo.mk i o f.mask f.esize f.data) dst t off).2
      = (kfifo_copy_out f dst t off).2 := rfl

/-- The header at `out` decodes to `n` when the queued bytes start with `hdr w n`. -/
theorem peek_n_queued {f : __kfifo} {k : Nat} (hwf : WF f k) {d : Mem}
    (hd : f.data = some d) {w n : Nat} (hw : w = 1 ∨ w = 2) (hn : n ≤ 2 ^ (8 * w) - 1)
    {tl : List Nat} (hq : queued f = hdr w n ++ tl) : __kfifo_peek_n f w = n := by
  have hlen := queued_length hd
  rw [queued_eq hwf hd] at hq
  apply peek_n_header hwf hd hw hn
  · rcases hw with h | h <;> subst h
    · have h0 := congrArg (fun l => l[0]?) hq
      have hpos : 0 < sub32 f.in_ f.out := by
        rw [← hlen, queued_eq hwf hd, hq]; simp [hdr]
      simp only [List.getElem?_map, List.getElem?_range hpos, hdr] at h0
      simpa using h0
    · have h0 := congrArg (fun l => l[0]?) hq
      have hpos : 0 < sub32 f.in_ f.out := by
        rw [← hlen, queued_eq hwf hd, hq]; simp [hdr]
      simp only [List.getElem?_map, List.getElem?_range hpos, hdr] at h0
      simpa using h0
  · intro h2
    subst h2
    have h0 := congrArg (fun l => l[1]?) hq
    have hpos : 1 < sub32 f.in_ f.out := by
      rw [← hlen, queued_eq hwf hd, hq]; simp [hdr]
    simp only [List.getElem?_map, List.getElem?_range hpos, hdr] at h0
    simpa using h0

theorem frame_length {w : Nat} (hw : w = 1 ∨ w = 2) (r : List Nat) :
    (frame w r).length = r.length + w := by
  unfold frame
  rw [List.length_append, hdr_length hw, Nat.add_comm]

theorem take_min_length (r : List Nat) (m : Nat) : r.take (min m r.length) = r.take m := by
  rcases Nat.le_total m r.length with h | h
  · rw [Nat.min_eq_left h]
  · rw [Nat.min_eq_right h, List.take_of_length_le h, List.take_of_length_le (Nat.le_refl _)]

/-- Advancing `out` inside a well-formed byte fifo keeps it one. -/
theorem byteFifo_adv {g : __kfifo} {k : Nat} (hb : ByteFifo g k) {m : Nat}
    (hm : m ≤ sub32 g.in_ g.out) : ByteFifo (adv_out g m) k := by
  obtain ⟨⟨hk1, hk2, hmk, hin, hout, hes⟩, he, hd, hlen⟩ := hb
  refine ⟨⟨hk1, hk2, hmk, hin, add32_lt _ _, hes⟩, he, hd, ?_⟩
  show sub32 g.in_ (add32 g.out m) ≤ g.mask + 1
  rw [sub32_add32_out hin hout hm]
  omega

/-- The oldest record of a byte fifo, read by the record functions. The queued bytes are
`frame w r ++ rest` with `r` of a length the header can hold. Then the fifo is not
empty, the header decodes to the length of `r`, `__kfifo_out_r` returns
`min max (length r)`, hands out the first bytes of `r`, leaves other bytes of `dst`
alone, advances `out` by `length r + w`, and leaves `rest` queued. -/
theorem out_r_rec {g : __kfifo} {k : Nat} (hb : ByteFifo g k) {w : Nat}
    (hw : w = 1 ∨ w = 2) {r rest : List Nat} (hr : r.length ≤ 2 ^ (8 * w) - 1)
    (hq : queued g = frame w r ++ rest) (dst : Mem) (max : Nat) :
    g.in_ ≠ g.out ∧ __kfifo_peek_n g w = r.length ∧
    (__kfifo_out_r g dst max w).1 = adv_out g (r.length + w) ∧
    (__kfifo_out_r g dst max w).2.2 = min max r.length ∧
    (__kfifo_out_r g dst max w).2.1
      = (kfifo_copy_out g dst (min max r.length) (add32 g.out w)).2 ∧
    bytes_of (__kfifo_out_r g dst max w).2.1 (min max r.length) = r.take max ∧
    (∀ i, min max r.length ≤ i → (__kfifo_out_r g dst max w).2.1 i = dst i) ∧
    queued (adv_out g (r.length + w)) = rest ∧
    ByteFifo (adv_out g (r.length + w)) k := by
  obtain ⟨hwf, he, hd, hlen⟩ := hb
  have hb : ByteFifo g k := ⟨hwf, he, hd, hlen⟩
  obtain ⟨d, hd⟩ := Option.isSome_iff_exists.mp hd
  obtain ⟨hk1, hk2, hmk, hin, hout, hes⟩ := hwf
  have hwf : WF g k := ⟨hk1, hk2, hmk, hin, hout, hes⟩
  have hcap : g.mask + 1 ≤ 2 ^ 31 := hmk ▸ pow_le_31 hk2
  have hql := queued_length hd
  rw [hq, List.length_append, frame_length hw] at hql
  have hne : g.in_ ≠ g.out := by
    intro h
    have : sub32 g.in_ g.out = 0 := by
      rw [h]; exact (sub32_of_le (Nat.le_refl _) hout).trans (Nat.sub_self _)
    omega
  have hq2 : queued g = hdr w r.length ++ (r ++ rest) := by
    rw [hq, frame, List.append_assoc]
  have hn := peek_n_queued hwf hd hw hr hq2
  have h64a : add64 r.length w = r.length + w := add64_small (by omega)
  have h64b : add64 g.out (r.length + w) % 2 ^ 32 = add32 g.out (r.length + w) := by
    rw [add64_small (by omega)]; rfl
  have h64c : add64 g.out w % 2 ^ 32 = add32 g.out w := by
    rw [add64_small (by omega)]; rfl
  have hout_eq := kfifo_out_r_eq g hne dst max w
  rw [hn, h64a, h64b, h64c] at hout_eq
  -- the fifo seen from behind the header
  have hb1 : ByteFifo (adv_out g w) k := byteFifo_adv hb (by omega)
  have hq1 : queued (adv_out g w) = r ++ rest := by
    show queued (__kfifo.mk g.in_ (add32 g.out w) g.mask g.esize g.data) = _
    rw [queued_adv hwf hd (by omega), hq2, List.drop_left' (hdr_length hw _)]
  have hl1 : sub32 (adv_out g w).in_ (adv_out g w).out = r.length + rest.length := by
    rw [← queued_length (f := adv_out g w) hd, hq1, List.length_append]
  have hcopy := copy_out_queued hb1.1 hb1.2.1 (f := adv_out g w) hd
    (t := min max r.length) (by rw [hl1]; omega) hb1.2.2.2 dst
  have hirrel : (kfifo_copy_out (adv_out g w) dst (min max r.length) (adv_out g w).out).2
      = (kfifo_copy_out g dst (min max r.length) (add32 g.out w)).2 := rfl
  rw [hirrel] at hcopy
  rw [hout_eq]
  refine ⟨hne, hn, rfl, rfl, rfl, ?_, hcopy.2, ?_, byteFifo_adv hb (by omega)⟩
  · show bytes_of (kfifo_copy_out g dst (min max r.length) (add32 g.out w)).2
      (min max r.length) = _
    rw [hcopy.1, hq1, List.take_append_of_le_length (by omega), take_min_length]
  · show queued (__kfifo.mk g.in_ (add32 g.out (r.length + w)) g.mask g.esize g.data) = _
    rw [queued_adv hwf hd (by omega), hq, List.drop_left' (frame_length hw r)]

/-- Under the hypotheses of `out_r_rec`, `__kfifo_skip_r` advances `out` past the oldest
record and changes nothing else. -/
theorem skip_r_rec {g : __kfifo} {k : Nat} (hb : ByteFifo g k) {w : Nat}
    (hw : w = 1 ∨ w = 2) {r rest : List Nat} (hr : r.length ≤ 2 ^ (8 * w) - 1)
    (hq : queued g = frame w r ++ rest) :
    __kfifo_skip_r g w = adv_out g (r.length + w) := by
  obtain ⟨_, hn, _⟩ := out_r_rec hb hw hr hq (fun _ => 0) 0
  have hout := hb.1.2.2.2.2.1
  have hrl : r.length < 2 ^ 32 := by
    rcases hw with h | h <;> subst h <;> omega
  have h64a : add64 r.length w = r.length + w := add64_small (by omega)
  have h64b : add64 g.out (r.length + w) % 2 ^ 32 = add32 g.out (r.length + w) := by
    rw [add64_small (by omega)]; rfl
  show __kfifo.mk g.in_ (add64 g.out (add64 (__kfifo_peek_n g w) w) % 2 ^ 32) g.mask g.esize
    g.data = _
  rw [hn, h64a, h64b]
  rfl

/-- The record peek and the record dequeue agree on the returned count and on the
object `dst`, on every state, and the peek returns the structure it was given. -/
theorem out_peek_r_eq (g : __kfifo) (dst : Mem) (max w : Nat) :
    (__kfifo_out_peek_r g dst max w).1 = g ∧
    (__kfifo_out_peek_r g dst max w).2.1 = (__kfifo_out_r g dst max w).2.1 ∧
    (__kfifo_out_peek_r g dst max w).2.2 = (__kfifo_out_r g dst max w).2.2 := by
  unfold __kfifo_out_peek_r __kfifo_out_r
  by_cases h : g.in_ = g.out
  · rw [if_pos h, if_pos h]
    exact ⟨rfl, rfl, rfl⟩
  · rw [if_neg h, if_neg h]
    exact ⟨rfl, rfl, rfl⟩

/-- On an empty fifo the record dequeue and the record peek return 0 and change
neither the structure nor `dst`. -/
theorem out_r_empty (g : __kfifo) (h : g.in_ = g.out) (dst : Mem) (max w : Nat) :
    __kfifo_out_r g dst max w = (g, dst, 0) ∧
    __kfifo_out_peek_r g dst max w = (g, dst, 0) := by
  constructor
  · unfold __kfifo_out_r
    rw [if_pos h]
  · unfold __kfifo_out_peek_r
    rw [if_pos h]

theorem encode_append (w : Nat) (rs : List (List Nat)) (r : List Nat) :
    encode w (rs ++ [r]) = encode w rs ++ frame w r := by
  induction rs with
  | nil => simp [encode]
  | cons a rs ih => simp [encode, ih]

theorem encode_length {w : Nat} (hw : w = 1 ∨ w = 2) (rs : List (List Nat)) :
    (encode w rs).length = (rs.map fun r => r.length + w).sum := by
  induction rs with
  | nil => rfl
  | cons a rs ih =>
    simp only [encode, List.length_append, frame_length hw, ih, List.map_cons, List.sum_cons]

/-- An empty fifo holds no record, and a fifo that holds no record is empty. -/
theorem recRep_nil_iff {g : __kfifo} {k : Nat} (hb : ByteFifo g k) (w : Nat) :
    RecRep w g [] ↔ g.in_ = g.out := by
  obtain ⟨hwf, he, hd, hlen⟩ := hb
  obtain ⟨d, hd⟩ := Option.isSome_iff_exists.mp hd
  have hin := hwf.2.2.2.1
  have hout := hwf.2.2.2.2.1
  have hql := queued_length hd
  constructor
  · intro h
    have h0 : sub32 g.in_ g.out = 0 := by
      rw [← hql, h.1]; rfl
    unfold sub32 at h0
    have : g.out % 2 ^ 32 = g.out := Nat.mod_eq_of_lt hout
    rw [this] at h0
    omega
  · intro h
    have h0 : sub32 g.in_ g.out = 0 := by
      rw [h]; exact (sub32_of_le (Nat.le_refl _) hout).trans (Nat.sub_self _)
    refine ⟨?_, fun r hr => absurd hr (List.not_mem_nil r)⟩
    apply List.eq_nil_of_length_eq_zero
    rw [hql, h0]

/-- Record enqueue on the abstract record list: an accepted `__kfifo_in_r` of a length the
header can hold appends the record made of the first `L` bytes of `buf`. -/
theorem rep_in {g : __kfifo} {k : Nat} (hb : ByteFifo g k) {w : Nat} (hw : w = 1 ∨ w = 2)
    {rs : List (List Nat)} (hrep : RecRep w g rs) {L : Nat} (hL : L ≤ 2 ^ (8 * w) - 1)
    (hfit : L + w ≤ kfifo_unused g) (buf : Mem) :
    (__kfifo_in_r g buf L w).2 = L ∧
    ByteFifo (__kfifo_in_r g buf L w).1 k ∧
    RecRep w (__kfifo_in_r g buf L w).1 (rs ++ [bytes_of buf L]) ∧
    (__kfifo_in_r g buf L w).1.in_ = add32 g.in_ (L + w) ∧
    (__kfifo_in_r g buf L w).1.out = g.out ∧
    (__kfifo_in_r g buf L w).1.mask = g.mask := by
  obtain ⟨hwf, he, hd, hlen⟩ := hb
  obtain ⟨d, hd⟩ := Option.isSome_iff_exists.mp hd
  have hL32 : L < 2 ^ 32 := by
    rcases hw with h | h <;> subst h <;> omega
  have hq := in_r_queued hwf he hd hlen hw hL32 hfit buf
  obtain ⟨d2, hd2, _⟩ := in_r_data hwf he hd hlen hw hL32 hfit buf
  obtain ⟨hret, hgi, hgo, hgm, hge⟩ := in_r_fields hwf.2.2.2.1 hw hL32 hfit buf
  have hu := kfifo_unused_eq hwf hlen
  obtain ⟨hk1, hk2, hmk, hin, hout, hes⟩ := hwf
  have hcap : g.mask + 1 ≤ 2 ^ 31 := hmk ▸ pow_le_31 hk2
  refine ⟨hret, ⟨⟨hk1, hk2, hgm ▸ hmk, hgi ▸ add32_lt _ _, hgo ▸ hout, hge ▸ hes⟩,
    hge ▸ he, by rw [hd2]; rfl, ?_⟩, ⟨?_, ?_⟩, hgi, hgo, hgm⟩
  · rw [hgi, hgo, hgm, sub32_add32_in hin hout (by omega)]
    omega
  · rw [hq, hrep.1, encode_append, frame, bytes_of_length]
  · intro r hr
    rcases List.mem_append.mp hr with h | h
    · exact hrep.2 r h
    · rw [List.mem_singleton.mp h, bytes_of_length]; exact hL

/-- C11. Truncated record read consumes the whole record. On a well-formed byte fifo
whose queued bytes start with the record `r` (header of width `w`, then payload, with
`length r` in the range of the header), for every `max`: the fifo is not empty,
`__kfifo_out_r` returns `min max (length r)`, hands out exactly the first
`min max (length r)` bytes of `r` and leaves the other bytes of `dst` alone, advances
`out` by `length r + w` and not by the copied length, changes nothing else, and leaves
exactly the bytes after the record queued. So when a record `r2` follows, its header is
at `out`, and the next dequeue with room for it returns `r2` whole. -/
theorem C11_truncated_read (g : __kfifo) (k : Nat) (hb : ByteFifo g k) (w : Nat)
    (hw : w = 1 ∨ w = 2) (r rest : List Nat) (hr : r.length ≤ 2 ^ (8 * w) - 1)
    (hq : queued g = frame w r ++ rest) (dst : Mem) (max : Nat) :
    g.in_ ≠ g.out ∧
    (__kfifo_out_r g dst max w).2.2 = min max r.length ∧
    bytes_of (__kfifo_out_r g dst max w).2.1 (min max r.length) = r.take max ∧
    (∀ i, min max r.length ≤ i → (__kfifo_out_r g dst max w).2.1 i = dst i) ∧
    (__kfifo_out_r g dst max w).1 = adv_out g (r.length + w) ∧
    (__kfifo_out_r g dst max w).1.out = add32 g.out (r.length + w) ∧
    queued (__kfifo_out_r g dst max w).1 = rest ∧
    (∀ (r2 rest2 : List Nat) (dst2 : Mem) (max2 : Nat), rest = frame w r2 ++ rest2 →
      r2.length ≤ 2 ^ (8 * w) - 1 → r2.length ≤ max2 →
      __kfifo_peek_n (__kfifo_out_r g dst max w).1 w = r2.length ∧
      (__kfifo_out_r (__kfifo_out_r g dst max w).1 dst2 max2 w).2.2 = r2.length ∧
      bytes_of (__kfifo_out_r (__kfifo_out_r g dst max w).1 dst2 max2 w).2.1 r2.length
        = r2) := by
  obtain ⟨h1, _, h3, h4, _, h6, h7, h8, h9⟩ := out_r_rec hb hw hr hq dst max
  rw [h3]
  refine ⟨h1, h4, h6, h7, rfl, rfl, h8, ?_⟩
  intro r2 rest2 dst2 max2 hrest hr2 hmax2
  obtain ⟨_, e2, _, e4, _, e6, _⟩ := out_r_rec h9 hw hr2 (h8.trans hrest) dst2 max2
  have hmin : min max2 r2.length = r2.length := Nat.min_eq_right hmax2
  rw [hmin] at e4 e6
  rw [e6, List.take_of_length_le hmax2]
  exact ⟨e2, e4, rfl⟩

/-- C11 at a concrete input: capacity 8, records `[65, 66, 67]` and `[90]` with a 1-byte
header, the first wrapping at the storage end; the first is read with `max = 2`. -/
theorem C11_truncated_read_witness :
    ByteFifo two_rec_fifo 3 ∧ (1 = 1 ∨ 1 = 2) ∧ [65, 66, 67].length ≤ 2 ^ (8 * 1) - 1 ∧
    queued two_rec_fifo = frame 1 [65, 66, 67] ++ [1, 90] ∧
    (two_rec_fifo.in_ ≠ two_rec_fifo.out ∧
    (__kfifo_out_r two_rec_fifo (fun _ => 0) 2 1).2.2 = min 2 [65, 66, 67].length ∧
    bytes_of (__kfifo_out_r two_rec_fifo (fun _ => 0) 2 1).2.1 (min 2 [65, 66, 67].length)
      = [65, 66, 67].take 2 ∧
    (∀ i, min 2 [65, 66, 67].length ≤ i →
      (__kfifo_out_r two_rec_fifo (fun _ => 0) 2 1).2.1 i = (fun _ => 0) i) ∧
    (__kfifo_out_r two_rec_fifo (fun _ => 0) 2 1).1
      = adv_out two_rec_fifo ([65, 66, 67].length + 1) ∧
    (__kfifo_out_r two_rec_fifo (fun _ => 0) 2 1).1.out
      = add32 two_rec_fifo.out ([65, 66, 67].length + 1) ∧
    queued (__kfifo_out_r two_rec_fifo (fun _ => 0) 2 1).1 = [1, 90] ∧
    (∀ (r2 rest2 : List Nat) (dst2 : Mem) (max2 : Nat), [1, 90] = frame 1 r2 ++ rest2 →
      r2.length ≤ 2 ^ (8 * 1) - 1 → r2.length ≤ max2 →
      __kfifo_peek_n (__kfifo_out_r two_rec_fifo (fun _ => 0) 2 1).1 1 = r2.length ∧
      (__kfifo_out_r (__kfifo_out_r two_rec_fifo (fun _ => 0) 2 1).1 dst2 max2 1).2.2
        = r2.length ∧
      bytes_of (__kfifo_out_r (__kfifo_out_r two_rec_fifo (fun _ => 0) 2 1).1 dst2 max2
        1).2.1 r2.length = r2)) :=
  ⟨by decide, Or.inl rfl, by decide, by decide,
    C11_truncated_read two_rec_fifo 3 (by decide) 1 (Or.inl rfl) [65, 66, 67] [1, 90]
      (by decide) (by decide) (fun _ => 0) 2⟩

/-- The scenario of C11 run on the code: the first record is read with `max = 2` and
comes out truncated to `[65, 66]`, the next dequeue returns the record `[90]` whole, and
the fifo is then empty. -/
theorem truncated_read_example :
    (__kfifo_out_r two_rec_fifo (fun _ => 0) 2 1).2.2 = 2 ∧
    bytes_of (__kfifo_out_r two_rec_fifo (fun _ => 0) 2 1).2.1 2 = [65, 66] ∧
    (__kfifo_out_r two_rec_fifo (fun _ => 0) 2 1).1.out = 10 ∧
    (__kfifo_out_r (__kfifo_out_r two_rec_fifo (fun _ => 0) 2 1).1 (fun _ => 0) 9 1).2.2 = 1 ∧
    bytes_of (__kfifo_out_r (__kfifo_out_r two_rec_fifo (fun _ => 0) 2 1).1 (fun _ => 0) 9
      1).2.1 1 = [90] ∧
    (__kfifo_out_r (__kfifo_out_r two_rec_fifo (fun _ => 0) 2 1).1 (fun _ => 0) 9 1).1.out
      = (__kfifo_out_r (__kfifo_out_r two_rec_fifo (fun _ => 0) 2 1).1 (fun _ => 0) 9
        1).1.in_ := by
  decide

/-- C16. Record peek does not consume. On a well-formed byte fifo whose queued bytes start
with the record `r`, for every `max`, `__kfifo_out_peek_r` returns
`min max (length r)`, hands out the first bytes of `r`, the same object `dst` and count
as `__kfifo_out_r` on that state, and returns the structure unchanged (`in`, `out`,
storage), so that a following `__kfifo_out_r` behaves as on the original state and
returns the same record. -/
theorem C16_peek_r (g : __kfifo) (k : Nat) (hb : ByteFifo g k) (w : Nat)
    (hw : w = 1 ∨ w = 2) (r rest : List Nat) (hr : r.length ≤ 2 ^ (8 * w) - 1)
    (hq : queued g = frame w r ++ rest) (dst : Mem) (max : Nat) :
    (__kfifo_out_peek_r g dst max w).2.2 = min max r.length ∧
    bytes_of (__kfifo_out_peek_r g dst max w).2.1 (min max r.length) = r.take max ∧
    (__kfifo_out_peek_r g dst max w).2.1 = (__kfifo_out_r g dst max w).2.1 ∧
    (__kfifo_out_peek_r g dst max w).2.2 = (__kfifo_out_r g dst max w).2.2 ∧
    (__kfifo_out_peek_r g dst max w).1 = g ∧
    __kfifo_out_r (__kfifo_out_peek_r g dst max w).1 dst max w = __kfifo_out_r g dst max w ∧
    bytes_of (__kfifo_out_r (__kfifo_out_peek_r g dst max w).1 dst max w).2.1
      (min max r.length) = r.take max := by
  obtain ⟨_, _, _, h4, _, h6, _⟩ := out_r_rec hb hw hr hq dst max
  obtain ⟨p1, p2, p3⟩ := out_peek_r_eq g dst max w
  rw [p1, p2, p3]
  exact ⟨h4, h6, rfl, rfl, rfl, rfl, h6⟩

/-- C16 at a concrete input: the two-record fifo, peeked with `max = 9`. -/
theorem C16_peek_r_witness :
    ByteFifo two_rec_fifo 3 ∧ (1 = 1 ∨ 1 = 2) ∧ [65, 66, 67].length ≤ 2 ^ (8 * 1) - 1 ∧
    queued two_rec_fifo = frame 1 [65, 66, 67] ++ [1, 90] ∧
    ((__kfifo_out_peek_r two_rec_fifo (fun _ => 0) 9 1).2.2 = min 9 [65, 66, 67].length ∧
    bytes_of (__kfifo_out_peek_r two_rec_fifo (fun _ => 0) 9 1).2.1
      (min 9 [65, 66, 67].length) = [65, 66, 67].take 9 ∧
    (__kfifo_out_peek_r two_rec_fifo (fun _ => 0) 9 1).2.1
      = (__kfifo_out_r two_rec_fifo (fun _ => 0) 9 1).2.1 ∧
    (__kfifo_out_peek_r two_rec_fifo (fun _ => 0) 9 1).2.2
      = (__kfifo_out_r two_rec_fifo (fun _ => 0) 9 1).2.2 ∧
    (__kfifo_out_peek_r two_rec_fifo (fun _ => 0) 9 1).1 = two_rec_fifo ∧
    __kfifo_out_r (__kfifo_out_peek_r two_rec_fifo (fun _ => 0) 9 1).1 (fun _ => 0) 9 1
      = __kfifo_out_r two_rec_fifo (fun _ => 0) 9 1 ∧
    bytes_of (__kfifo_out_r (__kfifo_out_peek_r two_rec_fifo (fun _ => 0) 9 1).1
      (fun _ => 0) 9 1).2.1 (min 9 [65, 66, 67].length) = [65, 66, 67].take 9) :=
  ⟨by decide, Or.inl rfl, by decide, by decide,
    C16_peek_r two_rec_fifo 3 (by decide) 1 (Or.inl rfl) [65, 66, 67] [1, 90]
      (by decide) (by decide) (fun _ => 0) 9⟩

/-- C17. Header encode and decode across the wrap. After an accepted `__kfifo_in_r` of a
record of length `L ≤ 2 ^ (8 w) - 1` into a well-formed empty byte fifo, `__kfifo_len_r`
returns exactly `L` and the structure unchanged; the storage holds the low byte `L % 256`
at slot `in & mask` and, for `w = 2`, the high byte `L / 256` at slot `(in + 1) & mask`,
whatever the slot of `in`. -/
theorem C17_header (f : __kfifo) (k : Nat) (hb : ByteFifo f k) (hempty : f.in_ = f.out)
    (w : Nat) (hw : w = 1 ∨ w = 2) (L : Nat) (hL : L ≤ 2 ^ (8 * w) - 1)
    (hcap : L + w ≤ f.mask + 1) (buf : Mem) :
    (__kfifo_in_r f buf L w).2 = L ∧
    __kfifo_len_r (__kfifo_in_r f buf L w).1 w = ((__kfifo_in_r f buf L w).1, L) ∧
    ∃ d2, (__kfifo_in_r f buf L w).1.data = some d2 ∧
      d2 (f.in_ &&& f.mask) = L % 256 ∧
      (w = 1 → d2 (f.in_ &&& f.mask) = L) ∧
      (w = 2 → d2 (add32 f.in_ 1 &&& f.mask) = L / 256 ∧
        L = d2 (f.in_ &&& f.mask) + 256 * d2 (add32 f.in_ 1 &&& f.mask)) := by
  obtain ⟨hwf, he, hd, hlen⟩ := hb
  have hb : ByteFifo f k := ⟨hwf, he, hd, hlen⟩
  obtain ⟨d, hd⟩ := Option.isSome_iff_exists.mp hd
  have hout := hwf.2.2.2.2.1
  have hmk := hwf.2.2.1
  have hdvd := cap_dvd hmk hwf.2.1
  have hl0 : sub32 f.in_ f.out = 0 := by
    rw [hempty]; exact (sub32_of_le (Nat.le_refl _) hout).trans (Nat.sub_self _)
  have hu := kfifo_unused_eq hwf hlen
  have hL32 : L < 2 ^ 32 := by
    rcases hw with h | h <;> subst h <;> omega
  have hfit : L + w ≤ kfifo_unused f := by omega
  have hrep0 : RecRep w f [] := (recRep_nil_iff hb w).mpr hempty
  obtain ⟨hret, hbg, hrepg, _⟩ := rep_in hb hw hrep0 hL hfit buf
  obtain ⟨d2, hd2, e0, e1, _, _⟩ := in_r_data hwf he hd hlen hw hL32 hfit buf
  have hq : queued (__kfifo_in_r f buf L w).1 = frame w (bytes_of buf L) ++ [] := by
    rw [hrepg.1]; rfl
  have hn := (out_r_rec hbg hw (by rw [bytes_of_length]; exact hL) hq (fun _ => 0) 0).2.1
  rw [bytes_of_length] at hn
  refine ⟨hret, ?_, d2, hd2, ?_, ?_, ?_⟩
  · unfold __kfifo_len_r
    rw [hn]
  · rw [and_mask hmk]; exact e0
  · intro h1
    subst h1
    rw [and_mask hmk, e0]
    exact Nat.mod_eq_of_lt (by omega)
  · intro h2
    subst h2
    have hL2 : L ≤ 65535 := hL
    have e1 := e1 rfl
    rw [Nat.shiftRight_eq_div_pow] at e1
    have hhi : L / 2 ^ 8 % 256 = L / 256 := by
      have : L / 2 ^ 8 = L / 256 := rfl
      rw [this]; exact Nat.mod_eq_of_lt (by omega)
    rw [and_mask hmk, and_mask hmk, add32_mod hdvd, e0, e1, hhi]
    exact ⟨rfl, by omega⟩

/-- C17 at a concrete input: capacity 8 with `in & mask = 7 = capacity - 1`, a 2-byte
header and `L = 5`: the two header bytes straddle the storage end. -/
theorem C17_header_witness :
    ByteFifo rec_fifo 3 ∧ rec_fifo.in_ = rec_fifo.out ∧ (2 = 1 ∨ 2 = 2) ∧
    5 ≤ 2 ^ (8 * 2) - 1 ∧ 5 + 2 ≤ rec_fifo.mask + 1 ∧
    rec_fifo.in_ &&& rec_fifo.mask = 7 ∧ add32 rec_fifo.in_ 1 &&& rec_fifo.mask = 0 ∧
    ((__kfifo_in_r rec_fifo (fun a => a + 65) 5 2).2 = 5 ∧
    __kfifo_len_r (__kfifo_in_r rec_fifo (fun a => a + 65) 5 2).1 2
      = ((__kfifo_in_r rec_fifo (fun a => a + 65) 5 2).1, 5) ∧
    ∃ d2, (__kfifo_in_r rec_fifo (fun a => a + 65) 5 2).1.data = some d2 ∧
      d2 (rec_fifo.in_ &&& rec_fifo.mask) = 5 % 256 ∧
      (2 = 1 → d2 (rec_fifo.in_ &&& rec_fifo.mask) = 5) ∧
      (2 = 2 → d2 (add32 rec_fifo.in_ 1 &&& rec_fifo.mask) = 5 / 256 ∧
        5 = d2 (rec_fifo.in_ &&& rec_fifo.mask)
          + 256 * d2 (add32 rec_fifo.in_ 1 &&& rec_fifo.mask))) :=
  ⟨by decide, rfl, Or.inr rfl, by decide, by decide, by decide, by decide,
    C17_header rec_fifo 3 (by decide) rfl 2 (Or.inr rfl) 5 (by decide) (by decide)
      (fun a => a + 65)⟩

/-- The length read by `__kfifo_peek_n` is at most two bytes wide. -/
theorem peek_n_lt (g : __kfifo) (w : Nat) : __kfifo_peek_n g w < 65536 := by
  unfold __kfifo_peek_n
  cases g.data with
  | none =>
    show 0 < 65536
    decide
  | some d =>
    simp only [__KFIFO_PEEK]
    have h1 : d (g.out &&& g.mask) % 256 < 2 ^ 16 :=
      Nat.lt_of_lt_of_le (Nat.mod_lt _ (by decide)) (by decide)
    have h2 : (d (add32 g.out 1 &&& g.mask) % 256) <<< 8 < 2 ^ 16 := by
      rw [Nat.shiftLeft_eq]
      have := Nat.mod_lt (d (add32 g.out 1 &&& g.mask)) (by decide : 0 < 256)
      omega
    split
    · exact Nat.or_lt_two_pow h1 h2
    · exact h1

/-- C13 (amended). Record reads on an empty fifo (`in = out`), header width 1 or 2.
`__kfifo_out_peek_r` and `__kfifo_out_r` return 0 and leave the structure and `dst`
unchanged. `__kfifo_len_r` leaves the structure unchanged and returns the length decoded
from the bytes at slot `out` (for width 1 the byte `data[out & mask]`), whatever they
are. `__kfifo_skip_r` leaves `in`, `mask`, `esize` and the storage unchanged and advances
`out` by that decoded length plus the header width, so `out` always changes. -/
theorem C13_empty_reads (g : __kfifo) (hempty : g.in_ = g.out) (hout : g.out < 2 ^ 32)
    (w : Nat) (hw : w = 1 ∨ w = 2) (dst : Mem) (max : Nat) :
    __kfifo_out_peek_r g dst max w = (g, dst, 0) ∧
    __kfifo_out_r g dst max w = (g, dst, 0) ∧
    __kfifo_len_r g w = (g, __kfifo_peek_n g w) ∧
    (∀ d, g.data = some d → __kfifo_peek_n g 1 = d (g.out &&& g.mask) % 256) ∧
    (__kfifo_skip_r g w).in_ = g.in_ ∧
    (__kfifo_skip_r g w).mask = g.mask ∧
    (__kfifo_skip_r g w).esize = g.esize ∧
    (__kfifo_skip_r g w).data = g.data ∧
    (__kfifo_skip_r g w).out = add32 g.out (__kfifo_peek_n g w + w) ∧
    (__kfifo_skip_r g w).out ≠ g.out := by
  obtain ⟨h1, h2⟩ := out_r_empty g hempty dst max w
  have hlt := peek_n_lt g w
  have hskip : (__kfifo_skip_r g w).out = add32 g.out (__kfifo_peek_n g w + w) := by
    show add64 g.out (add64 (__kfifo_peek_n g w) w) % 2 ^ 32 = _
    rw [add64_small (a := __kfifo_peek_n g w) (by omega), add64_small (by omega)]
    rfl
  refine ⟨h2, h1, rfl, ?_, rfl, rfl, rfl, rfl, hskip, ?_⟩
  · intro d hd
    rw [peek_n_eq g hd]
    have : sub64 1 1 = 0 := by decide
    rw [this, if_neg (by decide)]
  · rw [hskip]
    unfold add32
    omega

/-- C13 at a concrete input: the empty fifo `stale_fifo`. -/
theorem C13_empty_reads_witness :
    stale_fifo.in_ = stale_fifo.out ∧ stale_fifo.out < 2 ^ 32 ∧ (1 = 1 ∨ 1 = 2) ∧
    (__kfifo_out_peek_r stale_fifo (fun _ => 0) 9 1 = (stale_fifo, (fun _ => 0), 0) ∧
    __kfifo_out_r stale_fifo (fun _ => 0) 9 1 = (stale_fifo, (fun _ => 0), 0) ∧
    __kfifo_len_r stale_fifo 1 = (stale_fifo, __kfifo_peek_n stale_fifo 1) ∧
    (∀ d, stale_fifo.data = some d →
      __kfifo_peek_n stale_fifo 1 = d (stale_fifo.out &&& stale_fifo.mask) % 256) ∧
    (__kfifo_skip_r stale_fifo 1).in_ = stale_fifo.in_ ∧
    (__kfifo_skip_r stale_fifo 1).mask = stale_fifo.mask ∧
    (__kfifo_skip_r stale_fifo 1).esize = stale_fifo.esize ∧
    (__kfifo_skip_r stale_fifo 1).data = stale_fifo.data ∧
    (__kfifo_skip_r stale_fifo 1).out
      = add32 stale_fifo.out (__kfifo_peek_n stale_fifo 1 + 1) ∧
    (__kfifo_skip_r stale_fifo 1).out ≠ stale_fifo.out) :=
  ⟨by decide, by decide, Or.inl rfl,
    C13_empty_reads stale_fifo (by decide) (by decide) 1 (Or.inl rfl) (fun _ => 0) 9⟩

/-- C13 as stated fails on the empty fifo `stale_fifo` (both cursors 10): 
`__kfifo_len_r` returns 66, the stale byte at slot 2, instead of 0, and `__kfifo_skip_r`
moves `out` from 10 to 77, past `in`, instead of changing nothing. -/
theorem C13_counterexample :
    stale_fifo.in_ = 10 ∧ stale_fifo.out = 10 ∧
    (__kfifo_len_r stale_fifo 1).2 = 66 ∧
    ¬ (__kfifo_len_r stale_fifo 1).2 = 0 ∧
    (__kfifo_skip_r stale_fifo 1).out = 77 ∧
    ¬ (__kfifo_skip_r stale_fifo 1).out = stale_fifo.out := by
  decide

/-- The header bytes only depend on the length modulo `2 ^ (8 w)`. -/
theorem hdr_mod {w : Nat} (hw : w = 1 ∨ w = 2) (len : Nat) :
    hdr w len = hdr w (len % 2 ^ (8 * w)) := by
  rcases hw with h | h <;> subst h
  · show [len % 256] = [len % 256 % 256]
    rw [Nat.mod_mod]
  · show [len % 256, (len >>> 8) % 256] = [len % 65536 % 256, ((len % 65536) >>> 8) % 256]
    rw [Nat.shiftRight_eq_div_pow, Nat.shiftRight_eq_div_pow]
    have e1 : len % 65536 % 256 = len % 256 := by omega
    have e2 : len % 65536 / 2 ^ 8 % 256 = len / 2 ^ 8 % 256 := by
      have : (2 : Nat) ^ 8 = 256 := rfl
      rw [this]; omega
    rw [e1, e2]

/-- An accepted `__kfifo_in_r` keeps a well-formed byte fifo one, for every length. -/
theorem in_r_byteFifo {f : __kfifo} {k : Nat} (hb : ByteFifo f k) {len w : Nat}
    (hw : w = 1 ∨ w = 2) (hl : len < 2 ^ 32) (hfit : len + w ≤ kfifo_unused f) (buf : Mem) :
    ByteFifo (__kfifo_in_r f buf len w).1 k := by
  obtain ⟨hwf, he, hd, hlen⟩ := hb
  obtain ⟨d, hd⟩ := Option.isSome_iff_exists.mp hd
  obtain ⟨d2, hd2, _⟩ := in_r_data hwf he hd hlen hw hl hfit buf
  obtain ⟨hret, hgi, hgo, hgm, hge⟩ := in_r_fields hwf.2.2.2.1 hw hl hfit buf
  have hu := kfifo_unused_eq hwf hlen
  obtain ⟨hk1, hk2, hmk, hin, hout, hes⟩ := hwf
  have hcap : f.mask + 1 ≤ 2 ^ 31 := hmk ▸ pow_le_31 hk2
  refine ⟨⟨hk1, hk2, hgm ▸ hmk, hgi ▸ add32_lt _ _, hgo ▸ hout, hge ▸ hes⟩,
    hge ▸ he, by rw [hd2]; rfl, ?_⟩
  rw [hgi, hgo, hgm, sub32_add32_in hin hout (by omega)]
  omega

theorem add32_inj {o a b : Nat} (ha : a < 2 ^ 32) (hb : b < 2 ^ 32)
    (h : add32 o a = add32 o b) : a = b := by
  unfold add32 at h
  omega

/-- C14 (amended). Over-long records are neither rejected nor clamped by `__kfifo_in_r`.
On a well-formed byte fifo with `len + w` bytes free, for every 32-bit `len` (also above
`2 ^ (8 w) - 1`), the call returns `len`, advances `in` by `len + w` and appends the
header followed by all `len` payload bytes; the header it stores is that of
`len mod 2 ^ (8 w)`. So on a fifo that was empty, `__kfifo_len_r` then returns
`len mod 2 ^ (8 w)`, the following `__kfifo_out_r` advances `out` by that value plus
`w`, and the fifo is empty afterwards exactly when `len ≤ 2 ^ (8 w) - 1`: the header
equals the number of payload bytes only for lengths in the range of the header. -/
theorem C14_overlong (f : __kfifo) (k : Nat) (hb : ByteFifo f k) (w : Nat)
    (hw : w = 1 ∨ w = 2) (len : Nat) (hl : len < 2 ^ 32) (hfit : len + w ≤ kfifo_unused f)
    (buf dst : Mem) (max : Nat) :
    (__kfifo_in_r f buf len w).2 = len ∧
    (__kfifo_in_r f buf len w).1.in_ = add32 f.in_ (len + w) ∧
    (__kfifo_in_r f buf len w).1.out = f.out ∧
    queued (__kfifo_in_r f buf len w).1
      = queued f ++ (hdr w (len % 2 ^ (8 * w)) ++ bytes_of buf len) ∧
    (len ≤ 2 ^ (8 * w) - 1 → len % 2 ^ (8 * w) = len) ∧
    (f.in_ = f.out →
      (__kfifo_len_r (__kfifo_in_r f buf len w).1 w).2 = len % 2 ^ (8 * w) ∧
      (__kfifo_out_r (__kfifo_in_r f buf len w).1 dst max w).2.2
        = min max (len % 2 ^ (8 * w)) ∧
      (__kfifo_out_r (__kfifo_in_r f buf len w).1 dst max w).1.out
        = add32 f.out (len % 2 ^ (8 * w) + w) ∧
      ((__kfifo_out_r (__kfifo_in_r f buf len w).1 dst max w).1.in_
          = (__kfifo_out_r (__kfifo_in_r f buf len w).1 dst max w).1.out
        ↔ len ≤ 2 ^ (8 * w) - 1)) := by
  have hbg := in_r_byteFifo hb hw hl hfit buf
  obtain ⟨hwf, he, hd, hlen⟩ := hb
  have hb : ByteFifo f k := ⟨hwf, he, hd, hlen⟩
  obtain ⟨d, hd⟩ := Option.isSome_iff_exists.mp hd
  have hq := in_r_queued hwf he hd hlen hw hl hfit buf
  obtain ⟨hret, hgi, hgo, hgm, hge⟩ := in_r_fields hwf.2.2.2.1 hw hl hfit buf
  have hu := kfifo_unused_eq hwf hlen
  have hin := hwf.2.2.2.1
  have hout := hwf.2.2.2.2.1
  have hcap : f.mask + 1 ≤ 2 ^ 31 := hwf.2.2.1 ▸ pow_le_31 hwf.2.1
  have hMpos : 0 < 2 ^ (8 * w) := Nat.two_pow_pos _
  have hmlt : len % 2 ^ (8 * w) < 2 ^ (8 * w) := Nat.mod_lt _ hMpos
  have hmle : len % 2 ^ (8 * w) ≤ len := Nat.mod_le _ _
  rw [hdr_mod hw len] at hq
  refine ⟨hret, hgi, hgo, hq, fun h => Nat.mod_eq_of_lt (by omega), ?_⟩
  intro hempty
  have hq0 : queued f = [] := ((recRep_nil_iff hb w).mpr hempty).1
  rw [hq0, List.nil_append] at hq
  have htk : ((bytes_of buf len).take (len % 2 ^ (8 * w))).length = len % 2 ^ (8 * w) := by
    rw [List.length_take, bytes_of_length]; omega
  have hq2 : queued (__kfifo_in_r f buf len w).1
      = frame w ((bytes_of buf len).take (len % 2 ^ (8 * w)))
        ++ (bytes_of buf len).drop (len % 2 ^ (8 * w)) := by
    rw [hq, frame, htk, List.append_assoc, List.take_append_drop]
  obtain ⟨_, e2, e3, e4, _⟩ := out_r_rec hbg hw (by rw [htk]; omega) hq2 dst max
  rw [htk] at e2 e3 e4
  refine ⟨e2, e4, ?_, ?_⟩
  · rw [e3]
    show add32 (__kfifo_in_r f buf len w).1.out _ = _
    rw [hgo]
  · rw [e3]
    show (__kfifo_in_r f buf len w).1.in_ = add32 (__kfifo_in_r f buf len w).1.out _ ↔ _
    rw [hgi, hgo, hempty]
    constructor
    · intro h
      have := add32_inj (by omega) (by omega) h
      omega
    · intro h
      rw [Nat.mod_eq_of_lt (by omega)]

/-- C14 at a concrete input: capacity 512, header width 1, `len = 256`. -/
theorem C14_overlong_witness :
    ByteFifo rec512_fifo 9 ∧ (1 = 1 ∨ 1 = 2) ∧ 256 < 2 ^ 32 ∧
    256 + 1 ≤ kfifo_unused rec512_fifo ∧
    ((__kfifo_in_r rec512_fifo (fun a => a + 1) 256 1).2 = 256 ∧
    (__kfifo_in_r rec512_fifo (fun a => a + 1) 256 1).1.in_
      = add32 rec512_fifo.in_ (256 + 1) ∧
    (__kfifo_in_r rec512_fifo (fun a => a + 1) 256 1).1.out = rec512_fifo.out ∧
    queued (__kfifo_in_r rec512_fifo (fun a => a + 1) 256 1).1
      = queued rec512_fifo ++ (hdr 1 (256 % 2 ^ (8 * 1)) ++ bytes_of (fun a => a + 1) 256) ∧
    (256 ≤ 2 ^ (8 * 1) - 1 → 256 % 2 ^ (8 * 1) = 256) ∧
    (rec512_fifo.in_ = rec512_fifo.out →
      (__kfifo_len_r (__kfifo_in_r rec512_fifo (fun a => a + 1) 256 1).1 1).2
        = 256 % 2 ^ (8 * 1) ∧
      (__kfifo_out_r (__kfifo_in_r rec512_fifo (fun a => a + 1) 256 1).1 (fun _ => 0) 300
        1).2.2 = min 300 (256 % 2 ^ (8 * 1)) ∧
      (__kfifo_out_r (__kfifo_in_r rec512_fifo (fun a => a + 1) 256 1).1 (fun _ => 0) 300
        1).1.out = add32 rec512_fifo.out (256 % 2 ^ (8 * 1) + 1) ∧
      ((__kfifo_out_r (__kfifo_in_r rec512_fifo (fun a => a + 1) 256 1).1 (fun _ => 0) 300
          1).1.in_
          = (__kfifo_out_r (__kfifo_in_r rec512_fifo (fun a => a + 1) 256 1).1 (fun _ => 0)
            300 1).1.out
        ↔ 256 ≤ 2 ^ (8 * 1) - 1))) :=
  ⟨by decide, Or.inl rfl, by decide, by decide,
    C14_overlong rec512_fifo 9 (by decide) 1 (Or.inl rfl) 256 (by decide) (by decide)
      (fun a => a + 1) (fun _ => 0) 300⟩

/-- C14 as stated fails on an empty byte fifo of capacity 512 with a 1-byte header and a
payload of 256 bytes: the request is not rejected (it returns 256, not 0) and not
clamped (`in` advances by 256 payload bytes plus the header), yet the stored header is
0, not 256; the following dequeue returns 0 and advances `out` by 1 only, leaving 256
bytes queued. -/
theorem C14_counterexample :
    256 + 1 ≤ kfifo_unused rec512_fifo ∧
    (__kfifo_in_r rec512_fifo (fun a => a + 1) 256 1).2 = 256 ∧
    (__kfifo_in_r rec512_fifo (fun a => a + 1) 256 1).1.in_ = 257 ∧
    (__kfifo_len_r (__kfifo_in_r rec512_fifo (fun a => a + 1) 256 1).1 1).2 = 0 ∧
    (__kfifo_out_r (__kfifo_in_r rec512_fifo (fun a => a + 1) 256 1).1 (fun _ => 0) 300
      1).2.2 = 0 ∧
    (__kfifo_out_r (__kfifo_in_r rec512_fifo (fun a => a + 1) 256 1).1 (fun _ => 0) 300
      1).1.out = 1 ∧
    sub32 (__kfifo_out_r (__kfifo_in_r rec512_fifo (fun a => a + 1) 256 1).1 (fun _ => 0)
      300 1).1.in_ (__kfifo_out_r (__kfifo_in_r rec512_fifo (fun a => a + 1) 256 1).1
      (fun _ => 0) 300 1).1.out = 256 := by
  decide

/-- The state left by `__kfifo_in` on a well-formed fifo within its length bound. -/
theorem in_state {f : __kfifo} {k : Nat} (hwf : WF f k)
    (hB : (f.mask + 1) * f.esize < 2 ^ 32) (hd : f.data.isSome = true)
    (hlen : sub32 f.in_ f.out ≤ f.mask + 1) (src : Mem) (count : Nat) :
    WF (__kfifo_in f src count).1 k ∧
    (__kfifo_in f src count).1.data.isSome = true ∧
    (__kfifo_in f src count).1.in_
      = add32 f.in_ (min count (f.mask + 1 - sub32 f.in_ f.out)) ∧
    (__kfifo_in f src count).1.out = f.out ∧
    (__kfifo_in f src count).1.mask = f.mask ∧
    (__kfifo_in f src count).1.esize = f.esize ∧
    sub32 (__kfifo_in f src count).1.in_ (__kfifo_in f src count).1.out
      = sub32 f.in_ f.out + min count (f.mask + 1 - sub32 f.in_ f.out) := by
  obtain ⟨d, hd⟩ := Option.isSome_iff_exists.mp hd
  have hu := kfifo_unused_eq hwf hlen
  obtain ⟨hgi, hgo, hgm, hge, hgd⟩ := kfifo_in_fields f src count
  rw [hu] at hgi hgd
  have hcin := kfifo_copy_in_data hwf hB
    (show min count (f.mask + 1 - sub32 f.in_ f.out) ≤ f.mask + 1 by omega) src f.in_
  rw [hd] at hcin
  obtain ⟨hk1, hk2, hmk, hin, hout, hes⟩ := hwf
  have hcap : f.mask + 1 ≤ 2 ^ 31 := hmk ▸ pow_le_31 hk2
  refine ⟨⟨hk1, hk2, hgm ▸ hmk, hgi ▸ add32_lt _ _, hgo ▸ hout, hge ▸ hes⟩, ?_, hgi, hgo, hgm,
    hge, ?_⟩
  · rw [hgd, hcin]; rfl
  · rw [hgi, hgo]
    exact sub32_add32_in hin hout (by omega)

theorem content_length {f : __kfifo} {d : Mem} (hd : f.data = some d) :
    (content f).length = sub32 f.in_ f.out := by
  unfold content
  rw [hd]
  simp

/-- Cursor overflow on storage below 4 GiB, for a well-formed fifo (capacity `2 ^ k`,
`1 ≤ k ≤ 31`) with `(in - out) mod 2 ^ 32 ≤ capacity` and storage below `2 ^ 32` bytes.
The length `(in - out) mod 2 ^ 32` is the number of stored elements, also when `in` is
numerically below `out`, and `kfifo_unused` is the capacity minus it; the slot of a
cursor does not depend on the reduction modulo `2 ^ 32`. An enqueue of `n` elements that
carries `in` across `2 ^ 32` leaves `in = in + n - 2 ^ 32`, the length grown by `n` and
the content `old ++` the new elements, and dequeueing everything hands out the old
elements followed by the new ones in order and leaves the fifo empty. -/
theorem cursor_wrap_below_4gib (f : __kfifo) (k : Nat) (hwf : WF f k)
    (hB : (f.mask + 1) * f.esize < 2 ^ 32) (hd : f.data.isSome = true)
    (hlen : sub32 f.in_ f.out ≤ f.mask + 1) (src dst : Mem) (count : Nat) :
    kfifo_unused f = f.mask + 1 - sub32 f.in_ f.out ∧
    (content f).length = sub32 f.in_ f.out ∧
    (f.in_ < f.out → sub32 f.in_ f.out = f.in_ + 2 ^ 32 - f.out) ∧
    (∀ c, (c % 2 ^ 32) &&& f.mask = c &&& f.mask) ∧
    (2 ^ 32 ≤ f.in_ + min count (f.mask + 1 - sub32 f.in_ f.out) →
      (__kfifo_in f src count).2 = min count (f.mask + 1 - sub32 f.in_ f.out) ∧
      (__kfifo_in f src count).1.in_
        = f.in_ + min count (f.mask + 1 - sub32 f.in_ f.out) - 2 ^ 32 ∧
      (__kfifo_in f src count).1.in_ < f.in_ ∧
      sub32 (__kfifo_in f src count).1.in_ (__kfifo_in f src count).1.out
        = sub32 f.in_ f.out + min count (f.mask + 1 - sub32 f.in_ f.out) ∧
      kfifo_unused (__kfifo_in f src count).1 = f.mask + 1
        - (sub32 f.in_ f.out + min count (f.mask + 1 - sub32 f.in_ f.out)) ∧
      content (__kfifo_in f src count).1 = content f
        ++ elems src f.esize (min count (f.mask + 1 - sub32 f.in_ f.out)) ∧
      (__kfifo_out (__kfifo_in f src count).1 dst
        (sub32 f.in_ f.out + min count (f.mask + 1 - sub32 f.in_ f.out))).2.2
        = sub32 f.in_ f.out + min count (f.mask + 1 - sub32 f.in_ f.out) ∧
      elems (__kfifo_out (__kfifo_in f src count).1 dst
        (sub32 f.in_ f.out + min count (f.mask + 1 - sub32 f.in_ f.out))).2.1 f.esize
        (sub32 f.in_ f.out + min count (f.mask + 1 - sub32 f.in_ f.out))
        = content f ++ elems src f.esize (min count (f.mask + 1 - sub32 f.in_ f.out)) ∧
      (__kfifo_out (__kfifo_in f src count).1 dst
        (sub32 f.in_ f.out + min count (f.mask + 1 - sub32 f.in_ f.out))).1.out
        = (__kfifo_out (__kfifo_in f src count).1 dst
          (sub32 f.in_ f.out + min count (f.mask + 1 - sub32 f.in_ f.out))).1.in_) := by
  have hu := kfifo_unused_eq hwf hlen
  obtain ⟨hwg, hgd, hgi, hgo, hgm, hge, hgl⟩ := in_state hwf hB hd hlen src count
  have hcin := content_in hwf hB (Option.get_mem hd) hlen src count
  have hret := kfifo_in_ret f src count
  rw [hu] at hret
  obtain ⟨d, hd⟩ := Option.isSome_iff_exists.mp hd
  have hcl := content_length hd
  obtain ⟨hk1, hk2, hmk, hin, hout, hes⟩ := hwf
  have hcap : f.mask + 1 ≤ 2 ^ 31 := hmk ▸ pow_le_31 hk2
  have hdvd := cap_dvd hmk hk2
  refine ⟨hu, hcl, ?_, ?_, ?_⟩
  · intro h
    unfold sub32
    rw [Nat.mod_eq_of_lt hout]
    omega
  · intro c
    rw [and_mask hmk, and_mask hmk, Nat.mod_mod_of_dvd _ hdvd]
  · intro hcarry
    generalize hn : min count (f.mask + 1 - sub32 f.in_ f.out) = n at *
    have hn1 : n ≤ f.mask + 1 - sub32 f.in_ f.out := by omega
    have hgin : (__kfifo_in f src count).1.in_ = f.in_ + n - 2 ^ 32 := by
      rw [hgi]; unfold add32; omega
    generalize (__kfifo_in f src count).1 = g at *
    have hglen : sub32 g.in_ g.out ≤ g.mask + 1 := by rw [hgl, hgm]; omega
    have hug := kfifo_unused_eq hwg hglen
    have hco := content_out hwg (hgm ▸ hge ▸ hB) (Option.get_mem hgd) hglen dst
      (sub32 f.in_ f.out + n)
    rw [hgl, Nat.min_self, hge, hcin] at hco
    have hfull : (content f ++ elems src f.esize n).length ≤ sub32 f.in_ f.out + n := by
      rw [List.length_append, hcl]; simp [elems]
    rw [List.take_of_length_le hfull] at hco
    have hoe := kfifo_out_eq g dst (sub32 f.in_ f.out + n)
    rw [hgl, Nat.min_self] at hoe
    refine ⟨hret, hgin, by omega, hgl, by rw [hug, hgl, hgm], hcin, ?_, hco.1, ?_⟩
    · rw [hoe]
    · rw [hoe]
      show add32 g.out (sub32 f.in_ f.out + n) = g.in_
      rw [hgo, hgi]
      unfold add32 sub32
      rw [Nat.mod_eq_of_lt hout]
      omega

/-- The cursor overflow at a concrete input: capacity 8 with `out = 2 ^ 32 - 3`,
`in = 2 ^ 32 - 1` and an
enqueue of 5 bytes, which carries `in` to 4. -/
theorem cursor_wrap_below_4gib_witness :
    WF carry_fifo 3 ∧ (carry_fifo.mask + 1) * carry_fifo.esize < 2 ^ 32 ∧
    carry_fifo.data.isSome = true ∧ sub32 carry_fifo.in_ carry_fifo.out ≤ carry_fifo.mask + 1 ∧
    2 ^ 32 ≤ carry_fifo.in_ + min 5 (carry_fifo.mask + 1 - sub32 carry_fifo.in_ carry_fifo.out) ∧
    (__kfifo_in carry_fifo (fun a => a + 100) 5).1.in_ = 4 ∧
    sub32 (__kfifo_in carry_fifo (fun a => a + 100) 5).1.in_
      (__kfifo_in carry_fifo (fun a => a + 100) 5).1.out = 7 ∧
    elems (__kfifo_out (__kfifo_in carry_fifo (fun a => a + 100) 5).1 (fun _ => 0)
        (sub32 carry_fifo.in_ carry_fifo.out
          + min 5 (carry_fifo.mask + 1 - sub32 carry_fifo.in_ carry_fifo.out))).2.1
        carry_fifo.esize
        (sub32 carry_fifo.in_ carry_fifo.out
          + min 5 (carry_fifo.mask + 1 - sub32 carry_fifo.in_ carry_fifo.out))
      = content carry_fifo ++ elems (fun a => a + 100) carry_fifo.esize
          (min 5 (carry_fifo.mask + 1 - sub32 carry_fifo.in_ carry_fifo.out)) :=
  ⟨by decide, by decide, rfl, by decide, by decide, by decide, by decide,
    ((cursor_wrap_below_4gib carry_fifo 3 (by decide) (by decide) rfl (by decide)
      (fun a => a + 100) (fun _ => 0) 5).2.2.2.2 (by decide)).2.2.2.2.2.2.2.1⟩

/-- A return value 0 of `__kfifo_init` leaves a well-formed empty fifo over the caller
storage. -/
theorem init_wf {f0 f : __kfifo} {buffer : Option Mem} {size esize : Nat}
    (hs : size < 2 ^ 32) (h : __kfifo_init f0 buffer size esize = some (f, 0)) :
    ∃ k, WF f k ∧ f.esize = esize % 2 ^ 32 ∧ f.data = buffer ∧ f.in_ = 0 ∧ f.out = 0 := by
  by_cases hq : 1 ≤ size / esize
  · obtain ⟨j, hj, hlo, hhi, _, _, heq⟩ := init_rounds_down f0 buffer hs hq
    rw [heq] at h
    by_cases h2 : size / esize < 2
    · rw [if_pos h2] at h
      injection h with h
      injection h with _ h
      exact absurd h neg_errno_ne_zero.1
    · rw [if_neg h2] at h
      injection h with h
      injection h with h _
      subst h
      have hj1 : 1 ≤ j := by
        rcases Nat.eq_zero_or_pos j with h0 | h0
        · subst h0
          have : (2 : Nat) ^ 0 = 1 := rfl
          omega
        · exact h0
      have hp : 1 ≤ 2 ^ j := Nat.two_pow_pos j
      refine ⟨j, ⟨hj1, hj, ?_, ?_, ?_, ?_⟩, rfl, rfl, rfl, rfl⟩
      · show 2 ^ j - 1 + 1 = 2 ^ j
        omega
      · show 0 < 2 ^ 32
        decide
      · show 0 < 2 ^ 32
        decide
      · show esize % 2 ^ 32 < 2 ^ 32
        exact Nat.mod_lt _ (by decide)
  · have hq0 : size / esize = 0 := Nat.lt_one_iff.mp (Nat.not_le.mp hq)
    rw [kfifo_init_eq] at h
    split at h
    · exact absurd h (by simp)
    · rw [hq0] at h
      have h1 : is_power_of_2 0 = false := by decide
      rw [h1, rounddown_zero] at h
      exact absurd h (by simp)

/-- A return value 0 of `__kfifo_alloc` leaves a well-formed empty fifo over allocated
storage. -/
theorem alloc_wf {kmalloc : Nat → Option Mem} {f0 f : __kfifo} {size esize : Nat}
    (hs : size < 2 ^ 32) (h : __kfifo_alloc kmalloc f0 size esize = some (f, 0)) :
    ∃ k, WF f k ∧ f.esize = esize % 2 ^ 32 ∧ f.data.isSome = true ∧ f.in_ = 0 ∧ f.out = 0 := by
  by_cases hv : 2 ≤ size ∧ size ≤ 2 ^ 31
  · obtain ⟨j, hj1, hj, _, _, heq⟩ := alloc_valid kmalloc f0 esize hv.1 hv.2
    rw [heq] at h
    have hp : 1 ≤ 2 ^ j := Nat.two_pow_pos j
    cases hk : kmalloc (2 ^ j * esize % 2 ^ 64) with
    | none =>
      rw [hk] at h
      injection h with h
      injection h with _ h
      exact absurd h neg_errno_ne_zero.2
    | some m =>
      rw [hk] at h
      injection h with h
      injection h with h _
      subst h
      refine ⟨j, ⟨hj1, hj, ?_, ?_, ?_, ?_⟩, rfl, rfl, rfl, rfl⟩
      · show 2 ^ j - 1 + 1 = 2 ^ j
        omega
      · show 0 < 2 ^ 32
        decide
      · show 0 < 2 ^ 32
        decide
      · show esize % 2 ^ 32 < 2 ^ 32
        exact Nat.mod_lt _ (by decide)
  · rw [alloc_invalid kmalloc f0 esize hs (by omega)] at h
    injection h with h
    injection h with _ h
    exact absurd h neg_errno_ne_zero.1

/-- One admitted record call keeps the fifo well-formed and its queued bytes a framing
of whole records. -/
theorem rec_step {g : __kfifo} {k w : Nat} (hb : ByteFifo g k) (hw : w = 1 ∨ w = 2)
    {rs : List (List Nat)} (hrep : RecRep w g rs) (op : RecOp) (hok : op.allowed w g) :
    ∃ rs2, ByteFifo (op.apply w g) k ∧ RecRep w (op.apply w g) rs2 := by
  cases op with
  | enq buf len =>
    have hL : len ≤ 2 ^ (8 * w) - 1 := hok
    have hL32 : len < 2 ^ 32 := by
      rcases hw with h | h <;> subst h <;> omega
    by_cases hfit : len + w ≤ kfifo_unused g
    · obtain ⟨_, h2, h3, _⟩ := rep_in hb hw hrep hL hfit buf
      exact ⟨_, h2, h3⟩
    · have hrej := kfifo_in_r_reject g buf len w
        (by rw [add64_small (by omega)]; omega)
      refine ⟨rs, ?_, ?_⟩
      · show ByteFifo (__kfifo_in_r g buf len w).1 k
        rw [hrej]; exact hb
      · show RecRep w (__kfifo_in_r g buf len w).1 rs
        rw [hrej]; exact hrep
  | deq dst max =>
    by_cases he : g.in_ = g.out
    · refine ⟨rs, ?_, ?_⟩
      · show ByteFifo (__kfifo_out_r g dst max w).1 k
        rw [(out_r_empty g he dst max w).1]; exact hb
      · show RecRep w (__kfifo_out_r g dst max w).1 rs
        rw [(out_r_empty g he dst max w).1]; exact hrep
    · cases rs with
      | nil => exact absurd ((recRep_nil_iff hb w).mp hrep) he
      | cons r rs2 =>
        have hr := hrep.2 r (List.mem_cons_self r rs2)
        obtain ⟨_, _, e3, _, _, _, _, e8, e9⟩ := out_r_rec hb hw hr hrep.1 dst max
        refine ⟨rs2, ?_, ?_, ?_⟩
        · show ByteFifo (__kfifo_out_r g dst max w).1 k
          rw [e3]; exact e9
        · show queued (__kfifo_out_r g dst max w).1 = _
          rw [e3]; exact e8
        · intro x hx
          exact hrep.2 x (List.mem_cons_of_mem r hx)
  | peek dst max =>
    refine ⟨rs, ?_, ?_⟩
    · show ByteFifo (__kfifo_out_peek_r g dst max w).1 k
      rw [(out_peek_r_eq g dst max w).1]; exact hb
    · show RecRep w (__kfifo_out_peek_r g dst max w).1 rs
      rw [(out_peek_r_eq g dst max w).1]; exact hrep
  | skip =>
    have he : g.in_ ≠ g.out := hok
    cases rs with
    | nil => exact absurd ((recRep_nil_iff hb w).mp hrep) he
    | cons r rs2 =>
      have hr := hrep.2 r (List.mem_cons_self r rs2)
      obtain ⟨_, _, _, _, _, _, _, e8, e9⟩ := out_r_rec hb hw hr hrep.1 (fun _ => 0) 0
      have hs := skip_r_rec hb hw hr hrep.1
      refine ⟨rs2, ?_, ?_, ?_⟩
      · show ByteFifo (__kfifo_skip_r g w) k
        rw [hs]; exact e9
      · show queued (__kfifo_skip_r g w) = _
        rw [hs]; exact e8
      · intro x hx
        exact hrep.2 x (List.mem_cons_of_mem r hx)

theorem rec_run_rep {k w : Nat} (hw : w = 1 ∨ w = 2) (ops : List RecOp) :
    ∀ (g : __kfifo) (rs : List (List Nat)), ByteFifo g k → RecRep w g rs →
      rec_allowed w g ops →
      ∃ rs2, ByteFifo (rec_run w g ops) k ∧ RecRep w (rec_run w g ops) rs2 := by
  induction ops with
  | nil => intro g rs hb hrep _; exact ⟨rs, hb, hrep⟩
  | cons op ops ih =>
    intro g rs hb hrep hok
    obtain ⟨rs1, hb1, hrep1⟩ := rec_step hb hw hrep op hok.1
    exact ih (op.apply w g) rs1 hb1 hrep1 hok.2

/-- C19. Record-layer framing invariant. Start from a byte fifo (`esize = 1`) for which
`__kfifo_init` over a storage object or `__kfifo_alloc` returned 0, take a header width
1 or 2, and apply any sequence of `__kfifo_in_r` calls with a length the header can
hold, `__kfifo_out_r` and `__kfifo_out_peek_r` calls with any `max`, and
`__kfifo_skip_r` calls on a non-empty fifo. Then the bytes between `out` and `in` are
the framing of a list of whole records, each a header followed by its payload, whose
sizes (payload plus header) sum to `in - out`, and `in - out` is at most the capacity. -/
theorem C19_framing (kmalloc : Nat → Option Mem) (f0 f : __kfifo) (buffer : Mem)
    (size : Nat) (hs : size < 2 ^ 32)
    (hinit : __kfifo_init f0 (some buffer) size 1 = some (f, 0) ∨
      __kfifo_alloc kmalloc f0 size 1 = some (f, 0))
    (w : Nat) (hw : w = 1 ∨ w = 2) (ops : List RecOp) (hok : rec_allowed w f ops) :
    ∃ rs : List (List Nat),
      queued (rec_run w f ops) = encode w rs ∧
      (∀ r, r ∈ rs → r.length ≤ 2 ^ (8 * w) - 1) ∧
      (rs.map fun r => r.length + w).sum
        = sub32 (rec_run w f ops).in_ (rec_run w f ops).out ∧
      sub32 (rec_run w f ops).in_ (rec_run w f ops).out ≤ (rec_run w f ops).mask + 1 := by
  have h0 : ∃ k, ByteFifo f k ∧ f.in_ = f.out := by
    have hz : sub32 0 0 = 0 := by decide
    rcases hinit with h | h
    · obtain ⟨k, hwf, he, hd, hi, ho⟩ := init_wf hs h
      refine ⟨k, ⟨hwf, he, by rw [hd]; rfl, ?_⟩, by rw [hi, ho]⟩
      rw [hi, ho, hz]; exact Nat.zero_le _
    · obtain ⟨k, hwf, he, hd, hi, ho⟩ := alloc_wf hs h
      refine ⟨k, ⟨hwf, he, hd, ?_⟩, by rw [hi, ho]⟩
      rw [hi, ho, hz]; exact Nat.zero_le _
  obtain ⟨k, hb, hempty⟩ := h0
  have hrep0 : RecRep w f [] := (recRep_nil_iff hb w).mpr hempty
  obtain ⟨rs, hbr, hrep⟩ := rec_run_rep hw ops f [] hb hrep0 hok
  refine ⟨rs, hrep.1, hrep.2, ?_, hbr.2.2.2⟩
  rw [← encode_length hw, ← hrep.1]
  exact queued_length (Option.get_mem hbr.2.2.1)

/-- C19 at a concrete input: `__kfifo_init` over 8 zeroed bytes, a 1-byte header, and
the sequence `rec_demo_ops`. -/
theorem C19_framing_witness :
    8 < 2 ^ 32 ∧
    (__kfifo_init wrap_fifo (some (fun _ => 0)) 8 1 = some (init_fifo, 0) ∨
      __kfifo_alloc kmalloc_fail wrap_fifo 8 1 = some (init_fifo, 0)) ∧
    (1 = 1 ∨ 1 = 2) ∧ rec_allowed 1 init_fifo rec_demo_ops ∧
    ∃ rs : List (List Nat),
      queued (rec_run 1 init_fifo rec_demo_ops) = encode 1 rs ∧
      (∀ r, r ∈ rs → r.length ≤ 2 ^ (8 * 1) - 1) ∧
      (rs.map fun r => r.length + 1).sum
        = sub32 (rec_run 1 init_fifo rec_demo_ops).in_ (rec_run 1 init_fifo rec_demo_ops).out ∧
      sub32 (rec_run 1 init_fifo rec_demo_ops).in_ (rec_run 1 init_fifo rec_demo_ops).out
        ≤ (rec_run 1 init_fifo rec_demo_ops).mask + 1 :=
  ⟨by decide, Or.inl rfl, Or.inl rfl, by decide,
    C19_framing kmalloc_fail wrap_fifo init_fifo (fun _ => 0) 8 (by decide) (Or.inl rfl) 1
      (Or.inl rfl) rec_demo_ops (by decide)⟩


theorem bytes_of_mem_of (r : List Nat) : bytes_of (mem_of r) r.length = r := by
  apply List.ext_getElem
  · simp [bytes_of]
  · intro i h1 h2
    simp only [bytes_of, mem_of, List.getElem_map, List.getElem_range]
    exact List.getD_eq_getElem r 0 h2

/-- Enqueueing a list of records that fits appends them to the records of the fifo. -/
theorem enq_all_rep {k w : Nat} (hw : w = 1 ∨ w = 2) (rs : List (List Nat)) :
    ∀ (g : __kfifo) (rs0 : List (List Nat)), ByteFifo g k → RecRep w g rs0 →
      (∀ r, r ∈ rs → r.length ≤ 2 ^ (8 * w) - 1) →
      (encode w rs0).length + (encode w rs).length ≤ g.mask + 1 →
      ByteFifo (enq_all w g rs) k ∧ RecRep w (enq_all w g rs) (rs0 ++ rs) := by
  induction rs with
  | nil =>
    intro g rs0 hb hrep _ _
    rw [List.append_nil]
    exact ⟨hb, hrep⟩
  | cons r rs ih =>
    intro g rs0 hb hrep hlen hfit
    have hr := hlen r (List.mem_cons_self r rs)
    have hu := kfifo_unused_eq hb.1 hb.2.2.2
    have hql := queued_length (Option.get_mem hb.2.2.1)
    rw [hrep.1] at hql
    have hfl : (encode w (r :: rs)).length = r.length + w + (encode w rs).length := by
      show (frame w r ++ encode w rs).length = _
      rw [List.length_append, frame_length hw]
    obtain ⟨_, hb1, hrep1, _, _, hm1⟩ :=
      rep_in hb hw hrep hr (show r.length + w ≤ kfifo_unused g by omega) (mem_of r)
    rw [bytes_of_mem_of] at hrep1
    have hstep := ih (__kfifo_in_r g (mem_of r) r.length w).1 (rs0 ++ [r]) hb1 hrep1
      (fun x hx => hlen x (List.mem_cons_of_mem r hx))
      (by rw [encode_append, List.length_append, frame_length hw, hm1]; omega)
    rw [List.append_assoc, List.singleton_append] at hstep
    exact hstep

/-- Dequeueing `j` records with enough room hands out the `j` oldest records in order and
leaves the others. -/
theorem drain_rep {k w : Nat} (max : Nat) (hw : w = 1 ∨ w = 2) (j : Nat) :
    ∀ (g : __kfifo) (rs : List (List Nat)), ByteFifo g k → RecRep w g rs →
      (∀ r, r ∈ rs → r.length ≤ max) → j ≤ rs.length →
      (drain w max j g).1 = rs.take j ∧ ByteFifo (drain w max j g).2 k ∧
      RecRep w (drain w max j g).2 (rs.drop j) := by
  induction j with
  | zero =>
    intro g rs hb hrep _ _
    exact ⟨rfl, hb, hrep⟩
  | succ j ih =>
    intro g rs hb hrep hmax hj
    cases rs with
    | nil => exact absurd hj (by simp)
    | cons r rs2 =>
      have hr := hrep.2 r (List.mem_cons_self r rs2)
      have hrm := hmax r (List.mem_cons_self r rs2)
      obtain ⟨_, _, e3, e4, _, e6, _, e8, e9⟩ := out_r_rec hb hw hr hrep.1 (fun _ => 0) max
      have hmin : min max r.length = r.length := Nat.min_eq_right hrm
      rw [hmin] at e4 e6
      rw [List.take_of_length_le hrm] at e6
      have hrep2 : RecRep w (__kfifo_out_r g (fun _ => 0) max w).1 rs2 := by
        rw [e3]
        exact ⟨e8, fun x hx => hrep.2 x (List.mem_cons_of_mem r hx)⟩
      have hb2 : ByteFifo (__kfifo_out_r g (fun _ => 0) max w).1 k := by
        rw [e3]; exact e9
      obtain ⟨i1, i2, i3⟩ := ih (__kfifo_out_r g (fun _ => 0) max w).1 rs2 hb2 hrep2
        (fun x hx => hmax x (List.mem_cons_of_mem r hx)) (Nat.le_of_succ_le_succ hj)
      refine ⟨?_, i2, i3⟩
      show bytes_of (__kfifo_out_r g (fun _ => 0) max w).2.1
          (__kfifo_out_r g (fun _ => 0) max w).2.2
        :: (drain w max j (__kfifo_out_r g (fun _ => 0) max w).1).1 = _
      rw [e4, e6, i1]
      rfl

/-- C12. The record layer is a FIFO of byte strings. Start from a well-formed empty byte
fifo, take a header width 1 or 2 and records `r1, rs` of lengths the header can hold
whose framing fits the capacity, and enqueue them in order with `__kfifo_in_r`. Then
the queued bytes are the framing of the records; `__kfifo_skip_r` removes exactly the
oldest record (`out` advances by `length r1 + w`, nothing else changes); the following
`__kfifo_out_r` calls with enough room return the records `rs` one by one with their exact
bytes in insertion order; the fifo is non-empty before each of them and empty after the
last. -/
theorem C12_record_fifo (f : __kfifo) (k : Nat) (hb : ByteFifo f k) (hempty : f.in_ = f.out)
    (w : Nat) (hw : w = 1 ∨ w = 2) (r1 : List Nat) (rs : List (List Nat))
    (hlen : ∀ r, r ∈ r1 :: rs → r.length ≤ 2 ^ (8 * w) - 1)
    (hfit : (encode w (r1 :: rs)).length ≤ f.mask + 1)
    (max : Nat) (hmax : ∀ r, r ∈ rs → r.length ≤ max) :
    queued (enq_all w f (r1 :: rs)) = encode w (r1 :: rs) ∧
    __kfifo_skip_r (enq_all w f (r1 :: rs)) w
      = adv_out (enq_all w f (r1 :: rs)) (r1.length + w) ∧
    (drain w max rs.length (__kfifo_skip_r (enq_all w f (r1 :: rs)) w)).1 = rs ∧
    (∀ j, j < rs.length →
      (drain w max j (__kfifo_skip_r (enq_all w f (r1 :: rs)) w)).1 = rs.take j ∧
      (drain w max j (__kfifo_skip_r (enq_all w f (r1 :: rs)) w)).2.in_
        ≠ (drain w max j (__kfifo_skip_r (enq_all w f (r1 :: rs)) w)).2.out) ∧
    (drain w max rs.length (__kfifo_skip_r (enq_all w f (r1 :: rs)) w)).2.in_
      = (drain w max rs.length (__kfifo_skip_r (enq_all w f (r1 :: rs)) w)).2.out := by
  have hrep0 : RecRep w f [] := (recRep_nil_iff hb w).mpr hempty
  obtain ⟨hbg, hrepg⟩ := enq_all_rep hw (r1 :: rs) f [] hb hrep0 hlen
    (by show 0 + _ ≤ _; omega)
  rw [List.nil_append] at hrepg
  have hr1 := hlen r1 (List.mem_cons_self r1 rs)
  have hskip := skip_r_rec hbg hw hr1 hrepg.1
  obtain ⟨_, _, _, _, _, _, _, e8, e9⟩ := out_r_rec hbg hw hr1 hrepg.1 (fun _ => 0) 0
  rw [hskip]
  have hreps : RecRep w (adv_out (enq_all w f (r1 :: rs)) (r1.length + w)) rs :=
    ⟨e8, fun x hx => hlen x (List.mem_cons_of_mem r1 hx)⟩
  obtain ⟨d1, d2, d3⟩ := drain_rep max hw rs.length _ rs e9 hreps hmax (Nat.le_refl _)
  rw [List.take_length] at d1
  rw [List.drop_length] at d3
  refine ⟨hrepg.1, rfl, d1, ?_, (recRep_nil_iff d2 w).mp d3⟩
  intro j hj
  obtain ⟨c1, c2, c3⟩ := drain_rep max hw j _ rs e9 hreps hmax (Nat.le_of_lt hj)
  refine ⟨c1, ?_⟩
  intro he
  have hnil := (recRep_nil_iff c2 w).mpr he
  have hl : (encode w (rs.drop j)).length = 0 := by
    rw [← c3.1, hnil.1]; rfl
  rw [encode_length hw] at hl
  obtain ⟨x, xs, hx⟩ : ∃ x xs, rs.drop j = x :: xs := by
    cases hd : rs.drop j with
    | nil =>
      have := congrArg List.length hd
      rw [List.length_drop, List.length_nil] at this
      omega
    | cons x xs => exact ⟨x, xs, rfl⟩
  rw [hx, List.map_cons, List.sum_cons] at hl
  rcases hw with h | h <;> subst h <;> omega

/-- C12 at the input of the record example: capacity 128, a 1-byte header, the 6-byte
`hello` structure, then the records "a", "bb", up to "jjjjjjjjjj"; one skip, then ten
dequeues into a buffer of 100 bytes give the ten lettered records in order. -/
theorem C12_record_fifo_witness :
    ByteFifo rec128_fifo 7 ∧ rec128_fifo.in_ = rec128_fifo.out ∧ (1 = 1 ∨ 1 = 2) ∧
    (∀ r, r ∈ hello_rec :: letter_recs → r.length ≤ 2 ^ (8 * 1) - 1) ∧
    (encode 1 (hello_rec :: letter_recs)).length ≤ rec128_fifo.mask + 1 ∧
    (∀ r, r ∈ letter_recs → r.length ≤ 100) ∧
    (queued (enq_all 1 rec128_fifo (hello_rec :: letter_recs))
      = encode 1 (hello_rec :: letter_recs) ∧
    __kfifo_skip_r (enq_all 1 rec128_fifo (hello_rec :: letter_recs)) 1
      = adv_out (enq_all 1 rec128_fifo (hello_rec :: letter_recs)) (hello_rec.length + 1) ∧
    (drain 1 100 letter_recs.length
      (__kfifo_skip_r (enq_all 1 rec128_fifo (hello_rec :: letter_recs)) 1)).1
      = letter_recs ∧
    (∀ j, j < letter_recs.length →
      (drain 1 100 j (__kfifo_skip_r (enq_all 1 rec128_fifo (hello_rec :: letter_recs))
        1)).1 = letter_recs.take j ∧
      (drain 1 100 j (__kfifo_skip_r (enq_all 1 rec128_fifo (hello_rec :: letter_recs))
        1)).2.in_
        ≠ (drain 1 100 j (__kfifo_skip_r (enq_all 1 rec128_fifo (hello_rec :: letter_recs))
          1)).2.out) ∧
    (drain 1 100 letter_recs.length
      (__kfifo_skip_r (enq_all 1 rec128_fifo (hello_rec :: letter_recs)) 1)).2.in_
      = (drain 1 100 letter_recs.length
        (__kfifo_skip_r (enq_all 1 rec128_fifo (hello_rec :: letter_recs)) 1)).2.out) :=
  ⟨by decide, rfl, Or.inl rfl, by decide, by decide, by decide,
    C12_record_fifo rec128_fifo 7 (by decide) rfl 1 (Or.inl rfl) hello_rec letter_recs
      (by decide) (by decide) 100 (by decide)⟩

/-- The record example run on the code: after the `hello` structure is enqueued,
`__kfifo_len_r` returns 6, the size of the structure, and after the skip of that record
the next dequeue returns the record "a". -/
theorem record_example :
    (__kfifo_len_r (__kfifo_in_r rec128_fifo (mem_of hello_rec) hello_rec.length 1).1 1).2
      = 6 ∧
    (drain 1 100 1 (__kfifo_skip_r (enq_all 1 rec128_fifo [hello_rec, [97], [98, 98]]) 1)).1
      = [[97]] := by
  decide

/-- C1, failing input. `__kfifo_alloc` with `size = 2 ^ 30` and `esize = 4` returns 0 and
the empty fifo `big_fifo`, whose storage is `2 ^ 32` bytes. On it `__kfifo_in` of
`2 ^ 30` elements returns `2 ^ 30`, but the byte count `len * esize` wraps to 0 in
`unsigned int` and no byte of the storage changes. The following `__kfifo_out` of
`2 ^ 30` elements returns `2 ^ 30` and leaves the fifo empty, but no byte of `dst`
changes, so `dst` does not hold the elements of `src`. -/
theorem C1_roundtrip_lost (f0 : __kfifo) :
    __kfifo_alloc kmalloc_ok f0 (2 ^ 30) 4 = some (big_fifo, 0) ∧
    big_fifo.in_ = big_fifo.out ∧
    mul32 (2 ^ 30) big_fifo.esize = 0 ∧
    (__kfifo_in big_fifo (fun _ => 1) (2 ^ 30)).2 = 2 ^ 30 ∧
    (∀ d, (__kfifo_in big_fifo (fun _ => 1) (2 ^ 30)).1.data = some d → ∀ a, d a = 0) ∧
    (__kfifo_out (__kfifo_in big_fifo (fun _ => 1) (2 ^ 30)).1 (fun _ => 0) (2 ^ 30)).2.2
      = 2 ^ 30 ∧
    (∀ a, (__kfifo_out (__kfifo_in big_fifo (fun _ => 1) (2 ^ 30)).1 (fun _ => 0)
      (2 ^ 30)).2.1 a = 0) ∧
    (__kfifo_out (__kfifo_in big_fifo (fun _ => 1) (2 ^ 30)).1 (fun _ => 0) (2 ^ 30)).1.in_
      = (__kfifo_out (__kfifo_in big_fifo (fun _ => 1) (2 ^ 30)).1 (fun _ => 0)
        (2 ^ 30)).1.out ∧
    ¬ elems (__kfifo_out (__kfifo_in big_fifo (fun _ => 1) (2 ^ 30)).1 (fun _ => 0)
        (2 ^ 30)).2.1 big_fifo.esize (2 ^ 30) = elems (fun _ => 1) big_fifo.esize (2 ^ 30) := by
  have hd : (__kfifo_in big_fifo (fun _ => 1) (2 ^ 30)).1.data
      = some (memcpy (memcpy (fun _ => 0) 0 (fun _ => 1) 0 0) 0 (fun _ => 1) 0 0) := rfl
  have hdst : (__kfifo_out (__kfifo_in big_fifo (fun _ => 1) (2 ^ 30)).1 (fun _ => 0)
      (2 ^ 30)).2.1
      = memcpy (memcpy (fun _ => 0) 0
          (memcpy (memcpy (fun _ => 0) 0 (fun _ => 1) 0 0) 0 (fun _ => 1) 0 0) 0 0) 0
          (memcpy (memcpy (fun _ => 0) 0 (fun _ => 1) 0 0) 0 (fun _ => 1) 0 0) 0 0 := rfl
  refine ⟨rfl, rfl, by decide, by decide, ?_, by decide, ?_, by decide, ?_⟩
  · intro d h a
    rw [hd] at h
    injection h with h
    subst h
    simp [memcpy]
  · intro a
    rw [hdst]
    simp [memcpy]
  · intro h
    have h0 := congrArg (fun l => l[0]?) h
    simp only [elems, List.getElem?_map, List.getElem?_range (by decide : 0 < 2 ^ 30),
      Option.map_some] at h0
    revert h0
    decide

/-- C2, failing input. `__kfifo_alloc` with `size = 2 ^ 30` and `esize = 4` returns 0 and
the empty fifo `big_fifo` (storage `2 ^ 32` bytes), a state with
`in - out = 0 ≤ capacity`. After `__kfifo_in` of `2 ^ 30` elements the abstract content
has `2 ^ 30` elements, but its first element is the zeroed storage `[0, 0, 0, 0]` and not
the first element `[1, 1, 1, 1]` of `src`: the byte count wraps to 0 in `unsigned int`
and nothing is stored, so the content is not `old ++` the elements of `src`. -/
theorem C2_content_lost (f0 : __kfifo) :
    __kfifo_alloc kmalloc_ok f0 (2 ^ 30) 4 = some (big_fifo, 0) ∧
    sub32 big_fifo.in_ big_fifo.out ≤ big_fifo.mask + 1 ∧
    content big_fifo = [] ∧
    min (2 ^ 30) (big_fifo.mask + 1 - sub32 big_fifo.in_ big_fifo.out) = 2 ^ 30 ∧
    sub32 (__kfifo_in big_fifo (fun _ => 1) (2 ^ 30)).1.in_
      (__kfifo_in big_fifo (fun _ => 1) (2 ^ 30)).1.out = 2 ^ 30 ∧
    (content (__kfifo_in big_fifo (fun _ => 1) (2 ^ 30)).1)[0]? = some [0, 0, 0, 0] ∧
    (content big_fifo ++ elems (fun _ => 1) big_fifo.esize (2 ^ 30))[0]?
      = some [1, 1, 1, 1] ∧
    ¬ content (__kfifo_in big_fifo (fun _ => 1) (2 ^ 30)).1
      = content big_fifo ++ elems (fun _ => 1) big_fifo.esize
          (min (2 ^ 30) (big_fifo.mask + 1 - sub32 big_fifo.in_ big_fifo.out)) := by
  have hd : (__kfifo_in big_fifo (fun _ => 1) (2 ^ 30)).1.data
      = some (memcpy (memcpy (fun _ => 0) 0 (fun _ => 1) 0 0) 0 (fun _ => 1) 0 0) := rfl
  have hc0 : content big_fifo = [] := by decide
  have hm : min (2 ^ 30) (big_fifo.mask + 1 - sub32 big_fifo.in_ big_fifo.out) = 2 ^ 30 := by
    decide
  have h1 : (content (__kfifo_in big_fifo (fun _ => 1) (2 ^ 30)).1)[0]?
      = some [0, 0, 0, 0] := by
    rw [content_get hd (i := 0) (by decide)]
    decide
  have h2 : (content big_fifo ++ elems (fun _ => 1) big_fifo.esize (2 ^ 30))[0]?
      = some [1, 1, 1, 1] := by
    rw [hc0, List.nil_append]
    simp only [elems, List.getElem?_map, List.getElem?_range (by decide : 0 < 2 ^ 30),
      Option.map_some]
    decide
  refine ⟨rfl, by decide, hc0, hm, by decide, h1, h2, ?_⟩
  intro h
  rw [hm] at h
  have h0 := congrArg (fun l => l[0]?) h
  simp only [h1, h2] at h0
  revert h0
  decide

/-- C3, failing input. On the empty fifo `big_fifo` that `__kfifo_alloc` returns for
`size = 2 ^ 30` and `esize = 4`, `unused` is `2 ^ 30`. `__kfifo_in` with
`count = 2 ^ 30 + 1 > unused` returns `unused`, advances `in` by it, leaves `out` alone
and the fifo counts as full, but the byte count `unused * esize` wraps to 0 in
`unsigned int`: no byte of the storage changes, and the oldest queued element is the
zeroed storage `[0, 0, 0, 0]`, not the first element `[1, 1, 1, 1]` of `src`. The
counts are right and no element is inserted. -/
theorem C3_insert_lost (f0 : __kfifo) :
    __kfifo_alloc kmalloc_ok f0 (2 ^ 30) 4 = some (big_fifo, 0) ∧
    sub32 big_fifo.in_ big_fifo.out ≤ big_fifo.mask + 1 ∧
    kfifo_unused big_fifo = 2 ^ 30 ∧
    2 ^ 30 + 1 > kfifo_unused big_fifo ∧
    (__kfifo_in big_fifo (fun _ => 1) (2 ^ 30 + 1)).2 = 2 ^ 30 ∧
    (__kfifo_in big_fifo (fun _ => 1) (2 ^ 30 + 1)).1.in_ = add32 big_fifo.in_ (2 ^ 30) ∧
    (__kfifo_in big_fifo (fun _ => 1) (2 ^ 30 + 1)).1.out = big_fifo.out ∧
    kfifo_unused (__kfifo_in big_fifo (fun _ => 1) (2 ^ 30 + 1)).1 = 0 ∧
    mul32 (2 ^ 30) big_fifo.esize = 0 ∧
    (∀ d, (__kfifo_in big_fifo (fun _ => 1) (2 ^ 30 + 1)).1.data = some d → ∀ a, d a = 0) ∧
    (content (__kfifo_in big_fifo (fun _ => 1) (2 ^ 30 + 1)).1)[0]? = some [0, 0, 0, 0] ∧
    elem (fun _ => 1) big_fifo.esize 0 = [1, 1, 1, 1] ∧
    ¬ content (__kfifo_in big_fifo (fun _ => 1) (2 ^ 30 + 1)).1
      = content big_fifo ++ elems (fun _ => 1) big_fifo.esize (kfifo_unused big_fifo) := by
  have hd : (__kfifo_in big_fifo (fun _ => 1) (2 ^ 30 + 1)).1.data
      = some (memcpy (memcpy (fun _ => 0) 0 (fun _ => 1) 0 0) 0 (fun _ => 1) 0 0) := rfl
  have hc0 : content big_fifo = [] := by decide
  have hu : kfifo_unused big_fifo = 2 ^ 30 := by decide
  have h1 : (content (__kfifo_in big_fifo (fun _ => 1) (2 ^ 30 + 1)).1)[0]?
      = some [0, 0, 0, 0] := by
    rw [content_get hd (i := 0) (by decide)]
    decide
  refine ⟨rfl, by decide, hu, by decide, by decide, by decide, rfl, by decide, by decide,
    ?_, h1, by decide, ?_⟩
  · intro d h a
    rw [← Option.some.inj (hd.symm.trans h)]
    simp [memcpy]
  · intro h
    rw [hu, hc0, List.nil_append] at h
    have h0 := congrArg (fun l => l[0]?) h
    simp only [h1, elems, List.getElem?_map, List.getElem?_range (by decide : 0 < 2 ^ 30),
      Option.map_some] at h0
    revert h0
    decide

/-- Counting across the cursor overflow, for every well-formed fifo (capacity `2 ^ k`,
`1 ≤ k ≤ 31`) with `(in - out) mod 2 ^ 32 ≤ capacity`, whatever the element size and the
storage. `kfifo_unused` is the capacity minus the length `(in - out) mod 2 ^ 32`, also
when `in` is numerically below `out`, and the slot of a cursor does not depend on the
reduction modulo `2 ^ 32`. An enqueue of `n` elements that carries `in` across `2 ^ 32`
returns `n`, leaves `in = in + n - 2 ^ 32` below its old value, and the length grown by
`n`; dequeueing that many returns that count and leaves the fifo empty. -/
theorem cursor_wrap_counts (f : __kfifo) (k : Nat) (hwf : WF f k)
    (hlen : sub32 f.in_ f.out ≤ f.mask + 1) (src dst : Mem) (count : Nat) :
    kfifo_unused f = f.mask + 1 - sub32 f.in_ f.out ∧
    (f.in_ < f.out → sub32 f.in_ f.out = f.in_ + 2 ^ 32 - f.out) ∧
    (∀ c, (c % 2 ^ 32) &&& f.mask = c &&& f.mask) ∧
    (2 ^ 32 ≤ f.in_ + min count (f.mask + 1 - sub32 f.in_ f.out) →
      (__kfifo_in f src count).2 = min count (f.mask + 1 - sub32 f.in_ f.out) ∧
      (__kfifo_in f src count).1.in_
        = f.in_ + min count (f.mask + 1 - sub32 f.in_ f.out) - 2 ^ 32 ∧
      (__kfifo_in f src count).1.in_ < f.in_ ∧
      sub32 (__kfifo_in f src count).1.in_ (__kfifo_in f src count).1.out
        = sub32 f.in_ f.out + min count (f.mask + 1 - sub32 f.in_ f.out) ∧
      kfifo_unused (__kfifo_in f src count).1 = f.mask + 1
        - (sub32 f.in_ f.out + min count (f.mask + 1 - sub32 f.in_ f.out)) ∧
      (__kfifo_out (__kfifo_in f src count).1 dst
        (sub32 f.in_ f.out + min count (f.mask + 1 - sub32 f.in_ f.out))).2.2
        = sub32 f.in_ f.out + min count (f.mask + 1 - sub32 f.in_ f.out) ∧
      (__kfifo_out (__kfifo_in f src count).1 dst
        (sub32 f.in_ f.out + min count (f.mask + 1 - sub32 f.in_ f.out))).1.out
        = (__kfifo_out (__kfifo_in f src count).1 dst
          (sub32 f.in_ f.out + min count (f.mask + 1 - sub32 f.in_ f.out))).1.in_) := by
  have hu := kfifo_unused_eq hwf hlen
  obtain ⟨hret, _, hgi, hgo, hgm, hge, hgl, _⟩ := in_count_cursors f k hwf hlen src count
  obtain ⟨hk1, hk2, hmk, hin, hout, hes⟩ := hwf
  have hcap : f.mask + 1 ≤ 2 ^ 31 := hmk ▸ pow_le_31 hk2
  have hdvd := cap_dvd hmk hk2
  refine ⟨hu, ?_, ?_, ?_⟩
  · intro h
    unfold sub32
    rw [Nat.mod_eq_of_lt hout]
    omega
  · intro c
    rw [and_mask hmk, and_mask hmk, Nat.mod_mod_of_dvd _ hdvd]
  · intro hcarry
    rw [hret] at hgi hgl
    generalize hn : min count (f.mask + 1 - sub32 f.in_ f.out) = n at *
    have hn1 : n ≤ f.mask + 1 - sub32 f.in_ f.out := by omega
    have hgin : (__kfifo_in f src count).1.in_ = f.in_ + n - 2 ^ 32 := by
      rw [hgi]; unfold add32; omega
    generalize (__kfifo_in f src count).1 = g at *
    have hwg : WF g k := ⟨hk1, hk2, hgm ▸ hmk, hgi ▸ add32_lt _ _, hgo ▸ hout, hge ▸ hes⟩
    have hglen : sub32 g.in_ g.out ≤ g.mask + 1 := by rw [hgl, hgm]; omega
    have hug := kfifo_unused_eq hwg hglen
    have hoe := kfifo_out_eq g dst (sub32 f.in_ f.out + n)
    rw [hgl, Nat.min_self] at hoe
    refine ⟨hret, hgin, by omega, hgl, by rw [hug, hgl, hgm], ?_, ?_⟩
    · rw [hoe]
    · rw [hoe]
      show add32 g.out (sub32 f.in_ f.out + n) = g.in_
      rw [hgo, hgi]
      unfold add32 sub32
      rw [Nat.mod_eq_of_lt hout]
      omega

/-- The counting across the overflow at a concrete input: the fifo of `2 ^ 30` four-byte
elements with both cursors at `2 ^ 32 - 1` and an enqueue of `2 ^ 30` elements. -/
theorem cursor_wrap_counts_witness :
    WF big_edge_fifo 30 ∧ sub32 big_edge_fifo.in_ big_edge_fifo.out ≤ big_edge_fifo.mask + 1 ∧
    kfifo_unused big_edge_fifo = big_edge_fifo.mask + 1
      - sub32 big_edge_fifo.in_ big_edge_fifo.out :=
  ⟨by decide, by decide,
    (cursor_wrap_counts big_edge_fifo 30 (by decide) (by decide) (fun _ => 1) (fun _ => 0)
      (2 ^ 30)).1⟩

/-- C18, failing input. The fifo `big_edge_fifo` is the fifo `big_fifo` that
`__kfifo_alloc` returns for `size = 2 ^ 30` and `esize = 4` (storage `2 ^ 32` bytes),
with both cursors at `2 ^ 32 - 1`. The enqueue of `2 ^ 30` elements carries `in`
across `2 ^ 32`, to `2 ^ 30 - 1`, below `out`; the counts are the true ones (returned
count `2 ^ 30`, length `2 ^ 30`, unused 0). But the byte count `len * esize` wraps to 0
in `unsigned int`: no byte of the storage changes, and the dequeue of `2 ^ 30` elements
returns `2 ^ 30`, leaves the fifo empty and changes no byte of `dst`, so it does not
return the enqueued elements. -/
theorem C18_wrap_lost (f0 : __kfifo) :
    __kfifo_alloc kmalloc_ok f0 (2 ^ 30) 4 = some (big_fifo, 0) ∧
    big_edge_fifo
      = __kfifo.mk 4294967295 4294967295 big_fifo.mask big_fifo.esize big_fifo.data ∧
    WF big_edge_fifo 30 ∧
    sub32 big_edge_fifo.in_ big_edge_fifo.out ≤ big_edge_fifo.mask + 1 ∧
    2 ^ 32 ≤ big_edge_fifo.in_ + 2 ^ 30 ∧
    mul32 (2 ^ 30) big_edge_fifo.esize = 0 ∧
    (__kfifo_in big_edge_fifo (fun _ => 1) (2 ^ 30)).2 = 2 ^ 30 ∧
    (__kfifo_in big_edge_fifo (fun _ => 1) (2 ^ 30)).1.in_ = 2 ^ 30 - 1 ∧
    (__kfifo_in big_edge_fifo (fun _ => 1) (2 ^ 30)).1.in_
      < (__kfifo_in big_edge_fifo (fun _ => 1) (2 ^ 30)).1.out ∧
    sub32 (__kfifo_in big_edge_fifo (fun _ => 1) (2 ^ 30)).1.in_
      (__kfifo_in big_edge_fifo (fun _ => 1) (2 ^ 30)).1.out = 2 ^ 30 ∧
    kfifo_unused (__kfifo_in big_edge_fifo (fun _ => 1) (2 ^ 30)).1 = 0 ∧
    (∀ d, (__kfifo_in big_edge_fifo (fun _ => 1) (2 ^ 30)).1.data = some d →
      ∀ a, d a = 0) ∧
    (__kfifo_out (__kfifo_in big_edge_fifo (fun _ => 1) (2 ^ 30)).1 (fun _ => 0)
      (2 ^ 30)).2.2 = 2 ^ 30 ∧
    (__kfifo_out (__kfifo_in big_edge_fifo (fun _ => 1) (2 ^ 30)).1 (fun _ => 0)
      (2 ^ 30)).1.in_
      = (__kfifo_out (__kfifo_in big_edge_fifo (fun _ => 1) (2 ^ 30)).1 (fun _ => 0)
        (2 ^ 30)).1.out ∧
    (∀ a, (__kfifo_out (__kfifo_in big_edge_fifo (fun _ => 1) (2 ^ 30)).1 (fun _ => 0)
      (2 ^ 30)).2.1 a = 0) ∧
    ¬ elems (__kfifo_out (__kfifo_in big_edge_fifo (fun _ => 1) (2 ^ 30)).1 (fun _ => 0)
        (2 ^ 30)).2.1 big_edge_fifo.esize (2 ^ 30)
      = elems (fun _ => 1) big_edge_fifo.esize (2 ^ 30) := by
  have hd : (__kfifo_in big_edge_fifo (fun _ => 1) (2 ^ 30)).1.data
      = some (memcpy (memcpy (fun _ => 0) 4294967292 (fun _ => 1) 0 0) 0 (fun _ => 1) 0 0) :=
    rfl
  have hdst : ∀ a, (__kfifo_out (__kfifo_in big_edge_fifo (fun _ => 1) (2 ^ 30)).1
      (fun _ => 0) (2 ^ 30)).2.1 a = 0 := by
    intro a
    show memcpy (memcpy (fun _ => 0) 0
      (memcpy (memcpy (fun _ => 0) 4294967292 (fun _ => 1) 0 0) 0 (fun _ => 1) 0 0)
      4294967292 0) 0
      (memcpy (memcpy (fun _ => 0) 4294967292 (fun _ => 1) 0 0) 0 (fun _ => 1) 0 0) 0 0 a = 0
    simp [memcpy]
  refine ⟨rfl, rfl, by decide, by decide, by decide, by decide, by decide, by decide,
    by decide, by decide, by decide, ?_, by decide, by decide, hdst, ?_⟩
  · intro d h a
    rw [← Option.some.inj (hd.symm.trans h)]
    simp [memcpy]
  · intro h
    have h0 := congrArg (fun l => l[0]?) h
    simp only [elems, List.getElem?_map, List.getElem?_range (by decide : 0 < 2 ^ 30),
      Option.map_some] at h0
    revert h0
    decide

/-- C20 (amended). Zero-length records are accepted but return 0. On a well-formed byte
fifo with at least `w` bytes free, `__kfifo_in_r` with length 0 returns 0, advances `in`
by `w`, leaves `out` alone and appends a header of `w` zero bytes, so the fifo is not
empty afterwards and the empty record is queued behind the records already there; a
rejected enqueue returns 0 as well and leaves the structure unchanged. When the fifo was
empty, the following `__kfifo_out_r` returns 0, leaves `dst` untouched, advances `out`
by `w` and leaves the fifo empty again. When it held a record `r` at its head, the
following `__kfifo_out_r` returns that record instead: `min max (length r)` bytes of
`r`, `out` advanced by `length r + w`, and the zero header stays queued at the end. -/
theorem C20_zero_record (f : __kfifo) (k : Nat) (hb : ByteFifo f k) (w : Nat)
    (hw : w = 1 ∨ w = 2) (hfit : w ≤ kfifo_unused f) (buf dst : Mem) (max : Nat) :
    (__kfifo_in_r f buf 0 w).2 = 0 ∧
    (__kfifo_in_r f buf 0 w).1.in_ = add32 f.in_ w ∧
    (__kfifo_in_r f buf 0 w).1.out = f.out ∧
    (__kfifo_in_r f buf 0 w).1.in_ ≠ (__kfifo_in_r f buf 0 w).1.out ∧
    queued (__kfifo_in_r f buf 0 w).1 = queued f ++ List.replicate w 0 ∧
    (∀ (len : Nat) (buf2 : Mem), len < 2 ^ 32 → len + w > kfifo_unused f →
      __kfifo_in_r f buf2 len w = (f, 0)) ∧
    (∀ rs, RecRep w f rs → RecRep w (__kfifo_in_r f buf 0 w).1 (rs ++ [[]])) ∧
    (f.in_ = f.out →
      (__kfifo_out_r (__kfifo_in_r f buf 0 w).1 dst max w).2.2 = 0 ∧
      (∀ i, (__kfifo_out_r (__kfifo_in_r f buf 0 w).1 dst max w).2.1 i = dst i) ∧
      (__kfifo_out_r (__kfifo_in_r f buf 0 w).1 dst max w).1.out = add32 f.out w ∧
      (__kfifo_out_r (__kfifo_in_r f buf 0 w).1 dst max w).1.in_
        = (__kfifo_out_r (__kfifo_in_r f buf 0 w).1 dst max w).1.out) ∧
    (∀ r rest, queued f = frame w r ++ rest → r.length ≤ 2 ^ (8 * w) - 1 →
      (__kfifo_out_r (__kfifo_in_r f buf 0 w).1 dst max w).2.2 = min max r.length ∧
      bytes_of (__kfifo_out_r (__kfifo_in_r f buf 0 w).1 dst max w).2.1 (min max r.length)
        = r.take max ∧
      (__kfifo_out_r (__kfifo_in_r f buf 0 w).1 dst max w).1.out
        = add32 f.out (r.length + w) ∧
      queued (__kfifo_out_r (__kfifo_in_r f buf 0 w).1 dst max w).1
        = rest ++ List.replicate w 0) := by
  have hfit0 : 0 + w ≤ kfifo_unused f := by omega
  have h0 : (0 : Nat) ≤ 2 ^ (8 * w) - 1 := Nat.zero_le _
  have hbg := in_r_byteFifo hb hw (by decide : 0 < 2 ^ 32) hfit0 buf
  obtain ⟨hwf, he, hd, hlen⟩ := hb
  have hb : ByteFifo f k := ⟨hwf, he, hd, hlen⟩
  obtain ⟨d, hd⟩ := Option.isSome_iff_exists.mp hd
  have hq := in_r_queued hwf he hd hlen hw (by decide : 0 < 2 ^ 32) hfit0 buf
  obtain ⟨hret, hgi, hgo, hgm, hge⟩ :=
    in_r_fields hwf.2.2.2.1 hw (by decide : 0 < 2 ^ 32) hfit0 buf
  rw [Nat.zero_add] at hgi
  have hu := kfifo_unused_eq hwf hlen
  have hin := hwf.2.2.2.1
  have hout := hwf.2.2.2.2.1
  have hcap : f.mask + 1 ≤ 2 ^ 31 := hwf.2.2.1 ▸ pow_le_31 hwf.2.1
  have hz : hdr w 0 ++ bytes_of buf 0 = List.replicate w 0 := by
    rcases hw with h | h <;> subst h <;> rfl
  rw [hz] at hq
  have hne : (__kfifo_in_r f buf 0 w).1.in_ ≠ (__kfifo_in_r f buf 0 w).1.out := by
    intro h
    have h1 := queued_length (f := (__kfifo_in_r f buf 0 w).1)
      (Option.get_mem (hbg.2.2.1)) |>.symm
    rw [h, sub32_of_le (Nat.le_refl _) (hgo ▸ hout), Nat.sub_self, hq,
      List.length_append, List.length_replicate] at h1
    omega
  refine ⟨hret, hgi, hgo, hne, hq, ?_, ?_, ?_, ?_⟩
  · intro len buf2 hl hrej
    exact kfifo_in_r_reject f buf2 len w (by rw [add64_small (by omega)]; exact hrej)
  · intro rs hrep
    exact (rep_in hb hw hrep h0 hfit0 buf).2.2.1
  · intro hempty
    have hq0 : queued f = [] := ((recRep_nil_iff hb w).mpr hempty).1
    have hq2 : queued (__kfifo_in_r f buf 0 w).1 = frame w [] ++ [] := by
      rw [hq, hq0, List.nil_append, ← hz]
      rcases hw with h | h <;> subst h <;> rfl
    obtain ⟨_, _, e3, e4, _, _, e7, _⟩ := out_r_rec hbg hw (r := []) h0 hq2 dst max
    have hmin : min max ([] : List Nat).length = 0 := Nat.min_eq_right (Nat.zero_le _)
    rw [hmin] at e4 e7
    refine ⟨e4, fun i => e7 i (Nat.zero_le _), ?_, ?_⟩
    · rw [e3]
      show add32 (__kfifo_in_r f buf 0 w).1.out (0 + w) = _
      rw [hgo, Nat.zero_add]
    · rw [e3]
      show (__kfifo_in_r f buf 0 w).1.in_ = add32 (__kfifo_in_r f buf 0 w).1.out (0 + w)
      rw [hgi, hgo, hempty, Nat.zero_add]
  · intro r rest hqf hr
    have hq3 : queued (__kfifo_in_r f buf 0 w).1
        = frame w r ++ (rest ++ List.replicate w 0) := by
      rw [hq, hqf, List.append_assoc]
    obtain ⟨_, _, e3, e4, _, e6, _, e8, _⟩ := out_r_rec hbg hw hr hq3 dst max
    refine ⟨e4, e6, ?_, ?_⟩
    · rw [e3]
      show add32 (__kfifo_in_r f buf 0 w).1.out (r.length + w) = _
      rw [hgo]
    · rw [e3]
      exact e8

/-- C20 at a concrete input: the empty capacity 8 fifo with cursors at `2 ^ 32 - 1` and a
2-byte header. -/
theorem C20_zero_record_witness :
    ByteFifo rec_fifo 3 ∧ (2 = 1 ∨ 2 = 2) ∧ 2 ≤ kfifo_unused rec_fifo ∧
    ((__kfifo_in_r rec_fifo (fun a => a + 65) 0 2).2 = 0 ∧
    (__kfifo_in_r rec_fifo (fun a => a + 65) 0 2).1.in_ = add32 rec_fifo.in_ 2 ∧
    (__kfifo_in_r rec_fifo (fun a => a + 65) 0 2).1.out = rec_fifo.out ∧
    (__kfifo_in_r rec_fifo (fun a => a + 65) 0 2).1.in_
      ≠ (__kfifo_in_r rec_fifo (fun a => a + 65) 0 2).1.out ∧
    queued (__kfifo_in_r rec_fifo (fun a => a + 65) 0 2).1
      = queued rec_fifo ++ List.replicate 2 0 ∧
    (∀ (len : Nat) (buf2 : Mem), len < 2 ^ 32 → len + 2 > kfifo_unused rec_fifo →
      __kfifo_in_r rec_fifo buf2 len 2 = (rec_fifo, 0)) ∧
    (∀ rs, RecRep 2 rec_fifo rs →
      RecRep 2 (__kfifo_in_r rec_fifo (fun a => a + 65) 0 2).1 (rs ++ [[]])) ∧
    (rec_fifo.in_ = rec_fifo.out →
      (__kfifo_out_r (__kfifo_in_r rec_fifo (fun a => a + 65) 0 2).1 (fun _ => 7) 9 2).2.2
        = 0 ∧
      (∀ i, (__kfifo_out_r (__kfifo_in_r rec_fifo (fun a => a + 65) 0 2).1 (fun _ => 7) 9
        2).2.1 i = (fun _ => 7) i) ∧
      (__kfifo_out_r (__kfifo_in_r rec_fifo (fun a => a + 65) 0 2).1 (fun _ => 7) 9 2).1.out
        = add32 rec_fifo.out 2 ∧
      (__kfifo_out_r (__kfifo_in_r rec_fifo (fun a => a + 65) 0 2).1 (fun _ => 7) 9 2).1.in_
        = (__kfifo_out_r (__kfifo_in_r rec_fifo (fun a => a + 65) 0 2).1 (fun _ => 7) 9
          2).1.out) ∧
    (∀ r rest, queued rec_fifo = frame 2 r ++ rest → r.length ≤ 2 ^ (8 * 2) - 1 →
      (__kfifo_out_r (__kfifo_in_r rec_fifo (fun a => a + 65) 0 2).1 (fun _ => 7) 9 2).2.2
        = min 9 r.length ∧
      bytes_of (__kfifo_out_r (__kfifo_in_r rec_fifo (fun a => a + 65) 0 2).1 (fun _ => 7) 9
        2).2.1 (min 9 r.length) = r.take 9 ∧
      (__kfifo_out_r (__kfifo_in_r rec_fifo (fun a => a + 65) 0 2).1 (fun _ => 7) 9 2).1.out
        = add32 rec_fifo.out (r.length + 2) ∧
      queued (__kfifo_out_r (__kfifo_in_r rec_fifo (fun a => a + 65) 0 2).1 (fun _ => 7) 9
        2).1 = rest ++ List.replicate 2 0)) :=
  ⟨by decide, Or.inr rfl, by decide,
    C20_zero_record rec_fifo 3 (by decide) 2 (Or.inr rfl) (by decide) (fun a => a + 65)
      (fun _ => 7) 9⟩

/-- C20 as stated fails on the byte fifo `two_rec_fifo`, which holds the records
`[65, 66, 67]` and `[90]` and has 2 bytes free: `__kfifo_in_r` with length 0 and a 1-byte
header returns 0 and advances `in` by 1, but the following `__kfifo_out_r` returns 3,
the length of the oldest record, not 0, and advances `out` by 4, not by 1. -/
theorem C20_counterexample :
    ByteFifo two_rec_fifo 3 ∧ 1 ≤ kfifo_unused two_rec_fifo ∧
    (__kfifo_in_r two_rec_fifo (fun _ => 0) 0 1).2 = 0 ∧
    (__kfifo_in_r two_rec_fifo (fun _ => 0) 0 1).1.in_ = add32 two_rec_fifo.in_ 1 ∧
    (__kfifo_out_r (__kfifo_in_r two_rec_fifo (fun _ => 0) 0 1).1 (fun _ => 0) 9 1).2.2 = 3 ∧
    ¬ (__kfifo_out_r (__kfifo_in_r two_rec_fifo (fun _ => 0) 0 1).1 (fun _ => 0) 9 1).2.2
      = 0 ∧
    (__kfifo_out_r (__kfifo_in_r two_rec_fifo (fun _ => 0) 0 1).1 (fun _ => 0) 9 1).1.out
      = add32 two_rec_fifo.out 4 ∧
    ¬ (__kfifo_out_r (__kfifo_in_r two_rec_fifo (fun _ => 0) 0 1).1 (fun _ => 0) 9 1).1.out
      = add32 two_rec_fifo.out 1 := by
  decide

end Kfifo
